import Mathlib

/-!
Verification of the JSON value core (json_dom.cc) of the host repository.

This development gives a shallow embedding of the JSON data model and the
operations of sql/json_dom.cc: the DOM value algebra (merge, object insert),
the parser depth handling, comparison, sort-key and hash-key generation, and
the partial in-place binary update.

Modelling conventions, fixed once for the whole file:

* Machine integers are modelled as Int or Nat; byte strings as List Nat.
* The external decimal library (strings/decimal.cc, an out-of-scope
  collaborator of this repository) is modelled exactly: a my_decimal is a
  pair (m, e) denoting the rational m * 10^e, my_decimal_cmp compares the
  denoted rationals, and longlong2decimal / ulonglong2decimal are exact.
  double2decimal in the real code converts through the shortest
  round-tripping decimal string produced by my_gcvt (at most 17 significant
  digits), which is exact as a decimal with at most 81 digits of precision,
  so the E_DEC_OVERFLOW / E_DEC_TRUNCATED branches of
  compare_json_decimal_double are unreachable and are omitted here.
* An IEEE binary64 value is identified with its decimal image under my_gcvt:
  a pair (m, e) with at most 17 significant decimal digits, plus a flag that
  distinguishes the bit pattern of negative zero. This identification is
  order-faithful (shortest round-tripping strings of distinct doubles are
  ordered like the doubles). The cast from a 64-bit integer to double is
  modelled as rounding to the nearest value representable with 17
  significant decimal digits, ties to even, mirroring round-to-nearest.
* Temporal values (DATE, TIME, DATETIME, TIMESTAMP) are identified with
  their packed 64-bit value (TIME_to_longlong_packed), which is all the
  compare / sort-key / hash-key code reads from them.
-/

set_option maxHeartbeats 1000000

namespace JsonCore

/-! ## The kind enumeration (enum_json_type) and the type comparison table -/

/-- Kinds of JSON values, in the declaration order of enum_json_type, which
is also the index order of the type_comparison matrix in json_dom.cc. -/
inductive JType where
  | J_NULL | J_DECIMAL | J_INT | J_UINT | J_DOUBLE | J_STRING | J_OBJECT
  | J_ARRAY | J_BOOLEAN | J_DATE | J_TIME | J_DATETIME | J_TIMESTAMP
  | J_OPAQUE | J_ERROR
deriving DecidableEq, Repr, Fintype

/-- Index of a kind in the type_comparison matrix (its enum value). -/
def jtypeIdx : JType → Nat
  | .J_NULL => 0 | .J_DECIMAL => 1 | .J_INT => 2 | .J_UINT => 3
  | .J_DOUBLE => 4 | .J_STRING => 5 | .J_OBJECT => 6 | .J_ARRAY => 7
  | .J_BOOLEAN => 8 | .J_DATE => 9 | .J_TIME => 10 | .J_DATETIME => 11
  | .J_TIMESTAMP => 12 | .J_OPAQUE => 13 | .J_ERROR => 14

/-- The 15 x 15 matrix type_comparison from json_dom.cc, row by row. -/
def type_comparison : List (List Int) :=
  [ /- NULL -/      [0, -1, -1, -1, -1, -1, -1, -1, -1, -1, -1, -1, -1, -1, -1],
    /- DECIMAL -/   [1,  0,  0,  0,  0, -1, -1, -1, -1, -1, -1, -1, -1, -1, -1],
    /- INT -/       [1,  0,  0,  0,  0, -1, -1, -1, -1, -1, -1, -1, -1, -1, -1],
    /- UINT -/      [1,  0,  0,  0,  0, -1, -1, -1, -1, -1, -1, -1, -1, -1, -1],
    /- DOUBLE -/    [1,  0,  0,  0,  0, -1, -1, -1, -1, -1, -1, -1, -1, -1, -1],
    /- STRING -/    [1,  1,  1,  1,  1,  0, -1, -1, -1, -1, -1, -1, -1, -1, -1],
    /- OBJECT -/    [1,  1,  1,  1,  1,  1,  0, -1, -1, -1, -1, -1, -1, -1, -1],
    /- ARRAY -/     [1,  1,  1,  1,  1,  1,  1,  0, -1, -1, -1, -1, -1, -1, -1],
    /- BOOLEAN -/   [1,  1,  1,  1,  1,  1,  1,  1,  0, -1, -1, -1, -1, -1, -1],
    /- DATE -/      [1,  1,  1,  1,  1,  1,  1,  1,  1,  0, -1, -1, -1, -1, -1],
    /- TIME -/      [1,  1,  1,  1,  1,  1,  1,  1,  1,  1,  0, -1, -1, -1, -1],
    /- DATETIME -/  [1,  1,  1,  1,  1,  1,  1,  1,  1,  1,  1,  0,  0, -1, -1],
    /- TIMESTAMP -/ [1,  1,  1,  1,  1,  1,  1,  1,  1,  1,  1,  0,  0, -1, -1],
    /- OPAQUE -/    [1,  1,  1,  1,  1,  1,  1,  1,  1,  1,  1,  1,  1,  0, -1],
    /- ERROR -/     [1,  1,  1,  1,  1,  1,  1,  1,  1,  1,  1,  1,  1,  1,  1] ]

/-- Lookup in the type comparison matrix, as the array indexing in
Json_wrapper::compare. -/
def typeComparison (a b : JType) : Int :=
  ((type_comparison.getD (jtypeIdx a) []).getD (jtypeIdx b) 0)

/-! ## Numeric payloads -/

/-- Model of an IEEE binary64 double by its decimal image under my_gcvt
(shortest round-tripping decimal string): value m * 10^e with at most 17
significant decimal digits in m. The neg0 flag records the sign bit of a
zero, so that the bit patterns of 0.0 and -0.0 stay distinguishable while
their numeric value is equal. -/
structure DblV where
  m : Int
  e : Int
  neg0 : Bool
deriving DecidableEq, Repr

/-- Model of a my_decimal: value m * 10^e. -/
structure DecV where
  m : Int
  e : Int
deriving DecidableEq, Repr

/-- Numeric value denoted by a double. -/
def dblVal (d : DblV) : ℚ := (d.m : ℚ) * (10 : ℚ) ^ d.e

/-- Numeric value denoted by a decimal. -/
def decVal (d : DecV) : ℚ := (d.m : ℚ) * (10 : ℚ) ^ d.e

/-- Sign bit of a my_decimal (the model carries no negative zero, so this is
just the sign of the mantissa). -/
def decSign (d : DecV) : Bool := d.m < 0

/-- my_decimal_is_zero. -/
def decIsZero (d : DecV) : Bool := d.m = 0

/-- Number of decimal digits of a natural number (1 for 0, matching the
length of its decimal numeral). -/
def numDigits (n : Nat) : Nat := if n = 0 then 1 else Nat.log 10 n + 1

/-- Rounding of a natural number to at most 17 significant decimal digits,
nearest value, ties to even. Models the low 17-digit granularity of the
decimal image of an integer cast to double. Returns the rounded value. -/
def roundNat17 (n : Nat) : Nat :=
  if n < 10 ^ 17 then n
  else
    let s := numDigits n - 17
    let d := 10 ^ s
    let q := n / d
    let r := n % d
    let q2 :=
      if d < 2 * r then q + 1
      else if 2 * r < d then q
      else if q % 2 = 0 then q else q + 1
    q2 * d

/-- Cast of a signed 64-bit integer to double (static_cast in
compare_json_double_int), in the decimal-image model: round the magnitude to
17 significant digits, nearest, ties to even. -/
def longlongToDouble (b : Int) : DblV :=
  ⟨Int.sign b * roundNat17 b.natAbs, 0, false⟩

/-! ## Scalar comparison helpers (json_dom.cc statics) -/

/-- compare_numbers from json_dom.cc: (a < b) ? -1 : ((a == b) ? 0 : 1). -/
def compare_numbers {α : Type} [LinearOrder α] (a b : α) : Int :=
  if a < b then -1 else if a = b then 0 else 1

/-- compare_json_decimal_double. The double2decimal conversion is exact in
this model (see the file header), so the E_DEC_OVERFLOW and E_DEC_TRUNCATED
branches are unreachable and the E_DEC_OK branch is kept. -/
def compare_json_decimal_double (a : DecV) (b : DblV) : Int :=
  let a_is_zero := decIsZero a
  let a_is_negative := decSign a && !a_is_zero
  let b_is_negative := dblVal b < 0
  if a_is_negative ≠ b_is_negative then (if a_is_negative then -1 else 1)
  else if a_is_zero then (if dblVal b = 0 then 0 else -1)
  else if dblVal b = 0 then 1
  else compare_numbers (decVal a) (dblVal b)

/-- compare_json_decimal_int; longlong2decimal is exact. -/
def compare_json_decimal_int (a : DecV) (b : Int) : Int :=
  if decIsZero a then (if b = 0 then 0 else if b > 0 then -1 else 1)
  else if b = 0 then (if decSign a then -1 else 1)
  else if decSign a ≠ decide (b < 0) then (if b < 0 then 1 else -1)
  else compare_numbers (decVal a) ((b : ℚ))

/-- compare_json_decimal_uint; ulonglong2decimal is exact. The unsigned
value is carried as a nonnegative Int. -/
def compare_json_decimal_uint (a : DecV) (b : Int) : Int :=
  if decIsZero a then (if b = 0 then 0 else -1)
  else if decSign a then -1
  else if b = 0 then 1
  else compare_numbers (decVal a) ((b : ℚ))

/-- compare_json_double_int: first compare as doubles; on a tie, convert the
integer to decimal (exactly) and compare against the double decimally. -/
def compare_json_double_int (a : DblV) (b : Int) : Int :=
  let b_double := longlongToDouble b
  if dblVal a < dblVal b_double then -1
  else if dblVal b_double < dblVal a then 1
  else -(compare_json_decimal_double ⟨b, 0⟩ a)

/-- compare_json_double_uint, same two-step scheme as
compare_json_double_int. -/
def compare_json_double_uint (a : DblV) (b : Int) : Int :=
  let b_double := longlongToDouble b
  if dblVal a < dblVal b_double then -1
  else if dblVal b_double < dblVal a then 1
  else -(compare_json_decimal_double ⟨b, 0⟩ a)

/-- compare_json_int_uint. -/
def compare_json_int_uint (a : Int) (b : Int) : Int :=
  if a < 0 then -1 else compare_numbers a b

/-- memcmp over the common prefix of two byte strings, returning the sign of
the first difference, 0 if the shorter string is a prefix of the longer. -/
def memcmpPrefix : List Nat → List Nat → Int
  | x :: xs, y :: ys =>
      if x < y then -1 else if y < x then 1 else memcmpPrefix xs ys
  | _, _ => 0

/-- compare_json_strings: memcmp over min length, then compare lengths. -/
def compare_json_strings (s1 s2 : List Nat) : Int :=
  let cmp := memcmpPrefix s1 s2
  if cmp ≠ 0 then cmp else compare_numbers s1.length s2.length

/-! ## The JSON value -/

/-- A JSON value, in the wrapper view of json_dom.cc: the 14 kinds of
§3 of the specification (J_ERROR marks only unreadable wrappers and is not a
value kind). Objects are association lists ordered by the object key
comparator. Temporals carry their packed 64-bit value. -/
inductive Json where
  | null
  | boolean (b : Bool)
  | intV (i : Int)
  | uintV (u : Int)
  | doubleV (d : DblV)
  | decimalV (d : DecV)
  | stringV (s : List Nat)
  | opaqueV (ft : Nat) (data : List Nat)
  | dateV (p : Int)
  | timeV (p : Int)
  | datetimeV (p : Int)
  | timestampV (p : Int)
  | arrayV (elems : List Json)
  | objectV (fields : List (List Nat × Json))

/-- Kind of a value, as Json_wrapper::type() reports it for a nonempty
wrapper (OPAQUE decimal and temporal field types surface as their logical
kinds). -/
def kindOf : Json → JType
  | .null => .J_NULL
  | .boolean _ => .J_BOOLEAN
  | .intV _ => .J_INT
  | .uintV _ => .J_UINT
  | .doubleV _ => .J_DOUBLE
  | .decimalV _ => .J_DECIMAL
  | .stringV _ => .J_STRING
  | .opaqueV _ _ => .J_OPAQUE
  | .dateV _ => .J_DATE
  | .timeV _ => .J_TIME
  | .datetimeV _ => .J_DATETIME
  | .timestampV _ => .J_TIMESTAMP
  | .arrayV _ => .J_ARRAY
  | .objectV _ => .J_OBJECT

mutual

/-- Json_wrapper::compare. The kind table is consulted first; a nonzero
entry decides; otherwise the kinds are equal or in the same precedence
class and the payload comparison below runs. -/
def jcompare (a b : Json) : Int :=
  let cmp := typeComparison (kindOf a) (kindOf b)
  if cmp ≠ 0 then cmp
  else jcomparePayload a b

/-- The payload switch of Json_wrapper::compare, reached when the kind
table gives 0. The final catch-all 1 mirrors the return after the
unreachable assertion at the end of the source. -/
def jcomparePayload (a b : Json) : Int :=
  match a, b with
    | .arrayV xs, .arrayV ys => compareArrays xs ys
    | .objectV xs, .objectV ys =>
        let c := compare_numbers xs.length ys.length
        if c ≠ 0 then c else compareFields xs ys
    | .stringV s1, .stringV s2 => compare_json_strings s1 s2
    | .intV i, .intV j => compare_numbers i j
    | .intV i, .uintV u => compare_json_int_uint i u
    | .intV i, .doubleV d => -(compare_json_double_int d i)
    | .intV i, .decimalV x => -(compare_json_decimal_int x i)
    | .uintV u, .uintV v => compare_numbers u v
    | .uintV u, .intV i => -(compare_json_int_uint i u)
    | .uintV u, .doubleV d => -(compare_json_double_uint d u)
    | .uintV u, .decimalV x => -(compare_json_decimal_uint x u)
    | .doubleV d, .doubleV e => compare_numbers (dblVal d) (dblVal e)
    | .doubleV d, .intV i => compare_json_double_int d i
    | .doubleV d, .uintV u => compare_json_double_uint d u
    | .doubleV d, .decimalV x => -(compare_json_decimal_double x d)
    | .decimalV x, .decimalV y =>
        if decIsZero x && decIsZero y then 0
        else compare_numbers (decVal x) (decVal y)
    | .decimalV x, .intV i => compare_json_decimal_int x i
    | .decimalV x, .uintV u => compare_json_decimal_uint x u
    | .decimalV x, .doubleV d => compare_json_decimal_double x d
    | .boolean p, .boolean q => compare_numbers p q
    | .datetimeV p, .datetimeV q => compare_numbers p q
    | .datetimeV p, .timestampV q => compare_numbers p q
    | .timestampV p, .datetimeV q => compare_numbers p q
    | .timestampV p, .timestampV q => compare_numbers p q
    | .timeV p, .timeV q => compare_numbers p q
    | .dateV p, .dateV q => compare_numbers p q
    | .opaqueV f1 d1, .opaqueV f2 d2 =>
        let c := compare_numbers f1 f2
        if c ≠ 0 then c else compare_json_strings d1 d2
    | .null, .null => 0
    | _, _ => 1

/-- Array comparison: elementwise over the common prefix, ties broken by
length (the loop over min size followed by compare_numbers on the sizes). -/
def compareArrays : List Json → List Json → Int
  | [], [] => 0
  | [], _ :: _ => -1
  | _ :: _, [] => 1
  | x :: xs, y :: ys =>
      let c := jcompare x y
      if c ≠ 0 then c else compareArrays xs ys

/-- Pairwise object comparison (called only on field lists of equal length):
key then value on each pair, in the internal key order. -/
def compareFields : List (List Nat × Json) → List (List Nat × Json) → Int
  | (k1, v1) :: r1, (k2, v2) :: r2 =>
      let c := compare_json_strings k1 k2
      if c ≠ 0 then c
      else
        let c2 := jcompare v1 v2
        if c2 ≠ 0 then c2 else compareFields r1 r2
  | _, _ => 0

end


end JsonCore

namespace JsonCore

/-! ## Object insertion (Json_object::add_alias) and the key comparator -/

/-- Json_key_comparator: shorter key first, equal lengths by unsigned byte
order (memcmp). -/
def json_key_lt (k1 k2 : List Nat) : Bool :=
  if k1.length ≠ k2.length then decide (k1.length < k2.length)
  else decide (memcmpPrefix k1 k2 = -1)

/-- Insertion into the sorted field list of a Json_object, with the
semantics of std::map::insert: if the key is already present the map is
unchanged and the new value is dropped (first write wins). -/
def addAliasF : List (List Nat × Json) → List Nat → Json → List (List Nat × Json)
  | [], k, v => [(k, v)]
  | (k2, w) :: rest, k, v =>
      if k = k2 then (k2, w) :: rest
      else if json_key_lt k k2 then (k, v) :: (k2, w) :: rest
      else (k2, w) :: addAliasF rest k v

/-- Json_object::add_alias. A null value returns true (failure); otherwise
the value is inserted unless the key is present (in which case it is
silently dropped), and false (success) is returned either way. -/
def add_alias (fields : List (List Nat × Json)) (k : List Nat)
    (v : Option Json) : List (List Nat × Json) × Bool :=
  match v with
  | none => (fields, true)
  | some v => (addAliasF fields k v, false)

/-- Lookup in an object field list (Json_object::get). -/
def lookupF : List (List Nat × Json) → List Nat → Option Json
  | [], _ => none
  | (k2, w) :: rest, k => if k = k2 then some w else lookupF rest k

/-! ## Merge (merge_doms, Json_object::consume, Json_array::consume) -/

/-- wrap_in_array: auto-wrap a dom in a one-element array. -/
def wrap_in_array (d : Json) : Json := .arrayV [d]

/-- make_mergeable: arrays and objects pass through, everything else is
wrapped in an array. -/
def make_mergeable (c : Json) : Json :=
  match c with
  | .arrayV _ => c
  | .objectV _ => c
  | _ => wrap_in_array c

/-- Elements a value contributes when it is concatenated on the array path
of merge_doms: an array contributes its elements, anything else (an object,
after the second wrap_in_array) contributes itself. -/
def asArrayElems : Json → List Json
  | .arrayV xs => xs
  | x => [x]

mutual

/-- merge_doms. Both inputs are first made mergeable; if either side is an
array the non-array side is wrapped and Json_array::consume concatenates,
otherwise both are objects and Json_object::consume merges them pairwise.
The match below is the same case split: the object/object case is exactly
the case where neither original input is an array nor a scalar. -/
def merge_doms (l r : Json) : Json :=
  match l, r with
  | .objectV fl, .objectV fr => .objectV (objConsume fl fr)
  | _, _ =>
      .arrayV (asArrayElems (make_mergeable l) ++ asArrayElems (make_mergeable r))
termination_by (sizeOf r, 0)
decreasing_by all_goals (simp_wf; omega)

/-- Json_object::consume: walk the fields of the other object in its key
order; keys not present in this object are added, keys present in both have
their values merged with merge_doms. -/
def objConsume (this other : List (List Nat × Json)) : List (List Nat × Json) :=
  match other with
  | [] => this
  | (k, v) :: rest => objConsume (consumeStep this k v) rest
termination_by (sizeOf other, 0)
decreasing_by all_goals (simp_wf; omega)

/-- One step of Json_object::consume: insert key k with value v into the
sorted field list, merging with the existing value if the key is present
(this is where the recursion of JSON_MERGE occurs). -/
def consumeStep (this : List (List Nat × Json)) (k : List Nat) (v : Json) :
    List (List Nat × Json) :=
  match this with
  | [] => [(k, v)]
  | (k2, w) :: rest =>
      if k = k2 then (k2, merge_doms w v) :: rest
      else if json_key_lt k k2 then (k, v) :: (k2, w) :: rest
      else (k2, w) :: consumeStep rest k v
termination_by (sizeOf v, sizeOf this)
decreasing_by all_goals (simp_wf; omega)

end

end JsonCore

namespace JsonCore

/-! ## Document depth (Json_dom::depth) -/

mutual

/-- Depth of a JSON value: 1 for scalars, 1 plus the deepest child for
containers (Json_object::depth and Json_array::depth). -/
def jdepth : Json → Nat
  | .arrayV xs => 1 + depthList xs
  | .objectV fs => 1 + depthFields fs
  | _ => 1

/-- Largest depth among a list of children (0 if empty). -/
def depthList : List Json → Nat
  | [] => 0
  | x :: xs => max (jdepth x) (depthList xs)

/-- Largest depth among the values of a field list (0 if empty). -/
def depthFields : List (List Nat × Json) → Nat
  | [] => 0
  | (_, v) :: rest => max (jdepth v) (depthFields rest)

end

/-! ## The text parse handler (Rapid_json_handler)

The rapidjson reader is an external collaborator: it tokenizes the input
text and streams one event per syntactic element, at the byte offset of
that element, into the handler. The handler below is the state machine of
Rapid_json_handler: the parent chain (m_current_element and the parent
back-pointers) is represented as an explicit stack of frames under
construction, and the pending object key (m_key) is stored in the frame of
the enclosing object. The original places a freshly allocated container
into its parent when it starts and then mutates it through a pointer; this
stack model places the finished container when it ends, which builds the
same tree. -/

/-- JSON_DOCUMENT_MAX_DEPTH. -/
def JSON_DOCUMENT_MAX_DEPTH : Nat := 100

/-- check_json_depth: true (error) when the depth exceeds the maximum. -/
def check_json_depth (depth : Nat) : Bool := JSON_DOCUMENT_MAX_DEPTH < depth

/-- Parse events streamed by the rapidjson reader. Signed and unsigned
integer events both appear (the reader sends Json_int for values that fit
in a signed 64-bit integer and Json_uint above that); the double event
carries a finite double (the handler rejects non-finite doubles before this
model is reached). -/
inductive PEvent where
  | nullE
  | boolE (b : Bool)
  | intE (i : Int)
  | uintE (u : Int)
  | doubleE (d : DblV)
  | stringE (s : List Nat)
  | startObject
  | keyE (k : List Nat)
  | endObject
  | startArray
  | endArray
deriving DecidableEq, Repr

/-- Handler states (enum_state of Rapid_json_handler). -/
inductive HSt where
  | expect_anything
  | expect_array_value
  | expect_object_key
  | expect_object_value
  | expect_eof
deriving DecidableEq, Repr

/-- A container under construction: an array with the elements seen so far,
or an object with the fields seen so far and the pending member key. -/
inductive Frame where
  | fArr (elems : List Json)
  | fObj (fields : List (List Nat × Json)) (pk : List Nat)

/-- Handler state: current expectation, stack of open containers (innermost
first), the finished root if any, and m_depth. -/
structure HState where
  state : HSt
  stack : List Frame
  root : Option Json
  depth : Nat

/-- The initial handler state. -/
def initH : HState := ⟨.expect_anything, [], none, 0⟩

/-- seeing_value: the depth check (at m_depth + 1) followed by placement of
a completed value according to the current state. Returns none when parsing
must stop. -/
def seeing_value (st : HState) (v : Json) : Option HState :=
  if check_json_depth (st.depth + 1) then none
  else
    match st.state, st.stack with
    | .expect_anything, [] => some ⟨.expect_eof, [], some v, st.depth⟩
    | .expect_array_value, .fArr xs :: rest =>
        some ⟨.expect_array_value, .fArr (xs ++ [v]) :: rest, st.root, st.depth⟩
    | .expect_object_value, .fObj fs pk :: rest =>
        some ⟨.expect_object_key, .fObj (addAliasF fs pk v) pk :: rest, st.root, st.depth⟩
    | _, _ => none

/-- Placement of a finished container into the enclosing frame (the pointer
restoration of end_object_or_array): gives new state, stack and root. -/
def placeDone (stack : List Frame) (root : Option Json) (v : Json) :
    HSt × List Frame × Option Json :=
  match stack with
  | [] => (.expect_eof, [], some v)
  | .fArr xs :: rest => (.expect_array_value, .fArr (xs ++ [v]) :: rest, root)
  | .fObj fs pk :: rest =>
      (.expect_object_key, .fObj (addAliasF fs pk v) pk :: rest, root)

/-- One handler callback. Scalar events go through seeing_value; start
events perform the seeing_value depth and state checks, push a frame and
increment m_depth; key events check the depth and record the member name;
end events decrement m_depth and restore the parent as current element. -/
def stepH (st : HState) (ev : PEvent) : Option HState :=
  match ev with
  | .nullE => seeing_value st .null
  | .boolE b => seeing_value st (.boolean b)
  | .intE i => seeing_value st (.intV i)
  | .uintE u => seeing_value st (.uintV u)
  | .doubleE d => seeing_value st (.doubleV d)
  | .stringE s => seeing_value st (.stringV s)
  | .keyE k =>
      if check_json_depth (st.depth + 1) then none
      else
        match st.state, st.stack with
        | .expect_object_key, .fObj fs _ :: rest =>
            some ⟨.expect_object_value, .fObj fs k :: rest, st.root, st.depth⟩
        | _, _ => none
  | .startObject =>
      if check_json_depth (st.depth + 1) then none
      else
        match st.state, st.stack with
        | .expect_anything, [] =>
            some ⟨.expect_object_key, [.fObj [] []], st.root, st.depth + 1⟩
        | .expect_array_value, .fArr xs :: rest =>
            some ⟨.expect_object_key, .fObj [] [] :: .fArr xs :: rest,
                  st.root, st.depth + 1⟩
        | .expect_object_value, .fObj fs pk :: rest =>
            some ⟨.expect_object_key, .fObj [] [] :: .fObj fs pk :: rest,
                  st.root, st.depth + 1⟩
        | _, _ => none
  | .startArray =>
      if check_json_depth (st.depth + 1) then none
      else
        match st.state, st.stack with
        | .expect_anything, [] =>
            some ⟨.expect_array_value, [.fArr []], st.root, st.depth + 1⟩
        | .expect_array_value, .fArr xs :: rest =>
            some ⟨.expect_array_value, .fArr [] :: .fArr xs :: rest,
                  st.root, st.depth + 1⟩
        | .expect_object_value, .fObj fs pk :: rest =>
            some ⟨.expect_array_value, .fArr [] :: .fObj fs pk :: rest,
                  st.root, st.depth + 1⟩
        | _, _ => none
  | .endObject =>
      match st.state, st.stack with
      | .expect_object_key, .fObj fs _ :: rest =>
          let p := placeDone rest st.root (.objectV fs)
          some ⟨p.1, p.2.1, p.2.2, st.depth - 1⟩
      | _, _ => none
  | .endArray =>
      match st.state, st.stack with
      | .expect_array_value, .fArr xs :: rest =>
          let p := placeDone rest st.root (.arrayV xs)
          some ⟨p.1, p.2.1, p.2.2, st.depth - 1⟩
      | _, _ => none

/-- Run the handler over a list of events from a given state; none when a
callback returned false and parsing stopped. -/
def runFrom (st : HState) : List PEvent → Option HState
  | [] => some st
  | e :: es =>
      match stepH st e with
      | some st2 => runFrom st2 es
      | none => none

/-- Run the handler from the initial state (Json_dom::parse). -/
def runH (evs : List PEvent) : Option HState := runFrom initH evs

/-- Index of the event on which the handler stops the parse, if any. With
one byte per token (as in a string of opening brackets) this is the byte
offset reported by the reader. -/
def failIdx : HState → List PEvent → Nat → Option Nat
  | _, [], _ => none
  | st, e :: es, i =>
      match stepH st e with
      | some st2 => failIdx st2 es (i + 1)
      | none => some i

mutual

/-- The event stream the rapidjson reader produces for a document whose
parse result is the given tree (defined for the kinds the text parser
produces, see parseableB). -/
def eventsOf : Json → List PEvent
  | .null => [.nullE]
  | .boolean b => [.boolE b]
  | .intV i => [.intE i]
  | .uintV u => [.uintE u]
  | .doubleV d => [.doubleE d]
  | .stringV s => [.stringE s]
  | .arrayV xs => .startArray :: (eventsList xs ++ [.endArray])
  | .objectV fs => .startObject :: (eventsFields fs ++ [.endObject])
  | _ => [.nullE]

/-- Events of a list of array elements. -/
def eventsList : List Json → List PEvent
  | [] => []
  | x :: xs => eventsOf x ++ eventsList xs

/-- Events of a list of object members (key then value). -/
def eventsFields : List (List Nat × Json) → List PEvent
  | [] => []
  | (k, v) :: rest => .keyE k :: (eventsOf v ++ eventsFields rest)

end

mutual

/-- Kinds the text parser can produce: everything except decimals, opaque
values and temporals. -/
def parseableB : Json → Bool
  | .null | .boolean _ | .intV _ | .uintV _ | .doubleV _ | .stringV _ => true
  | .arrayV xs => parseableListB xs
  | .objectV fs => parseableFieldsB fs
  | _ => false

/-- parseableB on every element of a list. -/
def parseableListB : List Json → Bool
  | [] => true
  | x :: xs => parseableB x && parseableListB xs

/-- parseableB on every value of a field list. -/
def parseableFieldsB : List (List Nat × Json) → Bool
  | [] => true
  | (_, v) :: rest => parseableB v && parseableFieldsB rest

end

/-! ## The wrapper facade (Json_wrapper), DOM-backed -/

/-- Json_wrapper holding a DOM pointer: the constructor taking a dom sets
the alias bit when the pointer is null, making the wrapper empty. -/
structure Json_wrapper where
  dom_value : Option Json
  dom_alias : Bool

/-- The Json_wrapper(Json_dom) constructor. -/
def wrapperOfDom (d : Option Json) : Json_wrapper := ⟨d, d.isNone⟩

/-- Json_wrapper::type: J_ERROR for an empty wrapper, otherwise the kind of
the dom. -/
def Json_wrapper.wtype (w : Json_wrapper) : JType :=
  match w.dom_value with
  | none => .J_ERROR
  | some d => kindOf d

/-- Json_wrapper::length: 0 for an empty wrapper, element count for
containers, 1 for scalars. -/
def Json_wrapper.wlength (w : Json_wrapper) : Nat :=
  match w.dom_value with
  | none => 0
  | some (.arrayV xs) => xs.length
  | some (.objectV fs) => fs.length
  | some _ => 1

/-- Json_wrapper::depth: 0 for an empty wrapper, dom depth otherwise. -/
def Json_wrapper.wdepth (w : Json_wrapper) : Nat :=
  match w.dom_value with
  | none => 0
  | some d => jdepth d

end JsonCore

namespace JsonCore

/-! ## Sort keys (Json_wrapper::make_sort_key)

The claims about sort keys concern memcmp of keys written into sufficiently
large buffers, so the buffer is modelled as unbounded: append never
truncates, and append_str_and_len never emits the four-byte length suffix
(the source emits it only when the string does not fit in the remaining
buffer space). memcmp of two keys inside large zero-filled buffers is
modelled by memcmpZ, which compares the shorter key as if it were extended
with zero bytes. -/

/-- VARLEN_PREFIX. -/
def VARLEN_PREFIX : Nat := 4

/-- DBL_DIG. -/
def DBL_DIG : Nat := 15

/-- DECIMAL_MAX_POSSIBLE_PRECISION (9 decimal digits per big digit, 9 big
digits). -/
def DECIMAL_MAX_POSSIBLE_PRECISION : Nat := 81

/-- MAX_NUMBER_SORT_PAD. -/
def MAX_NUMBER_SORT_PAD : Nat :=
  max DBL_DIG DECIMAL_MAX_POSSIBLE_PRECISION + VARLEN_PREFIX + 3

/-- Big-endian byte string of width w for a natural number (the output of
copy_integer on an unsigned source). -/
def beBytes (w : Nat) (n : Nat) : List Nat :=
  (List.range w).map (fun i => n / 256 ^ (w - 1 - i) % 256)

/-- copy_integer on a signed little-endian source of width w bytes:
big-endian order with the sign bit of the most significant byte flipped,
which for v in the representable range is the big-endian encoding of
v + 2^(8w-1). -/
def intKeyBytes (w : Nat) (v : Int) : List Nat :=
  beBytes w (v + 2 ^ (8 * w - 1)).toNat

/-- make_json_numeric_sort_key, applied to a number m * 10^e given by its
exact decimal digit string (the integer digit string for INT and UINT, the
my_decimal2string output for DECIMAL, the my_gcvt image for DOUBLE; all of
them carry the digits of m and place the value 10^e relative to them, and
the key produced below is invariant under trailing zeros in m, as the
padding makes it in the source). A zero gets the single byte
JSON_KEY_NUMBER_ZERO; otherwise the sign tag, the two-byte exponent key
(negated for negatives), the significant digits in ASCII (inverted for
negatives) and padding up to MAX_NUMBER_SORT_PAD. -/
def make_json_numeric_sort_key (m : Int) (e : Int) : List Nat :=
  if m = 0 then [2]
  else
    let neg := m < 0
    let nd := numDigits m.natAbs
    let ex : Int := (nd - 1 : Nat) + e
    let exS := if neg then -ex else ex
    let tag := if neg then 1 else 3
    let digs := (Nat.digits 10 m.natAbs).reverse.map
        (fun d => if neg then 48 + (9 - d) else 48 + d)
    let base := tag :: (intKeyBytes 2 exS ++ digs)
    base ++ List.replicate (MAX_NUMBER_SORT_PAD - base.length) (if neg then 57 else 48)

/-- Json_wrapper::make_sort_key into a sufficiently large buffer. The
second component records whether the not-supported warning for sorting of
non-scalar values was raised. Key tags: NULL 0, NUMBER_NEG 1, NUMBER_ZERO
2, NUMBER_POS 3, STRING 4, OBJECT 5, ARRAY 6, FALSE 7, TRUE 8, DATE 9,
TIME 10, DATETIME 11, OPAQUE 12. -/
def make_sort_key : Json → List Nat × Bool
  | .null => ([0], false)
  | .decimalV d => (make_json_numeric_sort_key d.m d.e, false)
  | .intV i => (make_json_numeric_sort_key i 0, false)
  | .uintV u => (make_json_numeric_sort_key u 0, false)
  | .doubleV d => (make_json_numeric_sort_key d.m d.e, false)
  | .stringV s => (4 :: s, false)
  | .objectV fs => (5 :: beBytes 4 fs.length, true)
  | .arrayV xs => (6 :: beBytes 4 xs.length, true)
  | .boolean b => ([if b then 8 else 7], false)
  | .dateV p => (9 :: intKeyBytes 8 p, false)
  | .timeV p => (10 :: intKeyBytes 8 p, false)
  | .datetimeV p => (11 :: intKeyBytes 8 p, false)
  | .timestampV p => (11 :: intKeyBytes 8 p, false)
  | .opaqueV ft data => (12 :: ft :: data, false)

/-- memcmp of two sort keys written into equal-sized, sufficiently large,
zero-filled buffers: the shorter key is compared as if extended by zeros. -/
def memcmpZ : List Nat → List Nat → Int
  | [], [] => 0
  | x :: xs, y :: ys => if x < y then -1 else if y < x then 1 else memcmpZ xs ys
  | x :: xs, [] => if 0 < x then 1 else memcmpZ xs []
  | [], y :: ys => if 0 < y then -1 else memcmpZ [] ys

/-! ## Hash keys (Json_wrapper::make_hash_key, Wrapper_hash_key) -/

/-- Wrapper_hash_key::add_to_crc: the rolling 64-bit accumulator; the shift
amount is 8 * sizeof(ha_checksum) - 8 = 24 bits. -/
def add_to_crc (crc : Nat) (ch : Nat) : Nat :=
  (crc * 256 + ch % 256 + crc / 2 ^ 24) % 2 ^ 64

/-- Wrapper_hash_key::add_string. -/
def add_string (crc : Nat) (s : List Nat) : Nat := s.foldl add_to_crc crc

/-- Little-endian byte string of width w. -/
def leBytes (w : Nat) (n : Nat) : List Nat :=
  (List.range w).map (fun i => n / 256 ^ i % 256)

/-- int8store: the 8 little-endian bytes of a 64-bit integer. -/
def int8store_bytes (v : Int) : List Nat := leBytes 8 (v.emod (2 ^ 64)).toNat

/-- Wrapper_hash_key::add_integer. -/
def add_integer (crc : Nat) (v : Int) : Nat := add_string crc (int8store_bytes v)

/-- Canonical form of a decimal mantissa and exponent: trailing zeros of the
mantissa moved into the exponent (unique for a nonzero value). -/
def stripZeros (n : Nat) : Nat × Nat :=
  if h : n ≠ 0 ∧ n % 10 = 0 then
    let p := stripZeros (n / 10)
    (p.1, p.2 + 1)
  else (n, 0)
decreasing_by exact Nat.div_lt_self (Nat.pos_of_ne_zero h.1) (by omega)

/-- Canonical (mantissa, exponent) pair of m * 10^e. -/
def canonNum (m e : Int) : Int × Int :=
  if m = 0 then (0, 0)
  else
    let p := stripZeros m.natAbs
    (Int.sign m * p.1, e + p.2)

/-- float8store, the 8 bytes of the IEEE representation of a double. Two
doubles have the same bytes exactly when they are the same double, so the
bytes are modelled as a fixed function of the canonical decimal image; the
claims depend only on equality of these byte strings. -/
def float8store (d : DblV) : List Nat :=
  let c := canonNum d.m d.e
  leBytes 8 (Nat.pair ((c.1 + 2 ^ 62).toNat) ((c.2 + 2 ^ 16).toNat) % 2 ^ 64)

/-- Wrapper_hash_key::add_double: zeros of either sign contribute the single
byte 0; every other double contributes its IEEE bytes. -/
def add_double (crc : Nat) (d : DblV) : Nat :=
  if dblVal d = 0 then add_to_crc crc 0
  else add_string crc (float8store d)

/-- decimal2double, an external conversion, modelled as rounding the
canonical decimal value to 17 significant digits (a function of the decimal
value only). -/
def decimal2double (x : DecV) : DblV :=
  let c := canonNum x.m x.e
  ⟨Int.sign c.1 * roundNat17 c.1.natAbs, c.2, false⟩

mutual

/-- Json_wrapper::make_hash_key with a given starting accumulator value.
Numerics hash through their double representation; strings and opaque
values fold their bytes; containers fold their kind tag and then their
children, each child hashed with the accumulator as its seed; temporals
fold the 8 little-endian bytes of their packed value. -/
def make_hash_key (crc : Nat) : Json → Nat
  | .null => add_to_crc crc 0
  | .decimalV x => add_double crc (decimal2double x)
  | .intV i => add_double crc (longlongToDouble i)
  | .uintV u => add_double crc (longlongToDouble u)
  | .doubleV d => add_double crc d
  | .stringV s => add_string crc s
  | .opaqueV _ data => add_string crc data
  | .objectV fs => hashFields (add_to_crc crc 5) fs
  | .arrayV xs => hashElems (add_to_crc crc 6) xs
  | .boolean b => add_to_crc crc (if b then 8 else 7)
  | .dateV p => add_string crc (leBytes 8 (p.emod (2 ^ 64)).toNat)
  | .timeV p => add_string crc (leBytes 8 (p.emod (2 ^ 64)).toNat)
  | .datetimeV p => add_string crc (leBytes 8 (p.emod (2 ^ 64)).toNat)
  | .timestampV p => add_string crc (leBytes 8 (p.emod (2 ^ 64)).toNat)

/-- Hashing of the members of an object: fold the key bytes, then hash the
value seeded with the current accumulator, then fold the resulting 64-bit
value. -/
def hashFields (crc : Nat) : List (List Nat × Json) → Nat
  | [] => crc
  | (k, v) :: rest =>
      let crc1 := add_string crc k
      hashFields (add_integer crc1 (make_hash_key crc1 v)) rest

/-- Hashing of the elements of an array. -/
def hashElems (crc : Nat) : List Json → Nat
  | [] => crc
  | x :: rest => hashElems (add_integer crc (make_hash_key crc x)) rest

end

end JsonCore

namespace JsonCore

/-! ## Paths and seek (Json_wrapper::seek_no_ellipsis)

Json_path and json_binary are declared outside this source tree, so the leg
representation and index resolution are modelled from the specification
(section 4.5); seek_no_ellipsis itself is translated from json_dom.cc. A
binary container is addressed through its logical content, which is the
tree it encodes. -/

/-- Modelled from the spec: one leg of a JSON path (json_path.h is not under
src). An array cell carries an index that may count from the end. -/
inductive Leg where
  | member (name : List Nat)
  | memberWild
  | arrayCell (idx : Nat) (fromEnd : Bool)
  | arrayRange (lo : Nat) (loFromEnd : Bool) (hi : Nat) (hiFromEnd : Bool)
  | arrayCellWild
  | ellipsis
deriving DecidableEq, Repr

/-- Modelled from the spec: Json_array_index resolution; a from-end index i
resolves to count - 1 - i. -/
def resolveCell (idx : Nat) (fromEnd : Bool) (count : Nat) : Int :=
  if fromEnd then (count : Int) - 1 - idx else idx

/-- Modelled from the spec: within_bounds of a resolved array index. -/
def cellWithinBounds (idx : Nat) (fromEnd : Bool) (count : Nat) : Bool :=
  decide (0 ≤ resolveCell idx fromEnd count ∧ resolveCell idx fromEnd count < count)

/-- Modelled from the spec: the index range an array range or cell wildcard
leg covers in an array of the given size. -/
def legIndexRange (leg : Leg) (count : Nat) : Nat × Nat :=
  match leg with
  | .arrayRange lo lf hi hf =>
      ((max 0 (resolveCell lo lf count)).toNat,
       (min (count : Int) (resolveCell hi hf count + 1)).toNat)
  | _ => (0, count)

/-- Modelled from the spec: a leg is auto-wrap eligible when it is an array
cell addressing position 0 of a one-element array. -/
def isAutowrap : Leg → Bool
  | .arrayCell i fe => cellWithinBounds i fe 1
  | _ => false

/-- is_seek_done. -/
def is_seek_done (hits : List Json) (onlyOne : Bool) : Bool :=
  onlyOne && hits.length > 0

mutual

/-- Json_wrapper::seek_no_ellipsis over the logical tree: evaluates the
remaining legs against the value and appends every match to hits. Ellipsis
legs never reach this function (asserted in the source). -/
def seekNE (j : Json) (legs : List Leg) (autoWrap onlyOne : Bool)
    (hits : List Json) : List Json :=
  match legs with
  | [] => hits ++ [j]
  | leg :: rest =>
      if autoWrap && !(decide (kindOf j = .J_ARRAY)) && isAutowrap leg then
        seekNE j rest autoWrap onlyOne hits
      else
        match leg with
        | .member name =>
            match j with
            | .objectV fs =>
                match lookupF fs name with
                | some w => seekNE w rest autoWrap onlyOne hits
                | none => hits
            | _ => hits
        | .memberWild =>
            match j with
            | .objectV fs => seekMembers fs rest autoWrap onlyOne hits
            | _ => hits
        | .arrayCell i fe =>
            match j with
            | .arrayV xs =>
                if cellWithinBounds i fe xs.length then
                  seekNE (xs.getD (resolveCell i fe xs.length).toNat .null)
                    rest autoWrap onlyOne hits
                else hits
            | _ => hits
        | .arrayRange lo lf hi hf =>
            match j with
            | .arrayV xs =>
                let r := legIndexRange (.arrayRange lo lf hi hf) xs.length
                seekCells xs r.1 r.2 rest autoWrap onlyOne hits
            | _ => hits
        | .arrayCellWild =>
            match j with
            | .arrayV xs => seekCells xs 0 xs.length rest autoWrap onlyOne hits
            | _ => hits
        | .ellipsis => hits
termination_by (legs.length, 1, 0)

/-- Member wildcard iteration of seek_no_ellipsis, with the is_seek_done
early exit before every member. -/
def seekMembers (fs : List (List Nat × Json)) (legs : List Leg)
    (autoWrap onlyOne : Bool) (hits : List Json) : List Json :=
  match fs with
  | [] => hits
  | (_, v) :: tl =>
      if is_seek_done hits onlyOne then hits
      else seekMembers tl legs autoWrap onlyOne (seekNE v legs autoWrap onlyOne hits)
termination_by (legs.length + 1, 0, fs.length)

/-- Array range iteration of seek_no_ellipsis, with the is_seek_done early
exit before every cell. -/
def seekCells (xs : List Json) (lo hi : Nat) (legs : List Leg)
    (autoWrap onlyOne : Bool) (hits : List Json) : List Json :=
  if lo < hi then
    if is_seek_done hits onlyOne then hits
    else seekCells xs (lo + 1) hi legs autoWrap onlyOne
          (seekNE (xs.getD lo .null) legs autoWrap onlyOne hits)
  else hits
termination_by (legs.length + 1, 0, hi - lo)

end

/-! ## Partial in-place update (Json_wrapper::attempt_binary_update)

The json_binary reader and writer (json_binary.cc) are outside this source
tree; their operations are modelled from the specification, section 4.9:

* space_needed gives the byte count the new value needs in the parent
  encoding; it enters the model as the parameter needed, with the
  serialized payload as the parameter payload.
* has_space either yields the data offset of a free region of needed bytes
  or declines; it enters as the parameter hasSpaceAt. Its contract (the
  free region lies inside the document, which the source asserts through
  result->length() >= data_offset + needed) is a hypothesis of the
  theorems.
* update_in_shadow writes the payload at the data offset and patches the
  type and offset bytes of the changed entry inside the destination buffer
  seeded from the original bytes; the entry patch enters as the parameters
  entryOffset and entryBytes.
* lookup_index is the binary-search position of a key in the key table,
  element_count if absent. -/

/-- Modelled from the spec: write a byte string into a buffer at an offset
(the primitive of the shadow protocol). -/
def writeRange (buf : List Nat) (off : Nat) (payload : List Nat) : List Nat :=
  buf.take off ++ payload ++ buf.drop (off + payload.length)

/-- Modelled from the spec: json_binary::Value::update_in_shadow. -/
def update_in_shadow (dest : List Nat) (dataOffset : Nat) (payload : List Nat)
    (entryOffset : Nat) (entryBytes : List Nat) : List Nat :=
  writeRange (writeRange dest dataOffset payload) entryOffset entryBytes

/-- Modelled from the spec: json_binary::Value::lookup_index. -/
def lookup_index (fs : List (List Nat × Json)) (name : List Nat) : Nat :=
  fs.findIdx (fun kv => decide (kv.1 = name))

/-- Last leg test of attempt_binary_update for arrays and scalars. -/
def isArrayCellLeg : Leg → Bool
  | .arrayCell _ _ => true
  | _ => false

/-- Out-parameters of attempt_binary_update, together with the rewritten
buffer (none when the buffer was left untouched). -/
structure BinUpdOut where
  partially_updated : Bool
  replaced_path : Bool
  buffer : Option (List Nat)
deriving DecidableEq, Repr

/-- Steps 4 to 7 of attempt_binary_update once an existing slot was
resolved: check the free space and write the new value through the shadow
protocol into a destination seeded with the original bytes. -/
def binUpdateApply (origBytes : List Nat) (needed : Nat)
    (hasSpaceAt : Option Nat) (entryOffset : Nat)
    (entryBytes payload : List Nat) : BinUpdOut :=
  if needed > 0 ∧ hasSpaceAt = none then ⟨false, false, none⟩
  else
    ⟨true, true,
      some (update_in_shadow origBytes (hasSpaceAt.getD 0) payload entryOffset entryBytes)⟩

/-- Json_wrapper::attempt_binary_update. doc is the logical content of the
binary document, origBytes its serialized bytes. An empty path declines;
the parent of the path is sought with auto-wrap off; an absent parent is a
no-op success; then the last leg is matched against the parent kind and,
when a slot exists, the spatial steps run (binUpdateApply). new_value
enters the spatial steps only through its serialization, the parameters
needed and payload. -/
def attempt_binary_update (doc : Json) (origBytes : List Nat)
    (path : List Leg) (new_value : Json) (replace : Bool) (needed : Nat)
    (hasSpaceAt : Option Nat) (entryOffset : Nat)
    (entryBytes payload : List Nat) : BinUpdOut :=
  if path.length = 0 then ⟨false, false, none⟩
  else
    let hits := seekNE doc (path.take (path.length - 1)) false true []
    match hits with
    | [] => ⟨true, false, none⟩
    | parent :: _ =>
        let lastLeg := path.getD (path.length - 1) .ellipsis
        match parent with
        | .objectV fs =>
            match lastLeg with
            | .member name =>
                if lookup_index fs name = fs.length then ⟨replace, false, none⟩
                else binUpdateApply origBytes needed hasSpaceAt entryOffset entryBytes payload
            | _ => ⟨replace, false, none⟩
        | .arrayV xs =>
            if !(isArrayCellLeg lastLeg) then ⟨true, false, none⟩
            else
              match lastLeg with
              | .arrayCell i fe =>
                  if cellWithinBounds i fe xs.length then
                    binUpdateApply origBytes needed hasSpaceAt entryOffset entryBytes payload
                  else ⟨replace, false, none⟩
              | _ => ⟨true, false, none⟩
        | _ => ⟨replace || !(isArrayCellLeg lastLeg), false, none⟩

end JsonCore

namespace JsonCore

/-! ## Helper lemmas about byte-string comparison and the key order -/

theorem memcmpPrefix_antisym (s t : List Nat) : memcmpPrefix s t = -(memcmpPrefix t s) := by
  induction s generalizing t with
  | nil => cases t <;> simp [memcmpPrefix]
  | cons x xs ih =>
      cases t with
      | nil => simp [memcmpPrefix]
      | cons y ys =>
          by_cases h1 : x < y
          · simp [memcmpPrefix, h1, Nat.lt_asymm h1]
          · by_cases h2 : y < x
            · simp [memcmpPrefix, h1, h2]
            · simp [memcmpPrefix, h1, h2, ih ys]

theorem memcmpPrefix_eq_zero_of_eq (s : List Nat) : memcmpPrefix s s = 0 := by
  induction s with
  | nil => simp [memcmpPrefix]
  | cons x xs ih => simp [memcmpPrefix, ih]

theorem eq_of_memcmpPrefix_zero (s t : List Nat) (hlen : s.length = t.length)
    (h : memcmpPrefix s t = 0) : s = t := by
  induction s generalizing t with
  | nil => cases t with
      | nil => rfl
      | cons y ys => simp at hlen
  | cons x xs ih =>
      cases t with
      | nil => simp at hlen
      | cons y ys =>
          by_cases h1 : x < y
          · simp [memcmpPrefix, h1] at h
          · by_cases h2 : y < x
            · simp [memcmpPrefix, h1, h2] at h
            · have hxy : x = y := Nat.le_antisymm (Nat.le_of_not_lt h2) (Nat.le_of_not_lt h1)
              simp [memcmpPrefix, h1, h2] at h
              simp at hlen
              simp [hxy, ih ys hlen h]

theorem json_key_lt_asymm (a b : List Nat) (h : json_key_lt a b = true) :
    json_key_lt b a = false := by
  unfold json_key_lt at *
  by_cases hl : a.length = b.length
  · simp [hl] at h ⊢
    rw [memcmpPrefix_antisym] at h
    omega
  · simp [hl, Ne.symm hl] at h ⊢
    omega

theorem json_key_lt_irrefl (a : List Nat) : json_key_lt a a = false := by
  unfold json_key_lt
  simp [memcmpPrefix_eq_zero_of_eq]

theorem memcmpPrefix_mem (s t : List Nat) :
    memcmpPrefix s t = -1 ∨ memcmpPrefix s t = 0 ∨ memcmpPrefix s t = 1 := by
  induction s generalizing t with
  | nil => cases t <;> simp [memcmpPrefix]
  | cons x xs ih =>
      cases t with
      | nil => simp [memcmpPrefix]
      | cons y ys =>
          by_cases h1 : x < y
          · simp [memcmpPrefix, h1]
          · by_cases h2 : y < x
            · simp [memcmpPrefix, h1, h2]
            · simpa [memcmpPrefix, h1, h2] using ih ys

theorem json_key_lt_of_ne (a b : List Nat) (hne : a ≠ b)
    (h : json_key_lt a b = false) : json_key_lt b a = true := by
  unfold json_key_lt at *
  by_cases hl : a.length = b.length
  · simp [hl] at h ⊢
    rw [memcmpPrefix_antisym]
    rcases memcmpPrefix_mem a b with hc | hc | hc
    · omega
    · exact absurd (eq_of_memcmpPrefix_zero a b hl hc) hne
    · omega
  · simp [hl, Ne.symm hl] at h ⊢
    omega

/-- Keys of a field list. -/
def keysOf (fs : List (List Nat × Json)) : List (List Nat) := fs.map Prod.fst

/-- The object invariant: fields strictly sorted by the key comparator. -/
def sortedF (fs : List (List Nat × Json)) : Prop :=
  List.Pairwise (fun a b => json_key_lt a.1 b.1 = true) fs

theorem lookupF_some_key_mem (fs : List (List Nat × Json)) (k : List Nat)
    (w : Json) (h : lookupF fs k = some w) : k ∈ keysOf fs := by
  induction fs with
  | nil => simp [lookupF] at h
  | cons p rest ih =>
      by_cases hk : k = p.1
      · simp [keysOf, hk]
      · obtain ⟨k2, w2⟩ := p
        simp at hk
        simp [lookupF, hk] at h
        simp [keysOf]
        right
        simpa [keysOf] using ih h

theorem addAliasF_of_present (fs : List (List Nat × Json)) (k : List Nat)
    (v : Json) (hs : sortedF fs) (hp : k ∈ keysOf fs) :
    addAliasF fs k v = fs := by
  induction fs with
  | nil => simp [keysOf] at hp
  | cons p rest ih =>
      obtain ⟨k2, w2⟩ := p
      by_cases hk : k = k2
      · simp [addAliasF, hk]
      · have hp2 : k ∈ keysOf rest := by
          simp [keysOf] at hp
          rcases hp with h | h
          · exact absurd h hk
          · simpa [keysOf] using h
        have hlt : json_key_lt k2 k = true := by
          obtain ⟨q, hq, hq1⟩ := List.mem_map.mp (show k ∈ rest.map Prod.fst by simpa [keysOf] using hp2)
          have := (List.pairwise_cons.mp hs).1 q hq
          rwa [hq1] at this
        have hnlt : json_key_lt k k2 = false := json_key_lt_asymm k2 k hlt
        simp [addAliasF, hk, hnlt, ih (List.pairwise_cons.mp hs).2 hp2]

end JsonCore

namespace JsonCore

/-- C10: a Json_wrapper holding a null DOM pointer (an empty wrapper)
reports kind J_ERROR from type(), 0 from length() and 0 from depth(). -/
theorem claim_C10 (w : Json_wrapper) (h : w.dom_value = none) :
    w.wtype = .J_ERROR ∧ w.wlength = 0 ∧ w.wdepth = 0 := by
  refine ⟨?_, ?_, ?_⟩ <;>
    simp [Json_wrapper.wtype, Json_wrapper.wlength, Json_wrapper.wdepth, h]

theorem claim_C10_witness :
    (wrapperOfDom none).wtype = .J_ERROR ∧ (wrapperOfDom none).wlength = 0 ∧
      (wrapperOfDom none).wdepth = 0 :=
  claim_C10 (wrapperOfDom none) rfl

/-- C6: inserting a value under a key that is already present leaves the
object unchanged (the stored value under the key and every other mapping is
kept, the new value is dropped) and still returns success (false). -/
theorem claim_C6 (fields : List (List Nat × Json)) (k : List Nat)
    (v w : Json) (hs : sortedF fields) (hp : lookupF fields k = some w) :
    add_alias fields k (some v) = (fields, false) := by
  show (addAliasF fields k v, false) = (fields, false)
  rw [addAliasF_of_present fields k v hs (lookupF_some_key_mem fields k w hp)]

theorem claim_C6_witness :
    add_alias [([97], Json.intV 1)] [97] (some Json.null)
      = ([([97], Json.intV 1)], false) :=
  claim_C6 [([97], Json.intV 1)] [97] Json.null (Json.intV 1)
    (by simp [sortedF]) rfl

end JsonCore

namespace JsonCore

theorem writeRange_length (buf : List Nat) (off : Nat) (payload : List Nat)
    (h : off + payload.length ≤ buf.length) :
    (writeRange buf off payload).length = buf.length := by
  simp [writeRange]
  omega

theorem binUpdateApply_success (origBytes : List Nat) (needed : Nat)
    (hasSpaceAt : Option Nat) (entryOffset : Nat) (entryBytes payload : List Nat)
    (hpl : payload.length = needed)
    (hspace : ∀ off, hasSpaceAt = some off → off + needed ≤ origBytes.length)
    (hentry : entryOffset + entryBytes.length ≤ origBytes.length)
    (h : (binUpdateApply origBytes needed hasSpaceAt entryOffset entryBytes payload).replaced_path = true) :
    ∃ bs, (binUpdateApply origBytes needed hasSpaceAt entryOffset entryBytes payload).buffer = some bs ∧
      bs.length = origBytes.length ∧
      (binUpdateApply origBytes needed hasSpaceAt entryOffset entryBytes payload).partially_updated = true := by
  unfold binUpdateApply at *
  by_cases hdec : needed > 0 ∧ hasSpaceAt = none
  · rw [if_pos hdec] at h
    simp at h
  · rw [if_neg hdec]
    have hbound : hasSpaceAt.getD 0 + payload.length ≤ origBytes.length := by
      cases hoff : hasSpaceAt with
      | none =>
          have : ¬ needed > 0 := fun hgt => hdec ⟨hgt, hoff⟩
          simp [hpl]
          omega
      | some off => simpa [hpl] using hspace off hoff
    have h1 : (writeRange origBytes (hasSpaceAt.getD 0) payload).length = origBytes.length :=
      writeRange_length _ _ _ hbound
    have h2 : (update_in_shadow origBytes (hasSpaceAt.getD 0) payload entryOffset entryBytes).length
        = origBytes.length := by
      unfold update_in_shadow
      rw [writeRange_length _ _ _ (by rw [h1]; exact hentry), h1]
    exact ⟨_, rfl, h2, rfl⟩

/-- C1 counterexample: updating binary [1] along the path $.a under SET
semantics (replace = false). The parent seek yields the root array and the
last leg is a member leg, a mismatched parent/leg kind pair, so the claim
predicts a decline (partially_updated = false); the code reports
partially_updated = true. -/
theorem claim_C1_counterexample :
    (attempt_binary_update (.arrayV [.intV 1]) [] [.member [97]] (.intV 2)
        false 0 none 0 [] []).partially_updated ≠ false := by
  have h : attempt_binary_update (.arrayV [.intV 1]) [] [.member [97]] (.intV 2)
      false 0 none 0 [] [] = ⟨true, false, none⟩ := by
    simp [attempt_binary_update, seekNE, isArrayCellLeg]
  rw [h]
  simp

/-- C1 amended: with a non-empty path whose parent seek matched, the
mismatched parent/leg kind dispositions of attempt_binary_update are:
object parent with a non-member last leg gives partially_updated = replace
(decline under SET, success without replacement under REPLACE); array
parent with a non-cell last leg reports success without replacement under
both semantics; a scalar parent reports partially_updated = replace OR
(last leg is not an array cell), declining only under SET with an
array-cell leg. replaced_path is false and the buffer untouched in all
three cases. -/
theorem claim_C1 (doc parent : Json) (origBytes : List Nat) (path : List Leg)
    (nv : Json) (replace : Bool) (needed : Nat) (hasSpaceAt : Option Nat)
    (entryOffset : Nat) (entryBytes payload : List Nat)
    (hlen : 0 < path.length)
    (hseek : seekNE doc (path.take (path.length - 1)) false true [] = [parent]) :
    (∀ fs, parent = .objectV fs →
      (∀ n, path.getD (path.length - 1) .ellipsis ≠ .member n) →
      attempt_binary_update doc origBytes path nv replace needed hasSpaceAt
        entryOffset entryBytes payload = ⟨replace, false, none⟩) ∧
    (∀ xs, parent = .arrayV xs →
      isArrayCellLeg (path.getD (path.length - 1) .ellipsis) = false →
      attempt_binary_update doc origBytes path nv replace needed hasSpaceAt
        entryOffset entryBytes payload = ⟨true, false, none⟩) ∧
    (kindOf parent ≠ .J_OBJECT → kindOf parent ≠ .J_ARRAY →
      attempt_binary_update doc origBytes path nv replace needed hasSpaceAt
        entryOffset entryBytes payload
        = ⟨replace || !(isArrayCellLeg (path.getD (path.length - 1) .ellipsis)), false, none⟩) := by
  have hne : ¬ path.length = 0 := by omega
  refine ⟨?_, ?_, ?_⟩
  · intro fs hp hleg
    unfold attempt_binary_update
    rw [if_neg hne, hseek, hp]
    generalize hL : path.getD (path.length - 1) Leg.ellipsis = L at hleg
    cases L with
    | member n => exact absurd rfl (hleg n)
    | memberWild => rfl
    | arrayCell i fe => rfl
    | arrayRange a b c d => rfl
    | arrayCellWild => rfl
    | ellipsis => rfl
  · intro xs hp hleg
    unfold attempt_binary_update
    rw [if_neg hne, hseek, hp]
    generalize hL : path.getD (path.length - 1) Leg.ellipsis = L at hleg
    cases L <;> simp_all [isArrayCellLeg]
  · intro ho ha
    unfold attempt_binary_update
    rw [if_neg hne, hseek]
    cases parent <;> simp_all [kindOf]

theorem claim_C1_witness :
    attempt_binary_update (.arrayV [.intV 1]) [] [.memberWild] (.intV 2)
        false 0 none 0 [] [] = ⟨true, false, none⟩ :=
  (claim_C1 (.arrayV [.intV 1]) (.arrayV [.intV 1]) [] [.memberWild]
      (.intV 2) false 0 none 0 [] [] (by decide)
      (by simp [seekNE])).2.1 [.intV 1] rfl (by decide)

/-- C2: whenever attempt_binary_update reports success (partially updated
and path replaced), the rewritten binary document has exactly the byte
length of the original document; the buffer is never enlarged. The spatial
hypotheses are the contract of has_space and of the entry patch: the free
region and the patched entry lie inside the document (the source asserts
result->length() >= data_offset + needed). -/
theorem claim_C2 (doc : Json) (origBytes : List Nat) (path : List Leg)
    (nv : Json) (replace : Bool) (needed : Nat) (hasSpaceAt : Option Nat)
    (entryOffset : Nat) (entryBytes payload : List Nat)
    (hpl : payload.length = needed)
    (hspace : ∀ off, hasSpaceAt = some off → off + needed ≤ origBytes.length)
    (hentry : entryOffset + entryBytes.length ≤ origBytes.length)
    (h : (attempt_binary_update doc origBytes path nv replace needed hasSpaceAt
        entryOffset entryBytes payload).replaced_path = true) :
    ∃ bs, (attempt_binary_update doc origBytes path nv replace needed hasSpaceAt
        entryOffset entryBytes payload).buffer = some bs ∧
      bs.length = origBytes.length ∧
      (attempt_binary_update doc origBytes path nv replace needed hasSpaceAt
        entryOffset entryBytes payload).partially_updated = true := by
  unfold attempt_binary_update at *
  by_cases hlen : path.length = 0
  · rw [if_pos hlen] at h
    simp at h
  · rw [if_neg hlen] at h ⊢
    rcases hseek : seekNE doc (path.take (path.length - 1)) false true [] with _ | ⟨parent, rest⟩ <;>
      simp only [hseek] at h ⊢
    · simp at h
    · generalize hL : path.getD (path.length - 1) Leg.ellipsis = L at h ⊢
      cases parent with
      | objectV fs =>
          cases L with
          | member n =>
              dsimp only at h ⊢
              by_cases hidx : lookup_index fs n = fs.length
              · rw [if_pos hidx] at h
                simp at h
              · rw [if_neg hidx] at h ⊢
                exact binUpdateApply_success _ _ _ _ _ _ hpl hspace hentry h
          | memberWild => simp at h
          | arrayCell i fe => simp at h
          | arrayRange a b c d => simp at h
          | arrayCellWild => simp at h
          | ellipsis => simp at h
      | arrayV xs =>
          cases L with
          | arrayCell i fe =>
              dsimp only [isArrayCellLeg, Bool.not_true] at h ⊢
              by_cases hin : cellWithinBounds i fe xs.length = true
              · simp only [hin, if_true] at h ⊢
                exact binUpdateApply_success _ _ _ _ _ _ hpl hspace hentry h
              · have hin2 : cellWithinBounds i fe xs.length = false := by
                  simpa using hin
                simp [hin2] at h
          | member n => simp [isArrayCellLeg] at h
          | memberWild => simp [isArrayCellLeg] at h
          | arrayRange a b c d => simp [isArrayCellLeg] at h
          | arrayCellWild => simp [isArrayCellLeg] at h
          | ellipsis => simp [isArrayCellLeg] at h
      | null => simp at h
      | boolean b => simp at h
      | intV i => simp at h
      | uintV u => simp at h
      | doubleV d => simp at h
      | decimalV d => simp at h
      | stringV str => simp at h
      | opaqueV ft data => simp at h
      | dateV p => simp at h
      | timeV p => simp at h
      | datetimeV p => simp at h
      | timestampV p => simp at h

theorem claim_C2_witness :
    ∃ bs, (attempt_binary_update (.arrayV [.intV 1]) [7, 1, 0, 5, 1, 0] [.arrayCell 0 false]
        (.intV 2) true 2 (some 4) 1 [2] [2, 0]).buffer = some bs ∧
      bs.length = [7, 1, 0, 5, 1, 0].length ∧
      (attempt_binary_update (.arrayV [.intV 1]) [7, 1, 0, 5, 1, 0] [.arrayCell 0 false]
        (.intV 2) true 2 (some 4) 1 [2] [2, 0]).partially_updated = true :=
  claim_C2 (.arrayV [.intV 1]) [7, 1, 0, 5, 1, 0] [.arrayCell 0 false]
    (.intV 2) true 2 (some 4) 1 [2] [2, 0] rfl
    (by intro off hoff; cases hoff; decide) (by decide)
    (by simp [attempt_binary_update, seekNE, cellWithinBounds, resolveCell,
          binUpdateApply, isArrayCellLeg])

end JsonCore

namespace JsonCore

theorem memcmpPrefix_trans_neg (a : List Nat) :
    ∀ b c, memcmpPrefix a b = -1 → memcmpPrefix b c = -1 → memcmpPrefix a c = -1 := by
  induction a with
  | nil => intro b c h1; cases b <;> simp [memcmpPrefix] at h1
  | cons x xs ih =>
      intro b c h1 h2
      cases b with
      | nil => simp [memcmpPrefix] at h1
      | cons y ys =>
          cases c with
          | nil => simp [memcmpPrefix] at h2
          | cons z zs =>
              by_cases hxy : x < y
              · by_cases hyz : y < z
                · simp [memcmpPrefix, show x < z by omega]
                · by_cases hzy : z < y
                  · simp [memcmpPrefix, hyz, hzy] at h2
                  · have hyz2 : y = z := by omega
                    simp [memcmpPrefix, show x < z by omega]
              · by_cases hyx : y < x
                · simp [memcmpPrefix, hxy, hyx] at h1
                · have hxy2 : x = y := by omega
                  simp [memcmpPrefix, hxy, hyx] at h1
                  by_cases hyz : y < z
                  · simp [memcmpPrefix, show x < z by omega]
                  · by_cases hzy : z < y
                    · simp [memcmpPrefix, hyz, hzy] at h2
                    · have hyz2 : y = z := by omega
                      have hrec := ih ys zs h1 (by simpa [memcmpPrefix, hyz, hzy] using h2)
                      simp [memcmpPrefix, show ¬ x < z by omega, show ¬ z < x by omega, hrec]

theorem json_key_lt_iff (a b : List Nat) :
    json_key_lt a b = true ↔
      (a.length < b.length ∨ (a.length = b.length ∧ memcmpPrefix a b = -1)) := by
  unfold json_key_lt
  by_cases h : a.length = b.length
  · simp [h]
  · simp [h]

theorem json_key_lt_trans (a b c : List Nat) (h1 : json_key_lt a b = true)
    (h2 : json_key_lt b c = true) : json_key_lt a c = true := by
  rw [json_key_lt_iff] at h1 h2 ⊢
  rcases h1 with h1 | ⟨h1a, h1b⟩
  · rcases h2 with h2 | ⟨h2a, h2b⟩
    · left; omega
    · left; omega
  · rcases h2 with h2 | ⟨h2a, h2b⟩
    · left; omega
    · right
      exact ⟨h1a.trans h2a, memcmpPrefix_trans_neg a b c h1b h2b⟩

theorem lookupF_none_of_lt_all (k : List Nat) (l : List (List Nat × Json))
    (h : ∀ p ∈ l, json_key_lt k p.1 = true) : lookupF l k = none := by
  induction l with
  | nil => rfl
  | cons p rest ih =>
      have hne : k ≠ p.1 := by
        intro he
        have := h p (List.mem_cons_self p rest)
        rw [← he] at this
        simp [json_key_lt_irrefl] at this
      simp only [lookupF, hne, if_false]
      exact ih (fun q hq => h q (List.mem_cons_of_mem p hq))

theorem lookupF_tail_none_of_sorted (k : List Nat) (w : Json)
    (rest : List (List Nat × Json)) (hs : sortedF ((k, w) :: rest)) :
    lookupF rest k = none := by
  cases h : lookupF rest k with
  | none => rfl
  | some v =>
      have hmem := lookupF_some_key_mem rest k v h
      obtain ⟨q, hq, hq1⟩ := List.mem_map.mp
        (show k ∈ rest.map Prod.fst by simpa [keysOf] using hmem)
      have h2 := (List.pairwise_cons.mp hs).1 q hq
      rw [hq1] at h2
      simp [json_key_lt_irrefl] at h2

theorem consumeStep_keys_mem (this : List (List Nat × Json)) (k : List Nat)
    (v : Json) (p : List Nat × Json) (hp : p ∈ consumeStep this k v) :
    p.1 ∈ keysOf this ∨ p.1 = k := by
  induction this with
  | nil =>
      simp [consumeStep] at hp
      simp [hp]
  | cons q rest ih =>
      obtain ⟨kh, wh⟩ := q
      by_cases hkk : k = kh
      · rw [show consumeStep ((kh, wh) :: rest) k v = (kh, merge_doms wh v) :: rest by
          simp [consumeStep, hkk]] at hp
        rcases List.mem_cons.mp hp with h | h
        · left; simp [keysOf, h]
        · left
          simp only [keysOf, List.map_cons, List.mem_cons]
          right
          exact List.mem_map.mpr ⟨p, h, rfl⟩
      · rw [show consumeStep ((kh, wh) :: rest) k v =
            (if json_key_lt k kh then (k, v) :: (kh, wh) :: rest
             else (kh, wh) :: consumeStep rest k v) by simp [consumeStep, hkk]] at hp
        by_cases hlt : json_key_lt k kh = true
        · rw [if_pos hlt] at hp
          rcases List.mem_cons.mp hp with h | h
          · right; simp [h]
          · left
            show p.1 ∈ List.map Prod.fst ((kh, wh) :: rest)
            exact List.mem_map.mpr ⟨p, h, rfl⟩
        · rw [if_neg (by simpa using hlt)] at hp
          rcases List.mem_cons.mp hp with h | h
          · left; simp [keysOf, h]
          · rcases ih h with h2 | h2
            · left
              simp only [keysOf, List.map_cons, List.mem_cons]
              right
              simpa [keysOf] using h2
            · right; exact h2

theorem consumeStep_sorted (this : List (List Nat × Json)) (k : List Nat)
    (v : Json) (hs : sortedF this) : sortedF (consumeStep this k v) := by
  induction this with
  | nil =>
      simp [consumeStep, sortedF]
  | cons q rest ih =>
      obtain ⟨kh, wh⟩ := q
      obtain ⟨hhead, htail⟩ := List.pairwise_cons.mp hs
      by_cases hkk : k = kh
      · rw [show consumeStep ((kh, wh) :: rest) k v = (kh, merge_doms wh v) :: rest by
          simp [consumeStep, hkk]]
        exact List.pairwise_cons.mpr ⟨fun b hb => hhead b hb, htail⟩
      · by_cases hlt : json_key_lt k kh = true
        · rw [show consumeStep ((kh, wh) :: rest) k v = (k, v) :: (kh, wh) :: rest by
            simp [consumeStep, hkk, hlt]]
          refine List.pairwise_cons.mpr ⟨?_, hs⟩
          intro b hb
          rcases List.mem_cons.mp hb with h | h
          · rw [h]; exact hlt
          · exact json_key_lt_trans k kh b.1 hlt (hhead b h)
        · rw [show consumeStep ((kh, wh) :: rest) k v = (kh, wh) :: consumeStep rest k v by
            simp [consumeStep, hkk, hlt]]
          refine List.pairwise_cons.mpr ⟨?_, ih htail⟩
          intro b hb
          rcases consumeStep_keys_mem rest k v b hb with h | h
          · obtain ⟨q, hq, hq1⟩ := List.mem_map.mp (show b.1 ∈ rest.map Prod.fst by simpa [keysOf] using h)
            have := hhead q hq
            rwa [hq1] at this
          · rw [h]
            exact json_key_lt_of_ne k kh (by exact hkk) (by simpa using hlt)

theorem consumeStep_lookup (this : List (List Nat × Json)) (k : List Nat)
    (v : Json) (hs : sortedF this) (k2 : List Nat) :
    lookupF (consumeStep this k v) k2 =
      if k2 = k then
        (match lookupF this k with
         | some w => some (merge_doms w v)
         | none => some v)
      else lookupF this k2 := by
  induction this with
  | nil =>
      by_cases hk : k2 = k <;> simp [consumeStep, lookupF, hk]
  | cons p rest ih =>
      obtain ⟨kh, wh⟩ := p
      obtain ⟨hhead, htail⟩ := List.pairwise_cons.mp hs
      by_cases hkk : k = kh
      · subst hkk
        rw [show consumeStep ((k, wh) :: rest) k v = (k, merge_doms wh v) :: rest by
          simp [consumeStep]]
        by_cases hk : k2 = k
        · simp [lookupF, hk]
        · simp [lookupF, hk]
      · by_cases hlt : json_key_lt k kh = true
        · rw [show consumeStep ((kh, wh) :: rest) k v = (k, v) :: (kh, wh) :: rest by
            simp [consumeStep, hkk, hlt]]
          have hnone : lookupF ((kh, wh) :: rest) k = none := by
            refine lookupF_none_of_lt_all k _ ?_
            intro p hp
            rcases List.mem_cons.mp hp with h | h
            · rw [h]; exact hlt
            · exact json_key_lt_trans k kh p.1 hlt (hhead p h)
          by_cases hk : k2 = k
          · rw [if_pos hk, hnone]
            simp [lookupF, hk]
          · rw [if_neg hk]
            simp [lookupF, hk]
        · rw [show consumeStep ((kh, wh) :: rest) k v = (kh, wh) :: consumeStep rest k v by
            simp [consumeStep, hkk, hlt]]
          by_cases hk2h : k2 = kh
          · have hk2k : ¬ k2 = k := by rw [hk2h]; exact fun he => hkk he.symm
            rw [if_neg hk2k]
            simp [lookupF, hk2h]
          · simp only [lookupF, hk2h, if_false]
            rw [ih htail]
            by_cases hk : k2 = k
            · simp [hk, lookupF, show ¬ (k = kh) from hkk]
            · simp [hk, lookupF, hk2h]

theorem objConsume_sorted (this other : List (List Nat × Json))
    (hs : sortedF this) : sortedF (objConsume this other) := by
  induction other generalizing this with
  | nil => simpa [objConsume] using hs
  | cons p rest ih =>
      obtain ⟨k, v⟩ := p
      rw [show objConsume this ((k, v) :: rest) = objConsume (consumeStep this k v) rest by
        simp [objConsume]]
      exact ih _ (consumeStep_sorted this k v hs)

theorem objConsume_lookup (other this : List (List Nat × Json))
    (hs : sortedF this) (ho : sortedF other) (k2 : List Nat) :
    lookupF (objConsume this other) k2 =
      match lookupF this k2, lookupF other k2 with
      | some a, some b => some (merge_doms a b)
      | some a, none => some a
      | none, some b => some b
      | none, none => none := by
  induction other generalizing this with
  | nil =>
      simp only [objConsume, lookupF]
      cases lookupF this k2 <;> rfl
  | cons p rest ih =>
      obtain ⟨k, v⟩ := p
      obtain ⟨hohead, hotail⟩ := List.pairwise_cons.mp ho
      rw [show objConsume this ((k, v) :: rest) = objConsume (consumeStep this k v) rest by
        simp [objConsume]]
      rw [ih _ (consumeStep_sorted this k v hs) hotail]
      rw [consumeStep_lookup this k v hs k2]
      by_cases hk : k2 = k
      · have hrest : lookupF rest k = none :=
          lookupF_tail_none_of_sorted k v rest ho
        subst hk
        simp only [if_pos rfl, lookupF, if_pos rfl, hrest]
        cases lookupF this k2 <;> rfl
      · simp only [if_neg hk, lookupF, hk, if_false]


end JsonCore

namespace JsonCore

/-- C5: merging two roots. If both are objects, merge_doms merges them
pairwise: the result is an object in which a key present in both maps to
the recursive merge of the two values, a key present in only one side maps
to that side's value, and nothing else appears. In every other case both
sides are coerced (each non-array wrapped in a one-element array) and the
result is the concatenation of their element lists. In particular merging
two nested objects with keys a, b(x) and b(y), c produces a, b(x, y), c. -/
theorem claim_C5 :
    (∀ fl fr, sortedF fl → sortedF fr →
      merge_doms (.objectV fl) (.objectV fr) = .objectV (objConsume fl fr) ∧
      sortedF (objConsume fl fr) ∧
      (∀ k, lookupF (objConsume fl fr) k =
        match lookupF fl k, lookupF fr k with
        | some a, some b => some (merge_doms a b)
        | some a, none => some a
        | none, some b => some b
        | none, none => none)) ∧
    (∀ l r, kindOf l ≠ .J_OBJECT ∨ kindOf r ≠ .J_OBJECT →
      merge_doms l r = .arrayV (asArrayElems l ++ asArrayElems r)) ∧
    merge_doms
        (.objectV [([97], .intV 1), ([98], .objectV [([120], .intV 1)])])
        (.objectV [([98], .objectV [([121], .intV 2)]), ([99], .intV 3)])
      = .objectV [([97], .intV 1),
          ([98], .objectV [([120], .intV 1), ([121], .intV 2)]),
          ([99], .intV 3)] := by
  refine ⟨?_, ?_, ?_⟩
  · intro fl fr hfl hfr
    exact ⟨by simp [merge_doms], objConsume_sorted fl fr hfl,
      fun k => objConsume_lookup fr fl hfl hfr k⟩
  · intro l r h
    cases l <;> cases r <;>
      simp_all [merge_doms, make_mergeable, wrap_in_array, asArrayElems, kindOf]
  · simp [merge_doms, objConsume, consumeStep, json_key_lt, memcmpPrefix]

theorem claim_C5_witness :
    merge_doms (.objectV [([97], .intV 1)]) (.objectV [])
      = .objectV (objConsume [([97], Json.intV 1)] []) :=
  (claim_C5.1 [([97], .intV 1)] [] (by simp [sortedF]) (by simp [sortedF])).1

end JsonCore

namespace JsonCore

/-! ## Handler run lemmas for the depth guard -/

/-- States in which the handler accepts a value: the start state with an
empty stack, inside an array, or after a key inside an object. -/
def valueState (st : HState) : Prop :=
  (st.state = .expect_anything ∧ st.stack = []) ∨
  (st.state = .expect_array_value ∧ ∃ xs rest, st.stack = .fArr xs :: rest) ∨
  (st.state = .expect_object_value ∧ ∃ fs pk rest, st.stack = .fObj fs pk :: rest)

/-- State after a whole value has been consumed and placed, from a
value-expecting state (the pure part of seeing_value and of the end
placement). -/
def placeVal (st : HState) (v : Json) : HState :=
  match st.state, st.stack with
  | .expect_anything, _ => ⟨.expect_eof, st.stack, some v, st.depth⟩
  | .expect_array_value, .fArr xs :: rest =>
      ⟨.expect_array_value, .fArr (xs ++ [v]) :: rest, st.root, st.depth⟩
  | .expect_object_value, .fObj fs pk :: rest =>
      ⟨.expect_object_key, .fObj (addAliasF fs pk v) pk :: rest, st.root, st.depth⟩
  | _, _ => st

theorem seeing_value_eq (st : HState) (v : Json) (hv : valueState st) :
    seeing_value st v =
      if st.depth + 1 ≤ 100 then some (placeVal st v) else none := by
  obtain ⟨s, stk, root, d⟩ := st
  rcases hv with ⟨h1, h2⟩ | ⟨h1, xs, rest, h2⟩ | ⟨h1, fs, pk, rest, h2⟩ <;>
    simp only at h1 h2 <;> subst h1 <;> subst h2 <;>
    by_cases hd : d + 1 ≤ 100 <;>
    simp [seeing_value, check_json_depth, JSON_DOCUMENT_MAX_DEPTH, placeVal, hd] <;>
    omega

theorem jdepth_pos (t : Json) : 1 ≤ jdepth t := by
  cases t <;> simp [jdepth]

theorem stepH_startArray_some (st : HState) (hv : valueState st)
    (hd : st.depth + 1 ≤ 100) :
    stepH st .startArray =
      some ⟨.expect_array_value, .fArr [] :: st.stack, st.root, st.depth + 1⟩ := by
  obtain ⟨s, stk, root, d⟩ := st
  rcases hv with ⟨h1, h2⟩ | ⟨h1, xs, rest, h2⟩ | ⟨h1, fs, pk, rest, h2⟩ <;>
    simp only at h1 h2 hd <;> subst h1 <;> subst h2 <;>
    simp [stepH, check_json_depth, JSON_DOCUMENT_MAX_DEPTH] <;> omega

theorem stepH_startArray_none (st : HState) (hd : ¬ st.depth + 1 ≤ 100) :
    stepH st .startArray = none := by
  obtain ⟨s, stk, root, d⟩ := st
  simp only at hd
  have hc : check_json_depth (d + 1) = true := by
    simp [check_json_depth, JSON_DOCUMENT_MAX_DEPTH]
    omega
  simp [stepH, hc]

theorem stepH_startObject_some (st : HState) (hv : valueState st)
    (hd : st.depth + 1 ≤ 100) :
    stepH st .startObject =
      some ⟨.expect_object_key, .fObj [] [] :: st.stack, st.root, st.depth + 1⟩ := by
  obtain ⟨s, stk, root, d⟩ := st
  rcases hv with ⟨h1, h2⟩ | ⟨h1, xs, rest, h2⟩ | ⟨h1, fs, pk, rest, h2⟩ <;>
    simp only at h1 h2 hd <;> subst h1 <;> subst h2 <;>
    simp [stepH, check_json_depth, JSON_DOCUMENT_MAX_DEPTH] <;> omega

theorem stepH_startObject_none (st : HState) (hd : ¬ st.depth + 1 ≤ 100) :
    stepH st .startObject = none := by
  obtain ⟨s, stk, root, d⟩ := st
  simp only at hd
  have hc : check_json_depth (d + 1) = true := by
    simp [check_json_depth, JSON_DOCUMENT_MAX_DEPTH]
    omega
  simp [stepH, hc]

theorem stepH_endArray_place (st : HState) (hv : valueState st) (xs2 : List Json) :
    stepH ⟨.expect_array_value, .fArr xs2 :: st.stack, st.root, st.depth + 1⟩ .endArray
      = some (placeVal st (.arrayV xs2)) := by
  obtain ⟨s, stk, root, d⟩ := st
  rcases hv with ⟨h1, h2⟩ | ⟨h1, xs, rest, h2⟩ | ⟨h1, fs, pk, rest, h2⟩ <;>
    simp only at h1 h2 <;> subst h1 <;> subst h2 <;>
    simp [stepH, placeDone, placeVal]

theorem stepH_endObject_place (st : HState) (hv : valueState st)
    (fs2 : List (List Nat × Json)) (pk2 : List Nat) :
    stepH ⟨.expect_object_key, .fObj fs2 pk2 :: st.stack, st.root, st.depth + 1⟩ .endObject
      = some (placeVal st (.objectV fs2)) := by
  obtain ⟨s, stk, root, d⟩ := st
  rcases hv with ⟨h1, h2⟩ | ⟨h1, xs, rest, h2⟩ | ⟨h1, fs, pk, rest, h2⟩ <;>
    simp only at h1 h2 <;> subst h1 <;> subst h2 <;>
    simp [stepH, placeDone, placeVal]

/-- Bundled induction for the handler run: processing the events of a value
(resp. of array elements, of object members) succeeds exactly when the
depth budget admits it, for all values below a size bound. -/
theorem runAux (n : Nat) :
    (∀ t, sizeOf t < n → parseableB t = true →
      ∀ (st : HState) (rest : List PEvent), valueState st →
      ∃ v2, runFrom st (eventsOf t ++ rest) =
        if st.depth + jdepth t ≤ 100 then runFrom (placeVal st v2) rest
        else none) ∧
    (∀ xs, sizeOf xs < n → parseableListB xs = true →
      ∀ (d : Nat) (xs0 : List Json) (stack0 : List Frame) (root : Option Json)
        (rest : List PEvent), d ≤ 100 →
      ∃ xs2, runFrom ⟨.expect_array_value, .fArr xs0 :: stack0, root, d⟩
          (eventsList xs ++ rest) =
        if d + depthList xs ≤ 100 then
          runFrom ⟨.expect_array_value, .fArr (xs0 ++ xs2) :: stack0, root, d⟩ rest
        else none) ∧
    (∀ fs, sizeOf fs < n → parseableFieldsB fs = true →
      ∀ (d : Nat) (fs0 : List (List Nat × Json)) (pk : List Nat)
        (stack0 : List Frame) (root : Option Json) (rest : List PEvent), d ≤ 100 →
      ∃ fs2 pk2, runFrom ⟨.expect_object_key, .fObj fs0 pk :: stack0, root, d⟩
          (eventsFields fs ++ rest) =
        if d + depthFields fs ≤ 100 then
          runFrom ⟨.expect_object_key, .fObj fs2 pk2 :: stack0, root, d⟩ rest
        else none) := by
  induction n with
  | zero =>
      refine ⟨?_, ?_, ?_⟩ <;> (intro x hx; omega)
  | succ n ih =>
      obtain ⟨ihV, ihE, ihF⟩ := ih
      refine ⟨?_, ?_, ?_⟩
      · intro t ht pt st rest hv
        cases t with
        | null =>
            refine ⟨.null, ?_⟩
            simp only [eventsOf, List.cons_append, List.nil_append, runFrom, stepH,
              seeing_value_eq _ _ hv, jdepth]
            by_cases hd : st.depth + 1 ≤ 100 <;> simp [hd, runFrom]
        | boolean b =>
            refine ⟨.boolean b, ?_⟩
            simp only [eventsOf, List.cons_append, List.nil_append, runFrom, stepH,
              seeing_value_eq _ _ hv, jdepth]
            by_cases hd : st.depth + 1 ≤ 100 <;> simp [hd, runFrom]
        | intV i =>
            refine ⟨.intV i, ?_⟩
            simp only [eventsOf, List.cons_append, List.nil_append, runFrom, stepH,
              seeing_value_eq _ _ hv, jdepth]
            by_cases hd : st.depth + 1 ≤ 100 <;> simp [hd, runFrom]
        | uintV u =>
            refine ⟨.uintV u, ?_⟩
            simp only [eventsOf, List.cons_append, List.nil_append, runFrom, stepH,
              seeing_value_eq _ _ hv, jdepth]
            by_cases hd : st.depth + 1 ≤ 100 <;> simp [hd, runFrom]
        | doubleV d =>
            refine ⟨.doubleV d, ?_⟩
            simp only [eventsOf, List.cons_append, List.nil_append, runFrom, stepH,
              seeing_value_eq _ _ hv, jdepth]
            by_cases hd : st.depth + 1 ≤ 100 <;> simp [hd, runFrom]
        | stringV sb =>
            refine ⟨.stringV sb, ?_⟩
            simp only [eventsOf, List.cons_append, List.nil_append, runFrom, stepH,
              seeing_value_eq _ _ hv, jdepth]
            by_cases hd : st.depth + 1 ≤ 100 <;> simp [hd, runFrom]
        | arrayV xs =>
            have hev : eventsOf (.arrayV xs) ++ rest
                = .startArray :: (eventsList xs ++ (.endArray :: rest)) := by
              simp [eventsOf]
            by_cases hd : st.depth + 1 ≤ 100
            · obtain ⟨xs2, hrun⟩ := ihE xs (by simp at ht; omega)
                (by simpa [parseableB] using pt)
                (st.depth + 1) [] st.stack st.root (.endArray :: rest) (by omega)
              refine ⟨.arrayV xs2, ?_⟩
              rw [hev]
              simp only [runFrom, stepH_startArray_some st hv hd]
              rw [hrun]
              by_cases hc : st.depth + 1 + depthList xs ≤ 100
              · rw [if_pos hc, if_pos (show st.depth + jdepth (.arrayV xs) ≤ 100 by
                  simp only [jdepth]; omega)]
                simp only [List.nil_append, runFrom, stepH_endArray_place st hv xs2]
              · rw [if_neg hc, if_neg (show ¬ st.depth + jdepth (.arrayV xs) ≤ 100 by
                  simp only [jdepth]; omega)]
            · refine ⟨.null, ?_⟩
              rw [hev]
              simp only [runFrom, stepH_startArray_none st hd]
              rw [if_neg (show ¬ st.depth + jdepth (.arrayV xs) ≤ 100 by
                simp only [jdepth]
                omega)]
        | objectV fs =>
            have hev : eventsOf (.objectV fs) ++ rest
                = .startObject :: (eventsFields fs ++ (.endObject :: rest)) := by
              simp [eventsOf]
            by_cases hd : st.depth + 1 ≤ 100
            · obtain ⟨fs2, pk2, hrun⟩ := ihF fs (by simp at ht; omega)
                (by simpa [parseableB] using pt)
                (st.depth + 1) [] [] st.stack st.root (.endObject :: rest) (by omega)
              refine ⟨.objectV fs2, ?_⟩
              rw [hev]
              simp only [runFrom, stepH_startObject_some st hv hd]
              rw [hrun]
              by_cases hc : st.depth + 1 + depthFields fs ≤ 100
              · rw [if_pos hc, if_pos (show st.depth + jdepth (.objectV fs) ≤ 100 by
                  simp only [jdepth]; omega)]
                simp only [runFrom, stepH_endObject_place st hv fs2 pk2]
              · rw [if_neg hc, if_neg (show ¬ st.depth + jdepth (.objectV fs) ≤ 100 by
                  simp only [jdepth]; omega)]
            · refine ⟨.null, ?_⟩
              rw [hev]
              simp only [runFrom, stepH_startObject_none st hd]
              rw [if_neg (show ¬ st.depth + jdepth (.objectV fs) ≤ 100 by
                simp only [jdepth]
                omega)]
        | decimalV d => simp [parseableB] at pt
        | opaqueV ft data => simp [parseableB] at pt
        | dateV p => simp [parseableB] at pt
        | timeV p => simp [parseableB] at pt
        | datetimeV p => simp [parseableB] at pt
        | timestampV p => simp [parseableB] at pt
      · intro xs hx pt d xs0 stack0 root rest hd
        cases xs with
        | nil =>
            refine ⟨[], ?_⟩
            rw [if_pos (by simp [depthList]; omega)]
            simp [eventsList]
        | cons x tl =>
            have hpt := by simpa [parseableListB, Bool.and_eq_true] using pt
            have hv : valueState ⟨.expect_array_value, .fArr xs0 :: stack0, root, d⟩ :=
              Or.inr (Or.inl ⟨rfl, xs0, stack0, rfl⟩)
            have hev : eventsList (x :: tl) ++ rest
                = eventsOf x ++ (eventsList tl ++ rest) := by
              simp [eventsList]
            obtain ⟨v2, h1⟩ := ihV x (by simp at hx; omega) hpt.1
              ⟨.expect_array_value, .fArr xs0 :: stack0, root, d⟩
              (eventsList tl ++ rest) hv
            by_cases hxd : d + jdepth x ≤ 100
            · obtain ⟨xs2, h2⟩ := ihE tl (by simp at hx; omega) hpt.2 d
                (xs0 ++ [v2]) stack0 root rest hd
              refine ⟨v2 :: xs2, ?_⟩
              rw [hev, h1, if_pos hxd]
              rw [show placeVal ⟨.expect_array_value, .fArr xs0 :: stack0, root, d⟩ v2
                  = ⟨.expect_array_value, .fArr (xs0 ++ [v2]) :: stack0, root, d⟩ by
                simp [placeVal]]
              rw [h2]
              by_cases hc : d + depthList tl ≤ 100
              · rw [if_pos hc, if_pos (show d + depthList (x :: tl) ≤ 100 by
                  simp only [depthList]; omega)]
                rw [show (xs0 ++ [v2]) ++ xs2 = xs0 ++ (v2 :: xs2) by simp]
              · rw [if_neg hc, if_neg (show ¬ d + depthList (x :: tl) ≤ 100 by
                  simp only [depthList]; omega)]
            · refine ⟨[], ?_⟩
              rw [hev, h1, if_neg hxd, if_neg (show ¬ d + depthList (x :: tl) ≤ 100 by
                simp only [depthList]; omega)]
      · intro fs hf pt d fs0 pk stack0 root rest hd
        cases fs with
        | nil =>
            refine ⟨fs0, pk, ?_⟩
            rw [if_pos (by simp [depthFields]; omega)]
            simp [eventsFields]
        | cons p tl =>
            obtain ⟨k, v⟩ := p
            have hpt := by simpa [parseableFieldsB, Bool.and_eq_true] using pt
            have hev : eventsFields ((k, v) :: tl) ++ rest
                = .keyE k :: (eventsOf v ++ (eventsFields tl ++ rest)) := by
              simp [eventsFields]
            by_cases hk : d + 1 ≤ 100
            · have hkey : stepH ⟨.expect_object_key, .fObj fs0 pk :: stack0, root, d⟩
                  (.keyE k)
                  = some ⟨.expect_object_value, .fObj fs0 k :: stack0, root, d⟩ := by
                simp [stepH, check_json_depth, JSON_DOCUMENT_MAX_DEPTH]
                omega
              have hv : valueState ⟨.expect_object_value, .fObj fs0 k :: stack0, root, d⟩ :=
                Or.inr (Or.inr ⟨rfl, fs0, k, stack0, rfl⟩)
              obtain ⟨v2, h1⟩ := ihV v (by simp at hf; omega) hpt.1
                ⟨.expect_object_value, .fObj fs0 k :: stack0, root, d⟩
                (eventsFields tl ++ rest) hv
              by_cases hxd : d + jdepth v ≤ 100
              · obtain ⟨fs2, pk2, h2⟩ := ihF tl (by simp at hf; omega) hpt.2 d
                  (addAliasF fs0 k v2) k stack0 root rest hd
                refine ⟨fs2, pk2, ?_⟩
                rw [hev]
                simp only [runFrom, hkey]
                rw [h1, if_pos hxd]
                rw [show placeVal ⟨.expect_object_value, .fObj fs0 k :: stack0, root, d⟩ v2
                    = ⟨.expect_object_key, .fObj (addAliasF fs0 k v2) k :: stack0, root, d⟩ by
                  simp [placeVal]]
                rw [h2]
                by_cases hc : d + depthFields tl ≤ 100
                · rw [if_pos hc, if_pos (show d + depthFields ((k, v) :: tl) ≤ 100 by
                    simp only [depthFields]; omega)]
                · rw [if_neg hc, if_neg (show ¬ d + depthFields ((k, v) :: tl) ≤ 100 by
                    simp only [depthFields]; omega)]
              · refine ⟨fs0, pk, ?_⟩
                rw [hev]
                simp only [runFrom, hkey]
                rw [h1, if_neg hxd, if_neg (show ¬ d + depthFields ((k, v) :: tl) ≤ 100 by
                  simp only [depthFields]; omega)]
            · have hkey : stepH ⟨.expect_object_key, .fObj fs0 pk :: stack0, root, d⟩
                  (.keyE k) = none := by
                have hc : check_json_depth (d + 1) = true := by
                  simp [check_json_depth, JSON_DOCUMENT_MAX_DEPTH]
                  omega
                simp [stepH, hc]
              refine ⟨fs0, pk, ?_⟩
              rw [hev]
              simp only [runFrom, hkey]
              rw [if_neg (show ¬ d + depthFields ((k, v) :: tl) ≤ 100 by
                have := jdepth_pos v
                simp only [depthFields]
                omega)]

/-- Handler run over the events of one parseable value, from a
value-expecting state. -/
theorem runVal (t : Json) (pt : parseableB t = true) (st : HState)
    (rest : List PEvent) (hv : valueState st) :
    ∃ v2, runFrom st (eventsOf t ++ rest) =
      if st.depth + jdepth t ≤ 100 then runFrom (placeVal st v2) rest
      else none :=
  (runAux (sizeOf t + 1)).1 t (by omega) pt st rest hv

end JsonCore

namespace JsonCore

/-- C7: text parsing fails on any parseable document whose depth exceeds
JSON_DOCUMENT_MAX_DEPTH = 100 and succeeds depth-wise for depth at most
100; and feeding the event stream of 101 nested opening brackets (one
StartArray event per byte) stops the parse at event index 100, the byte
offset of the 101st bracket. -/
theorem claim_C7 :
    (∀ t, parseableB t = true → ((runH (eventsOf t)).isSome ↔ jdepth t ≤ 100)) ∧
    failIdx initH (List.replicate 101 .startArray) 0 = some 100 := by
  constructor
  · intro t pt
    have hv : valueState initH := Or.inl ⟨rfl, rfl⟩
    obtain ⟨v2, h⟩ := runVal t pt initH [] hv
    rw [List.append_nil] at h
    unfold runH
    rw [h]
    by_cases hc : jdepth t ≤ 100
    · rw [if_pos (show initH.depth + jdepth t ≤ 100 by simp [initH]; omega)]
      simp [runFrom, hc]
    · rw [if_neg (show ¬ initH.depth + jdepth t ≤ 100 by simp [initH]; omega)]
      simp [hc]
  · rfl

theorem claim_C7_witness :
    (runH (eventsOf (.arrayV []))).isSome ↔ jdepth (.arrayV []) ≤ 100 :=
  claim_C7.1 (.arrayV []) rfl

end JsonCore

namespace JsonCore

/-! ## Canonical decimal mantissa and injectivity on values -/

theorem compare_numbers_eq_zero {α : Type} [LinearOrder α] (a b : α)
    (h : compare_numbers a b = 0) : a = b := by
  unfold compare_numbers at h
  by_cases h1 : a < b
  · simp [h1] at h
  · by_cases h2 : a = b
    · exact h2
    · simp [h1, h2] at h

theorem stripZeros_spec (n : Nat) :
    n = (stripZeros n).1 * 10 ^ (stripZeros n).2 ∧
      (n ≠ 0 → ¬ (10 ∣ (stripZeros n).1) ∧ (stripZeros n).1 ≠ 0) := by
  induction n using Nat.strong_induction_on with
  | _ n ih =>
      by_cases h : n ≠ 0 ∧ n % 10 = 0
      · have hdiv : n / 10 < n := Nat.div_lt_self (Nat.pos_of_ne_zero h.1) (by omega)
        obtain ⟨ih1, ih2⟩ := ih (n / 10) hdiv
        have hstep : stripZeros n = ((stripZeros (n / 10)).1, (stripZeros (n / 10)).2 + 1) := by
          rw [stripZeros]
          simp [h]
        have hn : n = n / 10 * 10 := by omega
        constructor
        · rw [hstep]
          simp only
          rw [pow_succ, ← Nat.mul_assoc, ← ih1]
          omega
        · intro _
          have hq : n / 10 ≠ 0 := by omega
          rw [hstep]
          exact ih2 hq
      · have hstep : stripZeros n = (n, 0) := by
          rw [stripZeros]
          simp [h]
        constructor
        · rw [hstep]; simp
        · intro hn
          rw [hstep]
          refine ⟨?_, hn⟩
          simp only
          intro hdvd
          exact h ⟨hn, Nat.eq_zero_of_dvd_of_lt hdvd (by omega) |> fun _ => by omega⟩

end JsonCore

namespace JsonCore

theorem pow_cancel_q (M1 M2 E1 E2 : Int) (hle : E2 ≤ E1)
    (h : (M1 : ℚ) * 10 ^ E1 = (M2 : ℚ) * 10 ^ E2) :
    M1 * 10 ^ ((E1 - E2).toNat) = M2 := by
  have hd : E1 = E2 + ((E1 - E2).toNat : Int) := by omega
  rw [hd, zpow_add₀ (by norm_num : (10 : ℚ) ≠ 0)] at h
  have h10 : (10 : ℚ) ^ E2 ≠ 0 := zpow_ne_zero _ (by norm_num)
  have h2 : (M1 : ℚ) * 10 ^ (((E1 - E2).toNat : Int)) = M2 := by
    have h3 : ((M1 : ℚ) * 10 ^ (((E1 - E2).toNat : Int))) * 10 ^ E2
        = (M2 : ℚ) * 10 ^ E2 := by
      rw [← h]; ring
    exact mul_right_cancel₀ h10 h3
  rw [zpow_natCast] at h2
  exact_mod_cast h2

theorem canon_eq_of_val_eq (M1 E1 M2 E2 : Int)
    (h1 : ¬ (10 : Int) ∣ M1) (h2 : ¬ (10 : Int) ∣ M2)
    (h : (M1 : ℚ) * 10 ^ E1 = (M2 : ℚ) * 10 ^ E2) : M1 = M2 ∧ E1 = E2 := by
  rcases le_total E2 E1 with hle | hle
  · have key := pow_cancel_q M1 M2 E1 E2 hle h
    by_cases hd : (E1 - E2).toNat = 0
    · rw [hd] at key
      simp at key
      exact ⟨key, by omega⟩
    · exfalso
      apply h2
      rw [← key]
      exact Dvd.dvd.mul_left (dvd_pow_self 10 hd) M1
  · have key := pow_cancel_q M2 M1 E2 E1 hle h.symm
    by_cases hd : (E2 - E1).toNat = 0
    · rw [hd] at key
      simp at key
      exact ⟨key.symm, by omega⟩
    · exfalso
      apply h1
      rw [← key]
      exact Dvd.dvd.mul_left (dvd_pow_self 10 hd) M2

theorem canonNum_val (m e : Int) :
    ((canonNum m e).1 : ℚ) * 10 ^ (canonNum m e).2 = (m : ℚ) * 10 ^ e := by
  unfold canonNum
  by_cases hm : m = 0
  · simp [hm]
  · obtain ⟨hval, _⟩ := stripZeros_spec m.natAbs
    simp only [hm, if_false]
    have habs : ((stripZeros m.natAbs).1 : Int) * 10 ^ (stripZeros m.natAbs).2
        = (m.natAbs : Int) := by exact_mod_cast hval.symm
    have hsign : (Int.sign m * (stripZeros m.natAbs).1 : Int)
        * (10 : Int) ^ (stripZeros m.natAbs).2 = m := by
      calc (Int.sign m * (stripZeros m.natAbs).1 : Int) * 10 ^ (stripZeros m.natAbs).2
          = Int.sign m * (((stripZeros m.natAbs).1 : Int) * 10 ^ (stripZeros m.natAbs).2) := by
            ring
        _ = Int.sign m * (m.natAbs : Int) := by rw [habs]
        _ = m := Int.sign_mul_natAbs m
    rw [zpow_add₀ (by norm_num : (10 : ℚ) ≠ 0), zpow_natCast]
    have hq : ((Int.sign m * ((stripZeros m.natAbs).1 : Int) : Int) : ℚ)
        * 10 ^ (stripZeros m.natAbs).2 = (m : ℚ) := by
      exact_mod_cast congrArg (fun z : Int => (z : ℚ)) hsign
    calc ((Int.sign m * ((stripZeros m.natAbs).1 : Int) : Int) : ℚ)
          * (10 ^ e * 10 ^ (stripZeros m.natAbs).2)
        = (((Int.sign m * ((stripZeros m.natAbs).1 : Int) : Int) : ℚ)
            * 10 ^ (stripZeros m.natAbs).2) * 10 ^ e := by ring
      _ = (m : ℚ) * 10 ^ e := by rw [hq]

theorem canonNum_ndvd (m e : Int) (hm : m ≠ 0) :
    ¬ (10 : Int) ∣ (canonNum m e).1 := by
  unfold canonNum
  simp only [hm, if_false]
  obtain ⟨_, hnd⟩ := stripZeros_spec m.natAbs
  have hna : m.natAbs ≠ 0 := by
    intro h0
    exact hm (Int.natAbs_eq_zero.mp h0)
  obtain ⟨hnd1, hnz⟩ := hnd hna
  intro hdvd
  apply hnd1
  have h3 := Int.natAbs_dvd_natAbs.mpr hdvd
  rw [Int.natAbs_mul, Int.natAbs_sign_of_nonzero hm, one_mul, Int.natAbs_ofNat] at h3
  simpa using h3

theorem canonNum_inj (m1 e1 m2 e2 : Int) (hm1 : m1 ≠ 0) (hm2 : m2 ≠ 0)
    (h : (m1 : ℚ) * 10 ^ e1 = (m2 : ℚ) * 10 ^ e2) :
    canonNum m1 e1 = canonNum m2 e2 := by
  have hv1 := canonNum_val m1 e1
  have hv2 := canonNum_val m2 e2
  have heq : ((canonNum m1 e1).1 : ℚ) * 10 ^ (canonNum m1 e1).2
      = ((canonNum m2 e2).1 : ℚ) * 10 ^ (canonNum m2 e2).2 := by
    rw [hv1, hv2, h]
  obtain ⟨ha, hb⟩ := canon_eq_of_val_eq _ _ _ _ (canonNum_ndvd m1 e1 hm1)
    (canonNum_ndvd m2 e2 hm2) heq
  exact Prod.ext ha hb

end JsonCore

namespace JsonCore

theorem dblVal_zero_iff (d : DblV) : dblVal d = 0 ↔ d.m = 0 := by
  unfold dblVal
  constructor
  · intro h
    rcases mul_eq_zero.mp h with h | h
    · exact_mod_cast h
    · exact absurd h (zpow_ne_zero _ (by norm_num))
  · intro h
    simp [h]

theorem decVal_zero_iff (d : DecV) : decVal d = 0 ↔ d.m = 0 := by
  unfold decVal
  constructor
  · intro h
    rcases mul_eq_zero.mp h with h | h
    · exact_mod_cast h
    · exact absurd h (zpow_ne_zero _ (by norm_num))
  · intro h
    simp [h]

theorem add_double_val_eq (crc : Nat) (d1 d2 : DblV) (h : dblVal d1 = dblVal d2) :
    add_double crc d1 = add_double crc d2 := by
  unfold add_double
  by_cases h0 : dblVal d1 = 0
  · rw [if_pos h0, if_pos (h ▸ h0)]
  · rw [if_neg h0, if_neg (h ▸ h0)]
    have hm1 : d1.m ≠ 0 := fun hz => h0 ((dblVal_zero_iff d1).mpr hz)
    have hm2 : d2.m ≠ 0 := fun hz => (h ▸ h0) ((dblVal_zero_iff d2).mpr hz)
    unfold float8store
    rw [canonNum_inj d1.m d1.e d2.m d2.e hm1 hm2 (by
      have := h
      unfold dblVal at this
      exact this)]

theorem decimal2double_val_eq (x y : DecV) (h : decVal x = decVal y) :
    decimal2double x = decimal2double y := by
  by_cases hx : x.m = 0
  · have hy : y.m = 0 := by
      have h0 : decVal y = 0 := by
        rw [← h]
        exact (decVal_zero_iff x).mpr hx
      exact (decVal_zero_iff y).mp h0
    simp [decimal2double, canonNum, hx, hy]
  · have hy : y.m ≠ 0 := by
      intro hz
      apply hx
      exact (decVal_zero_iff x).mp (h ▸ (decVal_zero_iff y).mpr hz)
    unfold decimal2double
    rw [canonNum_inj x.m x.e y.m y.e hx hy (by
      have := h
      unfold decVal at this
      exact this)]

theorem compare_json_strings_eq (s1 s2 : List Nat)
    (h : compare_json_strings s1 s2 = 0) : s1 = s2 := by
  unfold compare_json_strings at h
  by_cases hc : memcmpPrefix s1 s2 = 0
  · simp only [hc, ne_eq, not_true_eq_false, if_false] at h
    exact eq_of_memcmpPrefix_zero s1 s2 (compare_numbers_eq_zero _ _ (by simpa using h)) hc
  · simp [hc] at h

/-- C9: for scalar values of the same kind that compare equal,
make_hash_key from the same starting accumulator produces the same 64-bit
value; and the doubles 0.0 and -0.0 (distinct bit patterns) hash to the
same value. -/
theorem claim_C9 :
    (∀ (seed : Nat) (a b : Json), kindOf a = kindOf b →
      kindOf a ≠ .J_ARRAY → kindOf a ≠ .J_OBJECT →
      jcompare a b = 0 → make_hash_key seed a = make_hash_key seed b) ∧
    (∀ seed : Nat, make_hash_key seed (.doubleV ⟨0, 0, false⟩)
      = make_hash_key seed (.doubleV ⟨0, 0, true⟩)) := by
  constructor
  · intro seed a b hk hna hno hc
    cases a <;> cases b <;> simp only [kindOf] at hk <;> try (exact absurd hk (by decide))
    case null.null => rfl
    case boolean.boolean p q =>
        rw [compare_numbers_eq_zero p q (by
          simpa [jcompare, jcomparePayload, kindOf, typeComparison, jtypeIdx, type_comparison] using hc)]
    case intV.intV i j =>
        rw [compare_numbers_eq_zero i j (by
          simpa [jcompare, jcomparePayload, kindOf, typeComparison, jtypeIdx, type_comparison] using hc)]
    case uintV.uintV u v =>
        rw [compare_numbers_eq_zero u v (by
          simpa [jcompare, jcomparePayload, kindOf, typeComparison, jtypeIdx, type_comparison] using hc)]
    case doubleV.doubleV d e =>
        have hval : dblVal d = dblVal e := compare_numbers_eq_zero _ _ (by
          simpa [jcompare, jcomparePayload, kindOf, typeComparison, jtypeIdx, type_comparison] using hc)
        simp only [make_hash_key]
        exact add_double_val_eq seed d e hval
    case decimalV.decimalV x y =>
        have hc2 : (if decIsZero x && decIsZero y then (0 : Int)
            else compare_numbers (decVal x) (decVal y)) = 0 := by
          simpa [jcompare, jcomparePayload, kindOf, typeComparison, jtypeIdx, type_comparison] using hc
        simp only [make_hash_key]
        by_cases hz : decIsZero x && decIsZero y
        · have hzz := hz
          simp only [Bool.and_eq_true, decIsZero, decide_eq_true_eq] at hzz
          obtain ⟨hx, hy⟩ := hzz
          rw [decimal2double_val_eq x y (by
            rw [(decVal_zero_iff x).mpr hx, (decVal_zero_iff y).mpr hy])]
        · rw [if_neg hz] at hc2
          rw [decimal2double_val_eq x y (compare_numbers_eq_zero _ _ hc2)]
    case stringV.stringV s1 s2 =>
        rw [compare_json_strings_eq s1 s2 (by
          simpa [jcompare, jcomparePayload, kindOf, typeComparison, jtypeIdx, type_comparison] using hc)]
    case opaqueV.opaqueV f1 d1 f2 d2 =>
        have hc2 : (if compare_numbers f1 f2 ≠ 0 then compare_numbers f1 f2
            else compare_json_strings d1 d2) = 0 := by
          simpa [jcompare, jcomparePayload, kindOf, typeComparison, jtypeIdx, type_comparison] using hc
        by_cases hf : compare_numbers f1 f2 = 0
        · rw [if_neg (by simpa using hf)] at hc2
          simp only [make_hash_key]
          rw [compare_json_strings_eq d1 d2 hc2]
        · rw [if_pos (by simpa using hf)] at hc2
          exact absurd hc2 hf
    case dateV.dateV p q =>
        rw [compare_numbers_eq_zero p q (by
          simpa [jcompare, jcomparePayload, kindOf, typeComparison, jtypeIdx, type_comparison] using hc)]
    case timeV.timeV p q =>
        rw [compare_numbers_eq_zero p q (by
          simpa [jcompare, jcomparePayload, kindOf, typeComparison, jtypeIdx, type_comparison] using hc)]
    case datetimeV.datetimeV p q =>
        rw [compare_numbers_eq_zero p q (by
          simpa [jcompare, jcomparePayload, kindOf, typeComparison, jtypeIdx, type_comparison] using hc)]
    case timestampV.timestampV p q =>
        rw [compare_numbers_eq_zero p q (by
          simpa [jcompare, jcomparePayload, kindOf, typeComparison, jtypeIdx, type_comparison] using hc)]
    case arrayV.arrayV xs ys => exact absurd rfl hna
    case objectV.objectV fs gs => exact absurd rfl hno
  · intro seed
    simp [make_hash_key, add_double, dblVal]

theorem claim_C9_witness :
    make_hash_key 7 (.intV 5) = make_hash_key 7 (.intV 5) :=
  claim_C9.1 7 (.intV 5) (.intV 5) rfl (by decide) (by decide)
    (by simp [jcompare, jcomparePayload, kindOf, typeComparison, jtypeIdx, type_comparison, compare_numbers])


/-! ## Claim C3: compare is an antisymmetric three-valued verdict following
the precedence classes -/

/-- -c stays in the verdict set. -/
theorem neg3_mem (c : Int) (h : c = -1 ∨ c = 0 ∨ c = 1) :
    -c = -1 ∨ -c = 0 ∨ -c = 1 := by
  rcases h with h | h | h <;> rw [h] <;> norm_num

theorem compare_numbers_antisym {α : Type} [LinearOrder α] (a b : α) :
    compare_numbers a b = -compare_numbers b a := by
  unfold compare_numbers
  rcases lt_trichotomy a b with h | h | h
  · rw [if_pos h, if_neg (asymm h), if_neg (ne_of_gt h)]
  · subst h; simp
  · rw [if_neg (asymm h), if_neg (ne_of_gt h), if_pos h]; norm_num

theorem compare_numbers_mem {α : Type} [LinearOrder α] (a b : α) :
    compare_numbers a b = -1 ∨ compare_numbers a b = 0 ∨ compare_numbers a b = 1 := by
  unfold compare_numbers; split_ifs <;> norm_num

/-- Antisymmetry propagates through the tie-break pattern
`if c ≠ 0 then c else d` used all over Json_wrapper::compare. -/
theorem chainC_antisym (c1 c2 d1 d2 : Int) (h1 : c1 = -c2) (h2 : d1 = -d2) :
    (if c1 ≠ 0 then c1 else d1) = -(if c2 ≠ 0 then c2 else d2) := by
  by_cases h : c2 = 0
  · rw [h] at h1; norm_num at h1; simp [h1, h, h2]
  · have hne : c1 ≠ 0 := by rw [h1]; simpa using h
    rw [if_pos hne, if_pos h, h1]

theorem chainC_mem (c d : Int) (hc : c = -1 ∨ c = 0 ∨ c = 1)
    (hd : d = -1 ∨ d = 0 ∨ d = 1) :
    (if c ≠ 0 then c else d) = -1 ∨ (if c ≠ 0 then c else d) = 0 ∨
      (if c ≠ 0 then c else d) = 1 := by
  split_ifs with h
  · exact hc
  · exact hd

theorem compare_json_strings_antisym (s t : List Nat) :
    compare_json_strings s t = -compare_json_strings t s := by
  unfold compare_json_strings
  exact chainC_antisym _ _ _ _ (memcmpPrefix_antisym s t) (compare_numbers_antisym _ _)

theorem compare_json_strings_mem (s t : List Nat) :
    compare_json_strings s t = -1 ∨ compare_json_strings s t = 0 ∨
      compare_json_strings s t = 1 := by
  unfold compare_json_strings
  exact chainC_mem _ _ (memcmpPrefix_mem s t) (compare_numbers_mem _ _)

theorem compare_json_int_uint_mem (a b : Int) :
    compare_json_int_uint a b = -1 ∨ compare_json_int_uint a b = 0 ∨
      compare_json_int_uint a b = 1 := by
  unfold compare_json_int_uint
  split_ifs
  · norm_num
  · exact compare_numbers_mem _ _

theorem compare_json_decimal_double_mem (a : DecV) (b : DblV) :
    compare_json_decimal_double a b = -1 ∨ compare_json_decimal_double a b = 0 ∨
      compare_json_decimal_double a b = 1 := by
  simp only [compare_json_decimal_double]
  by_cases h1 : (decSign a && !decIsZero a) = decide (dblVal b < 0)
  · rw [if_neg (not_not_intro h1)]
    by_cases h2 : decIsZero a = true
    · rw [if_pos h2]
      by_cases h3 : dblVal b = 0
      · rw [if_pos h3]; norm_num
      · rw [if_neg h3]; norm_num
    · rw [if_neg h2]
      by_cases h3 : dblVal b = 0
      · rw [if_pos h3]; norm_num
      · rw [if_neg h3]; exact compare_numbers_mem _ _
  · rw [if_pos h1]
    by_cases h2 : (decSign a && !decIsZero a) = true
    · rw [if_pos h2]; norm_num
    · rw [if_neg h2]; norm_num

theorem compare_json_decimal_int_mem (a : DecV) (b : Int) :
    compare_json_decimal_int a b = -1 ∨ compare_json_decimal_int a b = 0 ∨
      compare_json_decimal_int a b = 1 := by
  unfold compare_json_decimal_int
  split_ifs <;> first | exact compare_numbers_mem _ _ | norm_num

theorem compare_json_decimal_uint_mem (a : DecV) (b : Int) :
    compare_json_decimal_uint a b = -1 ∨ compare_json_decimal_uint a b = 0 ∨
      compare_json_decimal_uint a b = 1 := by
  unfold compare_json_decimal_uint
  split_ifs <;> first | exact compare_numbers_mem _ _ | norm_num

theorem compare_json_double_int_mem (a : DblV) (b : Int) :
    compare_json_double_int a b = -1 ∨ compare_json_double_int a b = 0 ∨
      compare_json_double_int a b = 1 := by
  simp only [compare_json_double_int]
  split_ifs <;>
    first
    | exact neg3_mem _ (compare_json_decimal_double_mem _ _)
    | norm_num

theorem compare_json_double_uint_mem (a : DblV) (b : Int) :
    compare_json_double_uint a b = -1 ∨ compare_json_double_uint a b = 0 ∨
      compare_json_double_uint a b = 1 := by
  simp only [compare_json_double_uint]
  split_ifs <;>
    first
    | exact neg3_mem _ (compare_json_decimal_double_mem _ _)
    | norm_num

/-- The decimal/decimal arm of the payload switch is antisymmetric and
three-valued. -/
theorem decdec_antisym_mem (x y : DecV) :
    ((if decIsZero x && decIsZero y then (0 : Int)
        else compare_numbers (decVal x) (decVal y)) =
      -(if decIsZero y && decIsZero x then (0 : Int)
        else compare_numbers (decVal y) (decVal x))) ∧
    ((if decIsZero x && decIsZero y then (0 : Int)
        else compare_numbers (decVal x) (decVal y)) = -1 ∨
      (if decIsZero x && decIsZero y then (0 : Int)
        else compare_numbers (decVal x) (decVal y)) = 0 ∨
      (if decIsZero x && decIsZero y then (0 : Int)
        else compare_numbers (decVal x) (decVal y)) = 1) := by
  by_cases h : (decIsZero x && decIsZero y) = true
  · have h2 : (decIsZero y && decIsZero x) = true := by rw [Bool.and_comm]; exact h
    rw [if_pos h, if_pos h2]; norm_num
  · have h2 : ¬ ((decIsZero y && decIsZero x) = true) := by rw [Bool.and_comm]; exact h
    rw [if_neg h, if_neg h2]
    exact ⟨compare_numbers_antisym _ _, compare_numbers_mem _ _⟩

/-- The type_comparison matrix is antisymmetric away from the J_ERROR row
and column. -/
theorem typeComparison_antisym :
    ∀ t1 t2 : JType, t1 ≠ .J_ERROR → t2 ≠ .J_ERROR →
      typeComparison t1 t2 = -typeComparison t2 t1 := by decide

theorem typeComparison_mem :
    ∀ t1 t2 : JType, typeComparison t1 t2 = -1 ∨ typeComparison t1 t2 = 0 ∨
      typeComparison t1 t2 = 1 := by decide

theorem typeComparison_zero_symm (t1 t2 : JType) (h1 : t1 ≠ .J_ERROR)
    (h2 : t2 ≠ .J_ERROR) (h : typeComparison t1 t2 = 0) :
    typeComparison t2 t1 = 0 := by
  have := typeComparison_antisym t1 t2 h1 h2
  rw [h] at this
  omega

theorem kindOf_ne_error (a : Json) : kindOf a ≠ .J_ERROR := by
  cases a <;> simp [kindOf]

theorem jcompare_eq_table (a b : Json)
    (h : typeComparison (kindOf a) (kindOf b) ≠ 0) :
    jcompare a b = typeComparison (kindOf a) (kindOf b) := by
  simp only [jcompare]
  rw [if_pos h]

theorem jcompare_eq_payload (a b : Json)
    (h : typeComparison (kindOf a) (kindOf b) = 0) :
    jcompare a b = jcomparePayload a b := by
  simp only [jcompare]
  rw [if_neg (not_not_intro h)]

/-- Bundled induction on total size: Json_wrapper::compare and its array and
field loops are antisymmetric and land in {-1, 0, 1}. -/
theorem jcmp_aux (n : Nat) :
    (∀ a b : Json, sizeOf a + sizeOf b < n →
        jcompare a b = -jcompare b a ∧
          (jcompare a b = -1 ∨ jcompare a b = 0 ∨ jcompare a b = 1)) ∧
    (∀ xs ys : List Json, sizeOf xs + sizeOf ys < n →
        compareArrays xs ys = -compareArrays ys xs ∧
          (compareArrays xs ys = -1 ∨ compareArrays xs ys = 0 ∨
            compareArrays xs ys = 1)) ∧
    (∀ fs gs : List (List Nat × Json), sizeOf fs + sizeOf gs < n →
        compareFields fs gs = -compareFields gs fs ∧
          (compareFields fs gs = -1 ∨ compareFields fs gs = 0 ∨
            compareFields fs gs = 1)) := by
  induction n with
  | zero =>
      exact ⟨fun a b h => absurd h (by omega),
        fun xs ys h => absurd h (by omega),
        fun fs gs h => absurd h (by omega)⟩
  | succ n ih =>
      obtain ⟨ihJ, ihA, ihF⟩ := ih
      refine ⟨?_, ?_, ?_⟩
      · intro a b hsz
        by_cases hc : typeComparison (kindOf a) (kindOf b) = 0
        · have hc2 : typeComparison (kindOf b) (kindOf a) = 0 :=
            typeComparison_zero_symm _ _ (kindOf_ne_error a) (kindOf_ne_error b) hc
          rw [jcompare_eq_payload a b hc, jcompare_eq_payload b a hc2]
          cases a <;> cases b
          all_goals try (exact absurd hc (by simp only [kindOf]; decide))
          case pos.null.null => norm_num [jcomparePayload]
          case pos.boolean.boolean p q =>
            simp only [jcomparePayload]
            exact ⟨compare_numbers_antisym _ _, compare_numbers_mem _ _⟩
          case pos.intV.intV i j =>
            simp only [jcomparePayload]
            exact ⟨compare_numbers_antisym _ _, compare_numbers_mem _ _⟩
          case pos.uintV.uintV u v =>
            simp only [jcomparePayload]
            exact ⟨compare_numbers_antisym _ _, compare_numbers_mem _ _⟩
          case pos.doubleV.doubleV d e =>
            simp only [jcomparePayload]
            exact ⟨compare_numbers_antisym _ _, compare_numbers_mem _ _⟩
          case pos.dateV.dateV p q =>
            simp only [jcomparePayload]
            exact ⟨compare_numbers_antisym _ _, compare_numbers_mem _ _⟩
          case pos.timeV.timeV p q =>
            simp only [jcomparePayload]
            exact ⟨compare_numbers_antisym _ _, compare_numbers_mem _ _⟩
          case pos.datetimeV.datetimeV p q =>
            simp only [jcomparePayload]
            exact ⟨compare_numbers_antisym _ _, compare_numbers_mem _ _⟩
          case pos.datetimeV.timestampV p q =>
            simp only [jcomparePayload]
            exact ⟨compare_numbers_antisym _ _, compare_numbers_mem _ _⟩
          case pos.timestampV.datetimeV p q =>
            simp only [jcomparePayload]
            exact ⟨compare_numbers_antisym _ _, compare_numbers_mem _ _⟩
          case pos.timestampV.timestampV p q =>
            simp only [jcomparePayload]
            exact ⟨compare_numbers_antisym _ _, compare_numbers_mem _ _⟩
          case pos.intV.uintV i u =>
            simp only [jcomparePayload]
            exact ⟨(neg_neg _).symm, compare_json_int_uint_mem _ _⟩
          case pos.uintV.intV u i =>
            simp only [jcomparePayload]
            exact ⟨trivial, neg3_mem _ (compare_json_int_uint_mem _ _)⟩
          case pos.intV.doubleV i d =>
            simp only [jcomparePayload]
            exact ⟨trivial, neg3_mem _ (compare_json_double_int_mem _ _)⟩
          case pos.doubleV.intV d i =>
            simp only [jcomparePayload]
            exact ⟨(neg_neg _).symm, compare_json_double_int_mem _ _⟩
          case pos.uintV.doubleV u d =>
            simp only [jcomparePayload]
            exact ⟨trivial, neg3_mem _ (compare_json_double_uint_mem _ _)⟩
          case pos.doubleV.uintV d u =>
            simp only [jcomparePayload]
            exact ⟨(neg_neg _).symm, compare_json_double_uint_mem _ _⟩
          case pos.intV.decimalV i x =>
            simp only [jcomparePayload]
            exact ⟨trivial, neg3_mem _ (compare_json_decimal_int_mem _ _)⟩
          case pos.decimalV.intV x i =>
            simp only [jcomparePayload]
            exact ⟨(neg_neg _).symm, compare_json_decimal_int_mem _ _⟩
          case pos.uintV.decimalV u x =>
            simp only [jcomparePayload]
            exact ⟨trivial, neg3_mem _ (compare_json_decimal_uint_mem _ _)⟩
          case pos.decimalV.uintV x u =>
            simp only [jcomparePayload]
            exact ⟨(neg_neg _).symm, compare_json_decimal_uint_mem _ _⟩
          case pos.doubleV.decimalV d x =>
            simp only [jcomparePayload]
            exact ⟨trivial, neg3_mem _ (compare_json_decimal_double_mem _ _)⟩
          case pos.decimalV.doubleV x d =>
            simp only [jcomparePayload]
            exact ⟨(neg_neg _).symm, compare_json_decimal_double_mem _ _⟩
          case pos.decimalV.decimalV x y =>
            simp only [jcomparePayload]
            exact decdec_antisym_mem _ _
          case pos.stringV.stringV s1 s2 =>
            simp only [jcomparePayload]
            exact ⟨compare_json_strings_antisym _ _, compare_json_strings_mem _ _⟩
          case pos.opaqueV.opaqueV f1 d1 f2 d2 =>
            simp only [jcomparePayload]
            exact ⟨chainC_antisym _ _ _ _ (compare_numbers_antisym _ _)
                     (compare_json_strings_antisym _ _),
                   chainC_mem _ _ (compare_numbers_mem _ _)
                     (compare_json_strings_mem _ _)⟩
          case pos.arrayV.arrayV xs ys =>
            simp only [jcomparePayload]
            exact ihA xs ys (by simp at hsz; omega)
          case pos.objectV.objectV fs gs =>
            simp only [jcomparePayload]
            have h2 := ihF fs gs (by simp at hsz; omega)
            exact ⟨chainC_antisym _ _ _ _ (compare_numbers_antisym _ _) h2.1,
                   chainC_mem _ _ (compare_numbers_mem _ _) h2.2⟩
        · have hc2 : typeComparison (kindOf b) (kindOf a) ≠ 0 := fun h =>
            hc (typeComparison_zero_symm _ _ (kindOf_ne_error b) (kindOf_ne_error a) h)
          rw [jcompare_eq_table a b hc, jcompare_eq_table b a hc2]
          exact ⟨typeComparison_antisym _ _ (kindOf_ne_error a) (kindOf_ne_error b),
            typeComparison_mem _ _⟩
      · intro xs ys hsz
        cases xs with
        | nil =>
            cases ys with
            | nil => simp [compareArrays]
            | cons y ys => simp [compareArrays]
        | cons x xs =>
            cases ys with
            | nil => simp [compareArrays]
            | cons y ys =>
                simp only [compareArrays]
                have h1 := ihJ x y (by simp at hsz; omega)
                have h2 := ihA xs ys (by simp at hsz; omega)
                exact ⟨chainC_antisym _ _ _ _ h1.1 h2.1, chainC_mem _ _ h1.2 h2.2⟩
      · intro fs gs hsz
        cases fs with
        | nil =>
            cases gs with
            | nil => simp [compareFields]
            | cons q gs => simp [compareFields]
        | cons p fs =>
            cases gs with
            | nil => simp [compareFields]
            | cons q gs =>
                obtain ⟨k1, v1⟩ := p
                obtain ⟨k2, v2⟩ := q
                simp only [compareFields]
                have hv := ihJ v1 v2 (by simp at hsz; omega)
                have hr := ihF fs gs (by simp at hsz; omega)
                exact ⟨chainC_antisym _ _ _ _ (compare_json_strings_antisym _ _)
                          (chainC_antisym _ _ _ _ hv.1 hr.1),
                        chainC_mem _ _ (compare_json_strings_mem _ _)
                          (chainC_mem _ _ hv.2 hr.2)⟩

/-- Precedence class of a kind, transcribed from the order the specification
states: NULL < numeric < STRING < OBJECT < ARRAY < BOOLEAN < DATE < TIME <
DATETIME = TIMESTAMP < OPAQUE, with the four numeric kinds in one class.
This definition follows the specification text; the theorem below checks the
type_comparison matrix of json_dom.cc against it. -/
def classIdx : JType → Nat
  | .J_NULL => 0
  | .J_DECIMAL => 1 | .J_INT => 1 | .J_UINT => 1 | .J_DOUBLE => 1
  | .J_STRING => 2
  | .J_OBJECT => 3
  | .J_ARRAY => 4
  | .J_BOOLEAN => 5
  | .J_DATE => 6
  | .J_TIME => 7
  | .J_DATETIME => 8 | .J_TIMESTAMP => 8
  | .J_OPAQUE => 9
  | .J_ERROR => 10

/-- Away from J_ERROR, the matrix is exactly the comparison of precedence
classes. -/
theorem typeComparison_classes :
    ∀ t1 t2 : JType, t1 ≠ .J_ERROR → t2 ≠ .J_ERROR →
      typeComparison t1 t2 =
        (if classIdx t1 = classIdx t2 then 0
         else if classIdx t1 < classIdx t2 then -1 else 1) := by decide

/-- C3: for all JSON values a and b, compare(a, b) = -compare(b, a); the
verdict is three-valued (-1, 0 or 1, so exactly one of <, =, > holds); and
whenever a and b lie in different precedence classes, the result is decided
by the fixed class order NULL < numeric < STRING < OBJECT < ARRAY < BOOLEAN
< DATE < TIME < DATETIME = TIMESTAMP < OPAQUE, with the four numeric kinds
sharing one class. -/
theorem claim_C3 :
    (∀ a b : Json, jcompare a b = -jcompare b a) ∧
    (∀ a b : Json,
        jcompare a b = -1 ∨ jcompare a b = 0 ∨ jcompare a b = 1) ∧
    (∀ a b : Json, classIdx (kindOf a) ≠ classIdx (kindOf b) →
        jcompare a b =
          (if classIdx (kindOf a) < classIdx (kindOf b) then -1 else 1)) := by
  refine ⟨?_, ?_, ?_⟩
  · intro a b
    exact ((jcmp_aux (sizeOf a + sizeOf b + 1)).1 a b (by omega)).1
  · intro a b
    exact ((jcmp_aux (sizeOf a + sizeOf b + 1)).1 a b (by omega)).2
  · intro a b h
    have hm := typeComparison_classes (kindOf a) (kindOf b)
      (kindOf_ne_error a) (kindOf_ne_error b)
    have htab : typeComparison (kindOf a) (kindOf b) ≠ 0 := by
      rw [hm, if_neg h]
      split_ifs <;> norm_num
    rw [jcompare_eq_table a b htab, hm, if_neg h]

/-- Witness: the class-order conjunct of C3 at a concrete pair, a string
against an array. -/
theorem claim_C3_witness :
    classIdx (kindOf (.stringV [97])) ≠ classIdx (kindOf (.arrayV [])) ∧
      jcompare (.stringV [97]) (.arrayV []) = -1 :=
  ⟨by decide, by
    have := claim_C3.2.2 (.stringV [97]) (.arrayV []) (by decide)
    simpa [kindOf, classIdx] using this⟩

/-! ## Claim C8: double vs int comparison infrastructure.
The decimal image of an integer cast to double has at most 17 significant
digits; the lemmas below pin down roundNat17 and show that no value of the
17-significant-digit form lies strictly between an integer and its rounding. -/

theorem numDigits_le (n k : Nat) (hn : n ≠ 0) (h : n < 10 ^ k) :
    numDigits n ≤ k := by
  unfold numDigits
  rw [if_neg hn]
  have := Nat.log_lt_of_lt_pow hn h
  omega

theorem le_numDigits (n k : Nat) (h : 10 ^ k ≤ n) : k + 1 ≤ numDigits n := by
  have hn : n ≠ 0 := by
    have : (0:ℕ) < 10 ^ k := by positivity
    omega
  unfold numDigits
  rw [if_neg hn]
  have := Nat.le_log_of_pow_le (by norm_num) h
  omega

theorem numDigits_bounds (n : Nat) (hn : n ≠ 0) :
    10 ^ (numDigits n - 1) ≤ n ∧ n < 10 ^ numDigits n := by
  unfold numDigits
  rw [if_neg hn]
  refine ⟨?_, ?_⟩
  · simpa using Nat.pow_log_le_self 10 hn
  · exact Nat.lt_pow_succ_log_self (by norm_num) n

theorem roundNat17_small (n : Nat) (hn : n < 10 ^ 17) : roundNat17 n = n := by
  simp only [roundNat17]
  rw [if_pos hn]

/-- For n of 18 or more digits, roundNat17 keeps or increments the leading
17-digit prefix q, and n itself lies in [q * 10^s, (q+1) * 10^s). -/
theorem roundNat17_spec (n : Nat) (hn : 10 ^ 17 ≤ n) :
    1 ≤ numDigits n - 17 ∧
    10 ^ 16 ≤ n / 10 ^ (numDigits n - 17) ∧
    n / 10 ^ (numDigits n - 17) < 10 ^ 17 ∧
    n / 10 ^ (numDigits n - 17) * 10 ^ (numDigits n - 17) ≤ n ∧
    n < (n / 10 ^ (numDigits n - 17) + 1) * 10 ^ (numDigits n - 17) ∧
    (roundNat17 n = n / 10 ^ (numDigits n - 17) * 10 ^ (numDigits n - 17) ∨
      roundNat17 n = (n / 10 ^ (numDigits n - 17) + 1) * 10 ^ (numDigits n - 17)) := by
  have hn0 : n ≠ 0 := by
    have : (0:ℕ) < 10 ^ 17 := by positivity
    omega
  have h18 : 18 ≤ numDigits n := le_numDigits n 17 hn
  have hb := numDigits_bounds n hn0
  have hdpos : 0 < 10 ^ (numDigits n - 17) := by positivity
  have hlow : 10 ^ 16 * 10 ^ (numDigits n - 17) ≤ n := by
    have he : 10 ^ (numDigits n - 1) = 10 ^ 16 * 10 ^ (numDigits n - 17) := by
      rw [← pow_add]
      congr 1
      omega
    rw [← he]
    exact hb.1
  have hhigh : n < 10 ^ 17 * 10 ^ (numDigits n - 17) := by
    have he : 10 ^ numDigits n = 10 ^ 17 * 10 ^ (numDigits n - 17) := by
      rw [← pow_add]
      congr 1
      omega
    rw [← he]
    exact hb.2
  refine ⟨by omega, ?_, ?_, ?_, ?_, ?_⟩
  · exact (Nat.le_div_iff_mul_le hdpos).mpr hlow
  · exact (Nat.div_lt_iff_lt_mul hdpos).mpr hhigh
  · exact Nat.div_mul_le_self n _
  · have hmod := Nat.div_add_mod n (10 ^ (numDigits n - 17))
    have hmlt : n % 10 ^ (numDigits n - 17) < 10 ^ (numDigits n - 17) :=
      Nat.mod_lt _ hdpos
    have hexp : (n / 10 ^ (numDigits n - 17) + 1) * 10 ^ (numDigits n - 17) =
        10 ^ (numDigits n - 17) * (n / 10 ^ (numDigits n - 17)) +
          10 ^ (numDigits n - 17) := by ring
    omega
  · simp only [roundNat17]
    rw [if_neg (not_lt.mpr hn)]
    split_ifs with h1 h2 h3
    · right; rfl
    · left; rfl
    · left; rfl
    · right; rfl

/-- roundNat17 is exact on inputs that already have at most 17 significant
digits. -/
theorem roundNat17_exact (n M E : Nat) (hM : M < 10 ^ 17) (h : n = M * 10 ^ E) :
    roundNat17 n = n := by
  by_cases hn : n < 10 ^ 17
  · exact roundNat17_small n hn
  · push_neg at hn
    have hn0 : n ≠ 0 := by
      have : (0:ℕ) < 10 ^ 17 := by positivity
      omega
    have hlt : n < 10 ^ (17 + E) := by
      rw [h, pow_add]
      exact mul_lt_mul_of_pos_right hM (by positivity)
    have hdig : numDigits n ≤ 17 + E := numDigits_le n (17 + E) hn0 hlt
    have hsE : numDigits n - 17 ≤ E := by omega
    have hdvd : 10 ^ (numDigits n - 17) ∣ n := by
      have hd : 10 ^ (numDigits n - 17) ∣ M * 10 ^ E :=
        Dvd.dvd.mul_left (pow_dvd_pow 10 hsE) M
      rw [← h] at hd
      exact hd
    have hr : n % 10 ^ (numDigits n - 17) = 0 := Nat.mod_eq_zero_of_dvd hdvd
    have hdpos : 0 < 10 ^ (numDigits n - 17) := by positivity
    simp only [roundNat17]
    rw [if_neg (not_lt.mpr hn), hr]
    rw [if_neg (by omega), if_pos (by omega)]
    exact Nat.div_mul_cancel hdvd

/-- No rational of the form am * 10^ae with |am| < 10^17 lies strictly
inside an interval (q * 10^s, (q+1) * 10^s) cut at a 17-digit prefix q. -/
theorem no_grid_in_gap (s q : Nat) (hs : 1 ≤ s) (hq1 : 10 ^ 16 ≤ q)
    (hq2 : q < 10 ^ 17) (am ae : Int) (ham : am.natAbs < 10 ^ 17) (X : ℚ)
    (hX : X = (am : ℚ) * (10 : ℚ) ^ ae)
    (h1 : ((q * 10 ^ s : Nat) : ℚ) < X)
    (h2 : X < (((q + 1) * 10 ^ s : Nat) : ℚ)) : False := by
  have hppos : (0:ℚ) < (10:ℚ) ^ (s:ℕ) := by positivity
  push_cast at h1 h2
  by_cases hae : (s : Int) ≤ ae
  · have hXk : X = ((am * 10 ^ (ae - (s:Int)).toNat : Int) : ℚ) * (10:ℚ) ^ (s:ℕ) := by
      rw [hX]
      push_cast
      rw [mul_assoc, ← zpow_natCast (10:ℚ) (ae - (s:Int)).toNat,
        ← zpow_natCast (10:ℚ) s, ← zpow_add₀ (by norm_num : (10:ℚ) ≠ 0),
        Int.toNat_of_nonneg (by omega : (0:Int) ≤ ae - (s:Int))]
      congr 2
      omega
    have hq_lt : (q : ℚ) < ((am * 10 ^ (ae - (s:Int)).toNat : Int) : ℚ) := by
      have h1x := h1
      rw [hXk] at h1x
      exact (mul_lt_mul_right hppos).mp h1x
    have hk_lt : ((am * 10 ^ (ae - (s:Int)).toNat : Int) : ℚ) < (q : ℚ) + 1 := by
      have h2x := h2
      rw [hXk] at h2x
      exact (mul_lt_mul_right hppos).mp h2x
    have hq_ltZ : (q : Int) < am * 10 ^ (ae - (s:Int)).toNat := by exact_mod_cast hq_lt
    have hk_ltZ : am * 10 ^ (ae - (s:Int)).toNat < (q : Int) + 1 := by exact_mod_cast hk_lt
    omega
  · push_neg at hae
    have habs : |(am : ℚ)| < (10:ℚ) ^ (17:ℕ) := by
      have hz : |am| < (10:ℤ) ^ 17 := by
        rw [Int.abs_eq_natAbs]
        exact_mod_cast ham
      calc |(am:ℚ)| = ((|am| : ℤ) : ℚ) := Int.cast_abs.symm
      _ < (((10:ℤ) ^ 17 : ℤ) : ℚ) := by exact_mod_cast hz
      _ = (10:ℚ) ^ (17:ℕ) := by push_cast; rfl
    have hXlt : X < (10:ℚ) ^ (17:ℕ) * (10:ℚ) ^ ae := by
      rw [hX]
      exact mul_lt_mul_of_pos_right (lt_of_le_of_lt (le_abs_self _) habs)
        (zpow_pos (by norm_num) ae)
    have h1710 : (10:ℚ) ^ (17:ℕ) = (10:ℚ) ^ ((17:Int)) := by
      rw [← zpow_natCast]
      norm_num
    have hXlt2 : X < (10:ℚ) ^ ((16 + s : Nat) : Int) := by
      calc X < (10:ℚ) ^ (17:ℕ) * (10:ℚ) ^ ae := hXlt
      _ = (10:ℚ) ^ ((17:Int) + ae) := by
          rw [zpow_add₀ (by norm_num : (10:ℚ) ≠ 0), h1710]
      _ ≤ (10:ℚ) ^ ((16 + s : Nat) : Int) :=
          zpow_le_zpow_right₀ (by norm_num) (by push_cast; omega)
    have hge : ((10:ℚ)) ^ ((16 + s : Nat) : Int) ≤ (q : ℚ) * (10:ℚ) ^ (s:ℕ) := by
      rw [zpow_natCast, pow_add]
      refine mul_le_mul_of_nonneg_right ?_ (by positivity)
      exact_mod_cast hq1
    linarith


/-- roundNat17 is the identity on any natural number that denotes a value
am * 10^ae with at most 17 significant digits. -/
theorem roundNat17_exact_of_grid (n : Nat) (am ae : Int)
    (ham : am.natAbs < 10 ^ 17)
    (h : (n : ℚ) = (am : ℚ) * (10 : ℚ) ^ ae) : roundNat17 n = n := by
  by_cases hn : n < 10 ^ 17
  · exact roundNat17_small n hn
  · push_neg at hn
    have hn0 : n ≠ 0 := by
      have : (0:ℕ) < 10 ^ 17 := by positivity
      omega
    by_cases hae : 0 ≤ ae
    · have hZ : (n : Int) = am * 10 ^ ae.toNat := by
        have hq : ((n : Int) : ℚ) = ((am * 10 ^ ae.toNat : Int) : ℚ) := by
          push_cast
          rw [h, ← zpow_natCast (10:ℚ) ae.toNat, Int.toNat_of_nonneg hae]
        exact_mod_cast hq
      have ham_pos : 0 < am := by
        rcases lt_trichotomy am 0 with h1 | h1 | h1
        · have hneg : (n : Int) < 0 := by
            rw [hZ]
            exact mul_neg_of_neg_of_pos h1 (by positivity)
          omega
        · rw [h1] at hZ
          simp at hZ
          omega
        · exact h1
      have hN : n = am.toNat * 10 ^ ae.toNat := by
        have : (n : Int) = (am.toNat : Int) * 10 ^ ae.toNat := by
          rw [Int.toNat_of_nonneg ham_pos.le]
          exact hZ
        exact_mod_cast this
      have h17 : (10:ℕ) ^ 17 = 100000000000000000 := by norm_num
      have hMlt : am.toNat < 10 ^ 17 := by
        rw [h17]
        rw [h17] at ham
        omega
      exact roundNat17_exact n am.toNat ae.toNat hMlt hN
    · exfalso
      push_neg at hae
      have habs : |(am : ℚ)| < (10:ℚ) ^ (17:ℕ) := by
        have hz : |am| < (10:ℤ) ^ 17 := by
          rw [Int.abs_eq_natAbs]
          exact_mod_cast ham
        calc |(am:ℚ)| = ((|am| : ℤ) : ℚ) := Int.cast_abs.symm
        _ < (((10:ℤ) ^ 17 : ℤ) : ℚ) := by exact_mod_cast hz
        _ = (10:ℚ) ^ (17:ℕ) := by push_cast; rfl
      have hone : (10:ℚ) ^ ae ≤ 1 := by
        calc (10:ℚ) ^ ae ≤ (10:ℚ) ^ (0:Int) :=
              zpow_le_zpow_right₀ (by norm_num) (by omega)
        _ = 1 := zpow_zero 10
      have h1 : (n : ℚ) < 10 ^ (17:ℕ) := by
        rw [h]
        calc (am:ℚ) * (10:ℚ) ^ ae ≤ |(am:ℚ)| * (10:ℚ) ^ ae :=
              mul_le_mul_of_nonneg_right (le_abs_self _) (by positivity)
        _ < (10:ℚ) ^ (17:ℕ) * (10:ℚ) ^ ae :=
              mul_lt_mul_of_pos_right habs (by positivity)
        _ ≤ (10:ℚ) ^ (17:ℕ) * 1 :=
              mul_le_mul_of_nonneg_left hone (by positivity)
        _ = (10:ℚ) ^ (17:ℕ) := mul_one _
      have h2 : ((10:ℕ) ^ 17 : ℚ) ≤ (n : ℚ) := by exact_mod_cast hn
      push_cast at h2
      linarith

/-- The gap between an 18-digit-or-more integer and its 17-digit rounding
contains no value of the 17-significant-digit decimal form. -/
theorem round17_gap (n : Nat) (hn : 10 ^ 17 ≤ n) (am ae : Int)
    (ham : am.natAbs < 10 ^ 17) (X : ℚ)
    (hX : X = (am : ℚ) * (10 : ℚ) ^ ae) :
    ¬ ((n : ℚ) ≤ X ∧ X < (roundNat17 n : ℚ)) ∧
    ¬ ((roundNat17 n : ℚ) < X ∧ X ≤ (n : ℚ)) := by
  obtain ⟨hs1, hq1, hq2, hqn, hnq, hr⟩ := roundNat17_spec n hn
  constructor
  · rintro ⟨hnX, hXr⟩
    have hnrN : n < roundNat17 n := by exact_mod_cast lt_of_le_of_lt hnX hXr
    rcases hr with h | h
    · rw [h] at hnrN
      omega
    · rcases eq_or_lt_of_le hnX with heq | hlt
      · have hex : roundNat17 n = n :=
          roundNat17_exact_of_grid n am ae ham (by rw [heq, hX])
        omega
      · refine no_grid_in_gap (numDigits n - 17) (n / 10 ^ (numDigits n - 17))
          hs1 hq1 hq2 am ae ham X hX ?_ ?_
        · have hc : ((n / 10 ^ (numDigits n - 17) * 10 ^ (numDigits n - 17) : ℕ) : ℚ) ≤ (n:ℚ) := by
            exact_mod_cast hqn
          linarith
        · have hXr2 := hXr
          rw [h] at hXr2
          exact hXr2
  · rintro ⟨hrX, hXn⟩
    have hrnN : roundNat17 n < n := by exact_mod_cast lt_of_lt_of_le hrX hXn
    rcases hr with h | h
    · rcases eq_or_lt_of_le hXn with heq | hlt
      · have hex : roundNat17 n = n :=
          roundNat17_exact_of_grid n am ae ham (by rw [← heq, hX])
        omega
      · refine no_grid_in_gap (numDigits n - 17) (n / 10 ^ (numDigits n - 17))
          hs1 hq1 hq2 am ae ham X hX ?_ ?_
        · have hrX2 := hrX
          rw [h] at hrX2
          exact hrX2
        · have hc : (n:ℚ) < ((n / 10 ^ (numDigits n - 17) + 1) * 10 ^ (numDigits n - 17) : ℕ) := by
            exact_mod_cast hnq
          linarith
    · rw [h] at hrnN
      omega


theorem decVal_neg_iff (x : DecV) : decVal x < 0 ↔ x.m < 0 := by
  have hp : (0:ℚ) < (10:ℚ) ^ x.e := zpow_pos (by norm_num) _
  unfold decVal
  constructor
  · intro h
    by_contra hc
    push_neg at hc
    have hge : (0:ℚ) ≤ (x.m : ℚ) * (10:ℚ) ^ x.e :=
      mul_nonneg (by exact_mod_cast hc) hp.le
    linarith
  · intro h
    have hq : (x.m : ℚ) < 0 := by exact_mod_cast h
    exact mul_neg_of_neg_of_pos hq hp

theorem decVal_pos_iff (x : DecV) : 0 < decVal x ↔ 0 < x.m := by
  have hp : (0:ℚ) < (10:ℚ) ^ x.e := zpow_pos (by norm_num) _
  unfold decVal
  constructor
  · intro h
    by_contra hc
    push_neg at hc
    have hle : (x.m : ℚ) * (10:ℚ) ^ x.e ≤ 0 :=
      mul_nonpos_of_nonpos_of_nonneg (by exact_mod_cast hc) hp.le
    linarith
  · intro h
    exact mul_pos (by exact_mod_cast h) hp

/-- compare_json_decimal_double computes exactly the numeric comparison of
the two values: the sign and zero screening never contradicts it. -/
theorem compare_json_decimal_double_eq_cn (x : DecV) (y : DblV) :
    compare_json_decimal_double x y = compare_numbers (decVal x) (dblVal y) := by
  simp only [compare_json_decimal_double]
  by_cases hz : decIsZero x = true
  · have hm : x.m = 0 := by simpa [decIsZero] using hz
    have hx0 : decVal x = 0 := by simp [decVal, hm]
    by_cases hy : dblVal y < 0
    · have hcond : (decSign x && !decIsZero x) ≠ decide (dblVal y < 0) := by
        simp [hz, hy]
      rw [if_pos hcond,
        if_neg (by simp [hz] : ¬ (decSign x && !decIsZero x) = true)]
      unfold compare_numbers
      rw [if_neg (by intro h; rw [hx0] at h; linarith),
        if_neg (by intro h; rw [hx0] at h; linarith)]
    · have hcond : ¬ ((decSign x && !decIsZero x) ≠ decide (dblVal y < 0)) := by
        simp [hz, hy]
      rw [if_neg hcond, if_pos hz]
      by_cases hy0 : dblVal y = 0
      · rw [if_pos hy0]
        unfold compare_numbers
        rw [if_neg (by intro h; rw [hx0, hy0] at h; exact lt_irrefl 0 h),
          if_pos (by rw [hx0, hy0])]
      · rw [if_neg hy0]
        have hypos : 0 < dblVal y := lt_of_le_of_ne (not_lt.mp hy) (Ne.symm hy0)
        unfold compare_numbers
        rw [if_pos (by rw [hx0]; exact hypos)]
  · have hm : x.m ≠ 0 := by simpa [decIsZero] using hz
    by_cases hs : decSign x = true
    · have hmneg : x.m < 0 := by simpa [decSign] using hs
      have hvx : decVal x < 0 := (decVal_neg_iff x).mpr hmneg
      by_cases hy : dblVal y < 0
      · have hcond : ¬ ((decSign x && !decIsZero x) ≠ decide (dblVal y < 0)) := by
          simp [hz, hs, hy]
        rw [if_neg hcond, if_neg hz, if_neg (ne_of_lt hy)]
      · have hcond : (decSign x && !decIsZero x) ≠ decide (dblVal y < 0) := by
          simp [hz, hs, hy]
        rw [if_pos hcond,
          if_pos (by simp [hs, hz] : (decSign x && !decIsZero x) = true)]
        unfold compare_numbers
        rw [if_pos (lt_of_lt_of_le hvx (not_lt.mp hy))]
    · have hmpos : 0 < x.m := by
        have h0 : ¬ x.m < 0 := by simpa [decSign] using hs
        omega
      have hvx : 0 < decVal x := (decVal_pos_iff x).mpr hmpos
      by_cases hy : dblVal y < 0
      · have hcond : (decSign x && !decIsZero x) ≠ decide (dblVal y < 0) := by
          simp [hz, hs, hy]
        rw [if_pos hcond,
          if_neg (by simp [hs] : ¬ (decSign x && !decIsZero x) = true)]
        unfold compare_numbers
        rw [if_neg (by intro h; linarith), if_neg (by intro h; rw [← h] at hy; linarith)]
      · have hcond : ¬ ((decSign x && !decIsZero x) ≠ decide (dblVal y < 0)) := by
          simp [hz, hs, hy]
        rw [if_neg hcond, if_neg hz]
        by_cases hy0 : dblVal y = 0
        · rw [if_pos hy0]
          unfold compare_numbers
          rw [if_neg (by intro h; rw [hy0] at h; linarith),
            if_neg (by intro h; rw [hy0] at h; linarith)]
        · rw [if_neg hy0]

/-- compare_json_double_int computes exactly the numeric comparison of the
double with the (unrounded) integer, provided the double has at most 17
significant digits: the rounding of the cast can never reorder them. -/
theorem compare_json_double_int_eq_cn (a : DblV) (b : Int)
    (ham : a.m.natAbs < 10 ^ 17) :
    compare_json_double_int a b = compare_numbers (dblVal a) ((b : ℚ)) := by
  have hX : dblVal a = (a.m : ℚ) * (10:ℚ) ^ a.e := rfl
  have hRval : dblVal (longlongToDouble b) =
      ((Int.sign b : ℚ)) * ((roundNat17 b.natAbs : ℕ) : ℚ) := by
    simp [dblVal, longlongToDouble]
  have K1 : dblVal a < dblVal (longlongToDouble b) → dblVal a < (b : ℚ) := by
    intro h
    by_contra hc
    push_neg at hc
    rcases lt_trichotomy b 0 with hb | hb | hb
    · have hnb : ((b.natAbs : ℤ)) = -b := by omega
      have hbn : (b : ℚ) = -((b.natAbs : ℕ) : ℚ) := by
        have hq : (b : ℤ) = -((b.natAbs : ℤ)) := by omega
        exact_mod_cast hq
      have hRv : dblVal (longlongToDouble b) = -((roundNat17 b.natAbs : ℕ) : ℚ) := by
        rw [hRval, Int.sign_eq_neg_one_of_neg hb]
        push_cast
        ring
      by_cases hsmall : b.natAbs < 10 ^ 17
      · rw [roundNat17_small _ hsmall] at hRv
        rw [hRv, ← hbn] at h
        linarith
      · push_neg at hsmall
        have hgap := (round17_gap b.natAbs hsmall (-a.m) a.e
          (by simpa using ham) (-(dblVal a)) (by rw [hX]; push_cast; ring)).2
        apply hgap
        constructor
        · have h2 := h
          rw [hRv] at h2
          linarith
        · rw [hbn] at hc
          linarith
    · subst hb
      have hR0 : dblVal (longlongToDouble 0) = 0 := by
        rw [hRval]
        simp
      rw [hR0] at h
      push_cast at hc
      linarith
    · have hbn : (b : ℚ) = ((b.natAbs : ℕ) : ℚ) := by
        have hq : (b : ℤ) = ((b.natAbs : ℤ)) := by omega
        calc (b : ℚ) = (((b.natAbs : ℕ) : ℤ) : ℚ) := by rw [← hq]
        _ = ((b.natAbs : ℕ) : ℚ) := Int.cast_natCast _
      have hRv : dblVal (longlongToDouble b) = ((roundNat17 b.natAbs : ℕ) : ℚ) := by
        rw [hRval, Int.sign_eq_one_of_pos hb]
        push_cast
        ring
      by_cases hsmall : b.natAbs < 10 ^ 17
      · rw [roundNat17_small _ hsmall] at hRv
        rw [hRv, ← hbn] at h
        linarith
      · push_neg at hsmall
        have hgap := (round17_gap b.natAbs hsmall a.m a.e ham (dblVal a) hX).1
        apply hgap
        constructor
        · rw [hbn] at hc
          exact hc
        · rw [← hRv]
          exact h
  have K2 : dblVal (longlongToDouble b) < dblVal a → (b : ℚ) < dblVal a := by
    intro h
    by_contra hc
    push_neg at hc
    rcases lt_trichotomy b 0 with hb | hb | hb
    · have hnb : ((b.natAbs : ℤ)) = -b := by omega
      have hbn : (b : ℚ) = -((b.natAbs : ℕ) : ℚ) := by
        have hq : (b : ℤ) = -((b.natAbs : ℤ)) := by omega
        exact_mod_cast hq
      have hRv : dblVal (longlongToDouble b) = -((roundNat17 b.natAbs : ℕ) : ℚ) := by
        rw [hRval, Int.sign_eq_neg_one_of_neg hb]
        push_cast
        ring
      by_cases hsmall : b.natAbs < 10 ^ 17
      · rw [roundNat17_small _ hsmall] at hRv
        rw [hRv, ← hbn] at h
        linarith
      · push_neg at hsmall
        have hgap := (round17_gap b.natAbs hsmall (-a.m) a.e
          (by simpa using ham) (-(dblVal a)) (by rw [hX]; push_cast; ring)).1
        apply hgap
        constructor
        · rw [hbn] at hc
          linarith
        · have h2 := h
          rw [hRv] at h2
          linarith
    · subst hb
      have hR0 : dblVal (longlongToDouble 0) = 0 := by
        rw [hRval]
        simp
      rw [hR0] at h
      push_cast at hc
      linarith
    · have hbn : (b : ℚ) = ((b.natAbs : ℕ) : ℚ) := by
        have hq : (b : ℤ) = ((b.natAbs : ℤ)) := by omega
        calc (b : ℚ) = (((b.natAbs : ℕ) : ℤ) : ℚ) := by rw [← hq]
        _ = ((b.natAbs : ℕ) : ℚ) := Int.cast_natCast _
      have hRv : dblVal (longlongToDouble b) = ((roundNat17 b.natAbs : ℕ) : ℚ) := by
        rw [hRval, Int.sign_eq_one_of_pos hb]
        push_cast
        ring
      by_cases hsmall : b.natAbs < 10 ^ 17
      · rw [roundNat17_small _ hsmall] at hRv
        rw [hRv, ← hbn] at h
        linarith
      · push_neg at hsmall
        have hgap := (round17_gap b.natAbs hsmall a.m a.e ham (dblVal a) hX).2
        apply hgap
        constructor
        · rw [← hRv]
          exact h
        · rw [hbn] at hc
          exact hc
  simp only [compare_json_double_int]
  by_cases h1 : dblVal a < dblVal (longlongToDouble b)
  · rw [if_pos h1]
    unfold compare_numbers
    rw [if_pos (K1 h1)]
  · rw [if_neg h1]
    by_cases h2 : dblVal (longlongToDouble b) < dblVal a
    · rw [if_pos h2]
      have hba := K2 h2
      unfold compare_numbers
      rw [if_neg (by intro hh; linarith), if_neg (by intro hh; linarith)]
    · rw [if_neg h2]
      rw [compare_json_decimal_double_eq_cn]
      have hdv : decVal ⟨b, 0⟩ = (b : ℚ) := by simp [decVal]
      rw [hdv, compare_numbers_antisym ((b : ℚ)) (dblVal a), neg_neg]

/-- C8: compare_json_double_int decides by the double comparison against the
rounded cast of the integer when that is strict; on a tie the exact decimal
comparison decides, so the verdict is 0 exactly when the double and the
integer denote the same rational number (for doubles in the 17-significant-
digit my_gcvt range). Concretely, the full wrapper comparison gives 0 for
1.0 versus 1 and gives 1 for 1.0000000000001 versus 1. -/
theorem claim_C8 :
    (∀ (a : DblV) (b : Int), dblVal a < dblVal (longlongToDouble b) →
        compare_json_double_int a b = -1) ∧
    (∀ (a : DblV) (b : Int), dblVal (longlongToDouble b) < dblVal a →
        compare_json_double_int a b = 1) ∧
    (∀ (a : DblV) (b : Int), a.m.natAbs < 10 ^ 17 →
        (compare_json_double_int a b = 0 ↔ dblVal a = (b : ℚ))) ∧
    jcompare (.doubleV ⟨1, 0, false⟩) (.intV 1) = 0 ∧
    jcompare (.doubleV ⟨10000000000001, -13, false⟩) (.intV 1) = 1 := by
  refine ⟨?_, ?_, ?_, ?_, ?_⟩
  · intro a b h
    simp only [compare_json_double_int]
    rw [if_pos h]
  · intro a b h
    simp only [compare_json_double_int]
    rw [if_neg (asymm h), if_pos h]
  · intro a b ham
    rw [compare_json_double_int_eq_cn a b ham]
    constructor
    · exact compare_numbers_eq_zero _ _
    · intro h
      rw [h]
      unfold compare_numbers
      rw [if_neg (lt_irrefl _), if_pos rfl]
  · rw [jcompare_eq_payload _ _ (by decide)]
    simp only [jcomparePayload]
    rw [compare_json_double_int_eq_cn ⟨1, 0, false⟩ 1 (by norm_num)]
    have hv : dblVal ⟨1, 0, false⟩ = ((1 : Int) : ℚ) := by simp [dblVal]
    rw [hv]
    unfold compare_numbers
    rw [if_neg (lt_irrefl _), if_pos rfl]
  · rw [jcompare_eq_payload _ _ (by decide)]
    simp only [jcomparePayload]
    rw [compare_json_double_int_eq_cn ⟨10000000000001, -13, false⟩ 1 (by norm_num)]
    have h13 : ((10:ℚ)) ^ (-13 : ℤ) = ((10:ℚ) ^ (13:ℕ))⁻¹ := by
      rw [zpow_neg]
      norm_num
    have hv : ((1 : Int) : ℚ) < dblVal ⟨10000000000001, -13, false⟩ := by
      unfold dblVal
      rw [h13, ← div_eq_mul_inv]
      rw [lt_div_iff₀ (by positivity)]
      push_cast
      norm_num
    unfold compare_numbers
    rw [if_neg (by intro h; linarith), if_neg (by intro h; linarith)]

/-- Witness: the tie-breaking iff of C8 at the concrete double 1 and the
integer 2. -/
theorem claim_C8_witness :
    ((⟨1, 0, false⟩ : DblV).m.natAbs < 10 ^ 17) ∧
      (compare_json_double_int ⟨1, 0, false⟩ 2 = 0 ↔
        dblVal ⟨1, 0, false⟩ = ((2 : Int) : ℚ)) :=
  ⟨by norm_num, claim_C8.2.2.1 ⟨1, 0, false⟩ 2 (by norm_num)⟩


/-! ## Claim C4: sort keys. Infrastructure for big-endian digit strings. -/

/-- Big-endian digit string of n in base B, w digits (leading zeros kept). -/
def baseBE (B w n : Nat) : List Nat :=
  (List.range w).map (fun i => n / B ^ (w - 1 - i) % B)

theorem beBytes_eq_baseBE (w n : Nat) : beBytes w n = baseBE 256 w n := rfl

theorem baseBE_length (B w n : Nat) : (baseBE B w n).length = w := by
  simp [baseBE]

/-- Snoc form: the last digit is n % B. -/
theorem baseBE_succ_snoc (B k n : Nat) :
    baseBE B (k + 1) n = baseBE B k (n / B) ++ [n % B] := by
  unfold baseBE
  rw [List.range_succ, List.map_append]
  congr 1
  · apply List.map_congr_left
    intro i hi
    have hik : i < k := List.mem_range.mp hi
    have he : k + 1 - 1 - i = (k - 1 - i) + 1 := by omega
    rw [he, pow_succ, Nat.div_div_eq_div_mul]
    ring_nf
  · simp

/-- Cons form: the first digit is n / B^k, the rest encodes n % B^k. -/
theorem baseBE_succ_cons (B k n : Nat) (hB : 2 ≤ B) :
    baseBE B (k + 1) n = (n / B ^ k % B) :: baseBE B k (n % B ^ k) := by
  apply List.ext_getElem
  · simp [baseBE_length]
  · intro i h1 h2
    match i with
    | 0 =>
        simp only [baseBE, List.getElem_map, List.getElem_range, List.getElem_cons_zero]
        norm_num
    | i + 1 =>
        have hik : i < k := by
          have := h2
          simp [baseBE_length] at this
          omega
        simp only [baseBE, List.getElem_map, List.getElem_range, List.getElem_cons_succ]
        have he : k + 1 - 1 - (i + 1) = k - 1 - i := by omega
        rw [he]
        have hsplit : B ^ k = B ^ (k - 1 - i) * B ^ (k - (k - 1 - i)) := by
          rw [← pow_add]
          congr 1
          omega
        rw [hsplit, Nat.mod_mul_right_div_self,
          Nat.mod_mod_of_dvd _ (dvd_pow_self B (by omega : k - (k - 1 - i) ≠ 0))]

/-- Appending j zero digits multiplies the encoded number by B^j. -/
theorem baseBE_mul_pow (B k j m : Nat) (hB : 2 ≤ B) :
    baseBE B (k + j) (m * B ^ j) = baseBE B k m ++ List.replicate j 0 := by
  induction j with
  | zero => simp
  | succ j ih =>
      have he : k + (j + 1) = (k + j) + 1 := by omega
      rw [he, baseBE_succ_snoc]
      have hd : m * B ^ (j + 1) / B = m * B ^ j := by
        rw [pow_succ, ← mul_assoc]
        exact Nat.mul_div_cancel _ (by omega)
      have hm : m * B ^ (j + 1) % B = 0 := by
        apply Nat.mod_eq_zero_of_dvd
        rw [pow_succ, ← mul_assoc]
        exact dvd_mul_left B (m * B ^ j)
      rw [hd, hm, ih, List.append_assoc]
      congr 1
      rw [← List.replicate_succ' j 0]



theorem numDigits_div10 (n : Nat) (h : 10 ≤ n) :
    numDigits n = numDigits (n / 10) + 1 := by
  have hn0 : n ≠ 0 := by omega
  have hd0 : n / 10 ≠ 0 := by
    have h1 : 1 ≤ n / 10 := (Nat.one_le_div_iff (by norm_num)).mpr h
    omega
  unfold numDigits
  rw [if_neg hn0, if_neg hd0]
  have hlog : 1 ≤ Nat.log 10 n := Nat.le_log_of_pow_le (by norm_num) (by simpa using h)
  have hdiv := Nat.log_div_base 10 n
  omega

theorem digitsRev_eq_baseBE (n : Nat) :
    n ≠ 0 → (Nat.digits 10 n).reverse = baseBE 10 (numDigits n) n := by
  induction n using Nat.strong_induction_on with
  | _ n ih =>
      intro hn
      by_cases hsmall : n < 10
      · rw [Nat.digits_def' (by norm_num : 1 < 10) (Nat.pos_of_ne_zero hn)]
        have h10 : n / 10 = 0 := Nat.div_eq_of_lt hsmall
        rw [h10, Nat.digits_zero]
        have hnd : numDigits n = 1 := by
          unfold numDigits
          rw [if_neg hn]
          have hl : Nat.log 10 n < 1 := Nat.log_lt_of_lt_pow hn (by simpa using hsmall)
          omega
        rw [hnd]
        simp [baseBE, Nat.mod_eq_of_lt hsmall]
      · push_neg at hsmall
        rw [Nat.digits_def' (by norm_num : 1 < 10) (by omega)]
        rw [List.reverse_cons]
        have hd0 : n / 10 ≠ 0 := by
          have h1 : 1 ≤ n / 10 := (Nat.one_le_div_iff (by norm_num)).mpr hsmall
          omega
        rw [ih (n / 10) (by omega) hd0, numDigits_div10 n hsmall, baseBE_succ_snoc]

theorem memcmpPrefix_cons_same (x : Nat) (l1 l2 : List Nat) :
    memcmpPrefix (x :: l1) (x :: l2) = memcmpPrefix l1 l2 := by
  simp [memcmpPrefix]

theorem memcmpPrefix_append_eqlen (l1 : List Nat) (l2 r1 r2 : List Nat)
    (h : l1.length = l2.length) :
    memcmpPrefix (l1 ++ r1) (l2 ++ r2) =
      if memcmpPrefix l1 l2 ≠ 0 then memcmpPrefix l1 l2 else memcmpPrefix r1 r2 := by
  induction l1 generalizing l2 with
  | nil =>
      cases l2 with
      | nil => simp [memcmpPrefix]
      | cons y ys => simp at h
  | cons x xs ih =>
      cases l2 with
      | nil => simp at h
      | cons y ys =>
          simp only [List.cons_append]
          by_cases h1 : x < y
          · simp only [memcmpPrefix, if_pos h1]
            norm_num
          · by_cases h2 : y < x
            · simp only [memcmpPrefix, if_neg h1, if_pos h2]
              norm_num
            · have hlen : xs.length = ys.length := by simpa using h
              simp only [memcmpPrefix, if_neg h1, if_neg h2]
              exact ih ys hlen

theorem memcmpZ_of_length_eq (s t : List Nat) (h : s.length = t.length) :
    memcmpZ s t = memcmpPrefix s t := by
  induction s generalizing t with
  | nil =>
      cases t with
      | nil => simp [memcmpZ, memcmpPrefix]
      | cons y ys => simp at h
  | cons x xs ih =>
      cases t with
      | nil => simp at h
      | cons y ys =>
          simp only [memcmpZ, memcmpPrefix]
          have hlen : xs.length = ys.length := by simpa using h
          rw [ih ys hlen]

theorem memcmpPrefix_map_add (c : Nat) (l1 l2 : List Nat) :
    memcmpPrefix (l1.map (fun d => c + d)) (l2.map (fun d => c + d)) =
      memcmpPrefix l1 l2 := by
  induction l1 generalizing l2 with
  | nil => cases l2 <;> simp [memcmpPrefix]
  | cons x xs ih =>
      cases l2 with
      | nil => simp [memcmpPrefix]
      | cons y ys =>
          simp only [List.map_cons, memcmpPrefix]
          by_cases hxy : x < y
          · rw [if_pos (by omega), if_pos hxy]
          · by_cases hyx : y < x
            · rw [if_neg (by omega), if_pos (by omega), if_neg hxy, if_pos hyx]
            · rw [if_neg (by omega), if_neg (by omega), if_neg hxy, if_neg hyx]
              exact ih ys

theorem memcmpPrefix_map_inv (l1 l2 : List Nat) (h1 : ∀ x ∈ l1, x ≤ 9)
    (h2 : ∀ x ∈ l2, x ≤ 9) :
    memcmpPrefix (l1.map (fun d => 48 + (9 - d))) (l2.map (fun d => 48 + (9 - d))) =
      -memcmpPrefix l1 l2 := by
  induction l1 generalizing l2 with
  | nil => cases l2 <;> simp [memcmpPrefix]
  | cons x xs ih =>
      cases l2 with
      | nil => simp [memcmpPrefix]
      | cons y ys =>
          have hx : x ≤ 9 := h1 x (by simp)
          have hy : y ≤ 9 := h2 y (by simp)
          simp only [List.map_cons, memcmpPrefix]
          by_cases hxy : x < y
          · rw [if_neg (by omega), if_pos (by omega), if_pos hxy]
            norm_num
          · by_cases hyx : y < x
            · rw [if_pos (by omega), if_neg hxy, if_pos hyx]
            · rw [if_neg (by omega), if_neg (by omega), if_neg hxy, if_neg hyx]
              exact ih ys (fun z hz => h1 z (List.mem_cons_of_mem _ hz))
                (fun z hz => h2 z (List.mem_cons_of_mem _ hz))

/-- memcmp of equal-width big-endian digit strings is numeric comparison. -/
theorem memcmp_baseBE (B : Nat) (hB : 2 ≤ B) (w a b : Nat) (ha : a < B ^ w)
    (hb : b < B ^ w) :
    memcmpPrefix (baseBE B w a) (baseBE B w b) = compare_numbers a b := by
  induction w generalizing a b with
  | zero =>
      have ha0 : a = 0 := by
        have h1 : a < 1 := by simpa using ha
        omega
      have hb0 : b = 0 := by
        have h1 : b < 1 := by simpa using hb
        omega
      subst ha0
      subst hb0
      simp [baseBE, memcmpPrefix, compare_numbers]
  | succ k ih =>
      rw [baseBE_succ_cons B k a hB, baseBE_succ_cons B k b hB]
      have hpos : 0 < B ^ k := by positivity
      have e1 := Nat.div_add_mod a (B ^ k)
      have e2 := Nat.div_add_mod b (B ^ k)
      have hma : a % B ^ k < B ^ k := Nat.mod_lt _ hpos
      have hmb : b % B ^ k < B ^ k := Nat.mod_lt _ hpos
      have hda : a / B ^ k % B = a / B ^ k := by
        apply Nat.mod_eq_of_lt
        rw [Nat.div_lt_iff_lt_mul hpos]
        calc a < B ^ (k + 1) := ha
        _ = B * B ^ k := by rw [pow_succ]; ring
      have hdb : b / B ^ k % B = b / B ^ k := by
        apply Nat.mod_eq_of_lt
        rw [Nat.div_lt_iff_lt_mul hpos]
        calc b < B ^ (k + 1) := hb
        _ = B * B ^ k := by rw [pow_succ]; ring
      simp only [memcmpPrefix]
      rw [hda, hdb]
      have hdivle : ∀ x y : Nat, x / B ^ k < y / B ^ k → x < y := by
        intro x y hxy
        by_contra hc
        push_neg at hc
        exact absurd (Nat.div_le_div_right hc) (not_le.mpr hxy)
      by_cases h1 : a / B ^ k < b / B ^ k
      · rw [if_pos h1]
        have hab : a < b := hdivle a b h1
        unfold compare_numbers
        rw [if_pos hab]
      · by_cases h2 : b / B ^ k < a / B ^ k
        · rw [if_neg h1, if_pos h2]
          have hba : b < a := hdivle b a h2
          unfold compare_numbers
          rw [if_neg (by omega), if_neg (by omega)]
        · have heq : a / B ^ k = b / B ^ k := by omega
          rw [if_neg h1, if_neg h2, ih (a % B ^ k) (b % B ^ k) hma hmb]
          have e2x : B ^ k * (a / B ^ k) + b % B ^ k = b := by
            rw [heq]
            exact e2
          generalize hQ : B ^ k * (a / B ^ k) = Q at e1 e2x
          unfold compare_numbers
          rcases lt_trichotomy (a % B ^ k) (b % B ^ k) with hlt | heq2 | hgt
          · rw [if_pos hlt, if_pos (by omega)]
          · rw [if_neg (by omega), if_pos heq2, if_neg (by omega),
              if_pos (by omega : a = b)]
          · rw [if_neg (by omega), if_neg (by omega), if_neg (by omega),
              if_neg (by omega : ¬ a = b)]

theorem intKeyBytes_length (w : Nat) (v : Int) : (intKeyBytes w v).length = w := by
  simp [intKeyBytes, beBytes]

/-- memcmp of the sign-flipped big-endian encodings of two signed integers in
the representable range is their signed comparison. -/
theorem memcmp_intKeyBytes (w : Nat) (hw : 0 < w) (x1 x2 : Int)
    (hl1 : -(2 ^ (8 * w - 1)) ≤ x1) (hr1 : x1 < 2 ^ (8 * w - 1))
    (hl2 : -(2 ^ (8 * w - 1)) ≤ x2) (hr2 : x2 < 2 ^ (8 * w - 1)) :
    memcmpPrefix (intKeyBytes w x1) (intKeyBytes w x2) = compare_numbers x1 x2 := by
  unfold intKeyBytes
  rw [beBytes_eq_baseBE, beBytes_eq_baseBE]
  have hcast : (((2:ℕ) ^ (8 * w - 1) : ℕ) : ℤ) = 2 ^ (8 * w - 1) := by push_cast; rfl
  have h256 : (256 : Nat) ^ w = 2 ^ (8 * w) := by
    rw [show (256 : Nat) = 2 ^ 8 from by norm_num, ← pow_mul]
  have hsplit : (2:ℕ) ^ (8 * w) = 2 ^ (8 * w - 1) + 2 ^ (8 * w - 1) := by
    have he : 8 * w - 1 + 1 = 8 * w := by omega
    calc (2:ℕ) ^ (8 * w) = 2 ^ (8 * w - 1 + 1) := by rw [he]
    _ = 2 ^ (8 * w - 1) * 2 := pow_succ 2 _
    _ = 2 ^ (8 * w - 1) + 2 ^ (8 * w - 1) := by ring
  have hb1 : (x1 + 2 ^ (8 * w - 1)).toNat < 256 ^ w := by
    rw [h256]
    omega
  have hb2 : (x2 + 2 ^ (8 * w - 1)).toNat < 256 ^ w := by
    rw [h256]
    omega
  rw [memcmp_baseBE 256 (by norm_num) w _ _ hb1 hb2]
  unfold compare_numbers
  rcases lt_trichotomy x1 x2 with h | h | h
  · rw [if_pos (by omega), if_pos h]
  · subst h
    rw [if_neg (lt_irrefl _), if_pos rfl, if_neg (lt_irrefl _), if_pos rfl]
  · rw [if_neg (by omega), if_neg (by omega), if_neg (by omega : ¬ x1 < x2),
      if_neg (by omega : ¬ x1 = x2)]


theorem numDigits_pos (n : Nat) : 1 ≤ numDigits n := by
  unfold numDigits
  split_ifs <;> omega

theorem MAX_NUMBER_SORT_PAD_eq : MAX_NUMBER_SORT_PAD = 88 := by
  norm_num [MAX_NUMBER_SORT_PAD, DBL_DIG, DECIMAL_MAX_POSSIBLE_PRECISION,
    VARLEN_PREFIX]

theorem digits_length_eq_numDigits (n : Nat) (hn : n ≠ 0) :
    (Nat.digits 10 n).length = numDigits n := by
  rw [Nat.digits_len 10 n (by norm_num) hn]
  unfold numDigits
  rw [if_neg hn]

/-- Structure of the numeric sort key of a positive number: tag 3, exponent
key, then the 85 digit characters of m shifted left to fill the pad. -/
theorem mjnsk_pos (m e : Int) (hm : 0 < m)
    (hnd : numDigits m.natAbs + 3 ≤ MAX_NUMBER_SORT_PAD) :
    make_json_numeric_sort_key m e =
      3 :: (intKeyBytes 2 (((numDigits m.natAbs - 1 : Nat) : Int) + e) ++
        (baseBE 10 (MAX_NUMBER_SORT_PAD - 3)
          (m.natAbs * 10 ^ (MAX_NUMBER_SORT_PAD - 3 - numDigits m.natAbs))).map
            (fun d => 48 + d)) := by
  have hM0 : m.natAbs ≠ 0 := by omega
  have hneg : ¬ (m < 0) := by omega
  have hlen : (Nat.digits 10 m.natAbs).length = numDigits m.natAbs :=
    digits_length_eq_numDigits _ hM0
  unfold make_json_numeric_sort_key
  rw [if_neg (by omega : ¬ m = 0)]
  simp only [hneg, if_false]
  rw [digitsRev_eq_baseBE _ hM0]
  have h88 := MAX_NUMBER_SORT_PAD_eq
  set j := MAX_NUMBER_SORT_PAD - 3 - numDigits m.natAbs with hj
  have hD : MAX_NUMBER_SORT_PAD - 3 = numDigits m.natAbs + j := by omega
  rw [hD, baseBE_mul_pow 10 _ _ _ (by norm_num), List.map_append,
    List.map_replicate]
  simp only [List.length_cons, List.length_append, List.length_map,
    intKeyBytes_length, baseBE_length]
  rw [List.cons_append, List.append_assoc]
  have hcnt : MAX_NUMBER_SORT_PAD - (2 + numDigits m.natAbs + 1) = j := by omega
  rw [hcnt]

/-- Structure of the numeric sort key of a negative number: tag 1, negated
exponent key, then the nine-complement digit characters, pad 57. -/
theorem mjnsk_neg (m e : Int) (hm : m < 0)
    (hnd : numDigits m.natAbs + 3 ≤ MAX_NUMBER_SORT_PAD) :
    make_json_numeric_sort_key m e =
      1 :: (intKeyBytes 2 (-(((numDigits m.natAbs - 1 : Nat) : Int) + e)) ++
        (baseBE 10 (MAX_NUMBER_SORT_PAD - 3)
          (m.natAbs * 10 ^ (MAX_NUMBER_SORT_PAD - 3 - numDigits m.natAbs))).map
            (fun d => 48 + (9 - d))) := by
  have hM0 : m.natAbs ≠ 0 := by omega
  have hlen : (Nat.digits 10 m.natAbs).length = numDigits m.natAbs :=
    digits_length_eq_numDigits _ hM0
  unfold make_json_numeric_sort_key
  rw [if_neg (by omega : ¬ m = 0)]
  simp only [hm, if_true]
  rw [digitsRev_eq_baseBE _ hM0]
  have h88 := MAX_NUMBER_SORT_PAD_eq
  set j := MAX_NUMBER_SORT_PAD - 3 - numDigits m.natAbs with hj
  have hD : MAX_NUMBER_SORT_PAD - 3 = numDigits m.natAbs + j := by omega
  rw [hD, baseBE_mul_pow 10 _ _ _ (by norm_num), List.map_append,
    List.map_replicate]
  simp only [List.length_cons, List.length_append, List.length_map,
    intKeyBytes_length, baseBE_length]
  rw [List.cons_append, List.append_assoc]
  have hcnt : MAX_NUMBER_SORT_PAD - (2 + numDigits m.natAbs + 1) = j := by omega
  rw [hcnt]

theorem baseBE_digit_le (B w n : Nat) (hB : 2 ≤ B) :
    ∀ x ∈ baseBE B w n, x ≤ B - 1 := by
  intro x hx
  simp only [baseBE, List.mem_map, List.mem_range] at hx
  obtain ⟨i, hi, hxe⟩ := hx
  have := Nat.mod_lt (n / B ^ (w - 1 - i)) (show 0 < B by omega)
  omega

/-- Ordering by decimal exponent: a smaller exponent means a smaller
positive value. -/
theorem val_lt_of_ex_lt (M1 M2 : Nat) (e1 e2 : Int) (hM1 : M1 ≠ 0) (hM2 : M2 ≠ 0)
    (hex : ((numDigits M1 - 1 : Nat) : Int) + e1 <
      ((numDigits M2 - 1 : Nat) : Int) + e2) :
    (M1 : ℚ) * (10:ℚ) ^ e1 < (M2 : ℚ) * (10:ℚ) ^ e2 := by
  have hb1 := numDigits_bounds M1 hM1
  have hb2 := numDigits_bounds M2 hM2
  have hn1 : 1 ≤ numDigits M1 := numDigits_pos M1
  have hn2 : 1 ≤ numDigits M2 := numDigits_pos M2
  have hcast1 : ((numDigits M1 - 1 : Nat) : Int) = (numDigits M1 : Int) - 1 := by
    omega
  have hcast2 : ((numDigits M2 - 1 : Nat) : Int) = (numDigits M2 : Int) - 1 := by
    omega
  have h1 : (M1 : ℚ) * (10:ℚ) ^ e1 < (10:ℚ) ^ ((numDigits M1 : Int) + e1) := by
    rw [zpow_add₀ (by norm_num : (10:ℚ) ≠ 0)]
    apply mul_lt_mul_of_pos_right _ (zpow_pos (by norm_num) _)
    calc (M1 : ℚ) < ((10 ^ numDigits M1 : ℕ) : ℚ) := by exact_mod_cast hb1.2
    _ = (10:ℚ) ^ ((numDigits M1 : Int)) := by
        push_cast
        rw [← zpow_natCast (10:ℚ) (numDigits M1)]
  have h2 : (10:ℚ) ^ ((numDigits M2 : Int) - 1 + e2) ≤ (M2 : ℚ) * (10:ℚ) ^ e2 := by
    rw [zpow_add₀ (by norm_num : (10:ℚ) ≠ 0)]
    apply mul_le_mul_of_nonneg_right _ (le_of_lt (zpow_pos (by norm_num) _))
    calc (10:ℚ) ^ ((numDigits M2 : Int) - 1) =
        ((10 ^ (numDigits M2 - 1) : ℕ) : ℚ) := by
          push_cast
          rw [← zpow_natCast (10:ℚ) (numDigits M2 - 1)]
          congr 1
          omega
    _ ≤ (M2 : ℚ) := by exact_mod_cast hb2.1
  have h3 : (numDigits M1 : Int) + e1 ≤ (numDigits M2 : Int) - 1 + e2 := by
    rw [hcast1, hcast2] at hex
    omega
  calc (M1 : ℚ) * (10:ℚ) ^ e1 < (10:ℚ) ^ ((numDigits M1 : Int) + e1) := h1
  _ ≤ (10:ℚ) ^ ((numDigits M2 : Int) - 1 + e2) :=
      zpow_le_zpow_right₀ (by norm_num) h3
  _ ≤ (M2 : ℚ) * (10:ℚ) ^ e2 := h2

/-- With equal decimal exponents, comparing the values is comparing the
pad-aligned significands. -/
theorem val_cmp_of_ex_eq (M1 M2 : Nat) (e1 e2 : Int) (D : Nat)
    (hD1 : numDigits M1 ≤ D) (hD2 : numDigits M2 ≤ D)
    (hex : ((numDigits M1 - 1 : Nat) : Int) + e1 =
      ((numDigits M2 - 1 : Nat) : Int) + e2) :
    compare_numbers ((M1 : ℚ) * (10:ℚ) ^ e1) ((M2 : ℚ) * (10:ℚ) ^ e2) =
      compare_numbers (M1 * 10 ^ (D - numDigits M1)) (M2 * 10 ^ (D - numDigits M2)) := by
  have hn1 : 1 ≤ numDigits M1 := numDigits_pos M1
  have hn2 : 1 ≤ numDigits M2 := numDigits_pos M2
  have hc : e1 - ((D - numDigits M1 : Nat) : Int) =
      e2 - ((D - numDigits M2 : Nat) : Int) := by omega
  have hv1 : (M1 : ℚ) * (10:ℚ) ^ e1 =
      ((M1 * 10 ^ (D - numDigits M1) : ℕ) : ℚ) *
        (10:ℚ) ^ (e1 - ((D - numDigits M1 : Nat) : Int)) := by
    push_cast
    rw [mul_assoc, ← zpow_natCast (10:ℚ) (D - numDigits M1),
      ← zpow_add₀ (by norm_num : (10:ℚ) ≠ 0)]
    congr 2
    ring
  have hv2 : (M2 : ℚ) * (10:ℚ) ^ e2 =
      ((M2 * 10 ^ (D - numDigits M2) : ℕ) : ℚ) *
        (10:ℚ) ^ (e1 - ((D - numDigits M1 : Nat) : Int)) := by
    rw [hc]
    push_cast
    rw [mul_assoc, ← zpow_natCast (10:ℚ) (D - numDigits M2),
      ← zpow_add₀ (by norm_num : (10:ℚ) ≠ 0)]
    congr 2
    ring
  rw [hv1, hv2]
  have ht : (0:ℚ) < (10:ℚ) ^ (e1 - ((D - numDigits M1 : Nat) : Int)) :=
    zpow_pos (by norm_num) _
  set X := M1 * 10 ^ (D - numDigits M1)
  set Y := M2 * 10 ^ (D - numDigits M2)
  unfold compare_numbers
  rcases lt_trichotomy X Y with h | h | h
  · rw [if_pos (by
      apply mul_lt_mul_of_pos_right _ ht
      exact_mod_cast h), if_pos h]
  · rw [h]
    rw [if_neg (lt_irrefl _), if_pos rfl, if_neg (lt_irrefl _), if_pos rfl]
  · have hnl : ¬ ((X:ℚ) * (10:ℚ) ^ (e1 - ((D - numDigits M1 : Nat) : Int)) <
        (Y:ℚ) * (10:ℚ) ^ (e1 - ((D - numDigits M1 : Nat) : Int))) := by
      push_neg
      apply mul_le_mul_of_nonneg_right _ ht.le
      exact_mod_cast h.le
    have hne : ¬ ((X:ℚ) * (10:ℚ) ^ (e1 - ((D - numDigits M1 : Nat) : Int)) =
        (Y:ℚ) * (10:ℚ) ^ (e1 - ((D - numDigits M1 : Nat) : Int))) := by
      intro heq
      have := mul_right_cancel₀ (ne_of_gt ht) heq
      have hXY : X = Y := by exact_mod_cast this
      omega
    rw [if_neg hnl, if_neg hne, if_neg (by omega), if_neg (by omega)]


/-- Well-formedness of a (mantissa, exponent) pair for the numeric sort key:
the digits fit in the pad and the decimal exponent fits the two-byte key.
Every value producible by the four numeric kinds satisfies this (19 digits
for integers, 17 for the my_gcvt image of a double, 81 for a my_decimal,
with decimal exponents within a few hundred). -/
def numWF (m e : Int) : Prop :=
  numDigits m.natAbs + 3 ≤ MAX_NUMBER_SORT_PAD ∧
    (((numDigits m.natAbs - 1 : Nat) : Int) + e).natAbs < 2 ^ 15

theorem mjnsk_zero (e : Int) : make_json_numeric_sort_key 0 e = [2] := by
  unfold make_json_numeric_sort_key
  rw [if_pos rfl]

theorem compare_numbers_neg_neg (x y : ℚ) :
    compare_numbers (-x) (-y) = -compare_numbers x y := by
  unfold compare_numbers
  rcases lt_trichotomy x y with h | h | h
  · rw [if_pos h, if_neg (by linarith), if_neg (by intro hh; apply ne_of_gt h; linarith)]
    try norm_num
  · subst h
    rw [if_neg (lt_irrefl _), if_pos rfl, if_neg (lt_irrefl _), if_pos rfl]
    try norm_num
  · rw [if_neg (by linarith : ¬ x < y), if_neg (ne_of_gt h), if_pos (by linarith : -x < -y)]
    try norm_num

theorem cast_natAbs_of_pos (m : Int) (hm : 0 < m) :
    (m : ℚ) = ((m.natAbs : ℕ) : ℚ) := by
  have hq : (m : ℤ) = ((m.natAbs : ℤ)) := by omega
  calc (m : ℚ) = (((m.natAbs : ℕ) : ℤ) : ℚ) := by rw [← hq]
  _ = ((m.natAbs : ℕ) : ℚ) := Int.cast_natCast _

theorem cast_natAbs_of_neg (m : Int) (hm : m < 0) :
    (m : ℚ) = -((m.natAbs : ℕ) : ℚ) := by
  have hq : (m : ℤ) = -((m.natAbs : ℤ)) := by omega
  exact_mod_cast hq

theorem shifted_mantissa_lt (M D : Nat) (hM : M ≠ 0) (hD : numDigits M ≤ D) :
    M * 10 ^ (D - numDigits M) < 10 ^ D := by
  have hb := (numDigits_bounds M hM).2
  calc M * 10 ^ (D - numDigits M) < 10 ^ numDigits M * 10 ^ (D - numDigits M) :=
        mul_lt_mul_of_pos_right hb (by positivity)
  _ = 10 ^ D := by
      rw [← pow_add]
      congr 1
      omega

/-- The heart of C4 for numbers: memcmp of two numeric sort keys is exactly
the numeric comparison of the values. -/
theorem numeric_key_eq_cn (m1 e1 m2 e2 : Int) (h1 : numWF m1 e1)
    (h2 : numWF m2 e2) :
    memcmpZ (make_json_numeric_sort_key m1 e1) (make_json_numeric_sort_key m2 e2) =
      compare_numbers ((m1 : ℚ) * (10:ℚ) ^ e1) ((m2 : ℚ) * (10:ℚ) ^ e2) := by
  obtain ⟨hnd1, hexb1⟩ := h1
  obtain ⟨hnd2, hexb2⟩ := h2
  have h88 := MAX_NUMBER_SORT_PAD_eq
  have vpos : ∀ (m e : Int), 0 < m → (0:ℚ) < (m:ℚ) * (10:ℚ) ^ e := fun m e h =>
    mul_pos (by exact_mod_cast h) (zpow_pos (by norm_num) _)
  have vneg : ∀ (m e : Int), m < 0 → (m:ℚ) * (10:ℚ) ^ e < 0 := fun m e h =>
    mul_neg_of_neg_of_pos (by exact_mod_cast h) (zpow_pos (by norm_num) _)
  have vne : ∀ (m e : Int), m ≠ 0 → (m:ℚ) * (10:ℚ) ^ e ≠ 0 := fun m e h =>
    mul_ne_zero (by exact_mod_cast h) (zpow_ne_zero _ (by norm_num))
  rcases lt_trichotomy m1 0 with hm1 | hm1 | hm1 <;>
    rcases lt_trichotomy m2 0 with hm2 | hm2 | hm2
  case inr.inl.inl =>
      -- m1 = 0, m2 < 0
      subst hm1
      rw [mjnsk_zero, mjnsk_neg m2 e2 hm2 hnd2]
      have hv := vneg m2 e2 hm2
      simp only [memcmpZ]
      rw [if_neg (by norm_num : ¬ (2:ℕ) < 1), if_pos (by norm_num : (1:ℕ) < 2)]
      unfold compare_numbers
      rw [if_neg (by intro hh; simp at hh; linarith),
        if_neg (by
          intro hh
          rw [Int.cast_zero, zero_mul] at hh
          exact vne m2 e2 (by omega) hh.symm)]
  case inr.inl.inr.inl =>
      -- m1 = 0, m2 = 0
      subst hm1
      subst hm2
      norm_num [mjnsk_zero, memcmpZ, compare_numbers]
  case inr.inl.inr.inr =>
      -- m1 = 0, m2 > 0
      subst hm1
      rw [mjnsk_zero, mjnsk_pos m2 e2 hm2 hnd2]
      have hv := vpos m2 e2 hm2
      simp only [memcmpZ]
      rw [if_pos (by norm_num : (2:ℕ) < 3)]
      unfold compare_numbers
      rw [if_pos (by simpa using hv)]
  case inl.inr.inl =>
      -- m1 < 0, m2 = 0
      subst hm2
      rw [mjnsk_zero, mjnsk_neg m1 e1 hm1 hnd1]
      have hv := vneg m1 e1 hm1
      simp only [memcmpZ]
      rw [if_pos (by norm_num : (1:ℕ) < 2)]
      unfold compare_numbers
      rw [if_pos (by simpa using hv)]
  case inr.inr.inl =>
      -- m1 > 0, m2 < 0
      rw [mjnsk_pos m1 e1 hm1 hnd1, mjnsk_neg m2 e2 hm2 hnd2]
      have hv1 := vpos m1 e1 hm1
      have hv2 := vneg m2 e2 hm2
      simp only [memcmpZ]
      rw [if_neg (by norm_num : ¬ (3:ℕ) < 1), if_pos (by norm_num : (1:ℕ) < 3)]
      unfold compare_numbers
      rw [if_neg (by linarith), if_neg (by intro hh; linarith)]
  case inl.inr.inr =>
      -- m1 < 0, m2 > 0
      rw [mjnsk_neg m1 e1 hm1 hnd1, mjnsk_pos m2 e2 hm2 hnd2]
      have hv1 := vneg m1 e1 hm1
      have hv2 := vpos m2 e2 hm2
      simp only [memcmpZ]
      rw [if_pos (by norm_num : (1:ℕ) < 3)]
      unfold compare_numbers
      rw [if_pos (by linarith)]
  case inl.inl =>
      -- both negative
      rw [mjnsk_neg m1 e1 hm1 hnd1, mjnsk_neg m2 e2 hm2 hnd2]
      have hM1 : m1.natAbs ≠ 0 := by omega
      have hM2 : m2.natAbs ≠ 0 := by omega
      rw [memcmpZ_of_length_eq _ _ (by
        simp [intKeyBytes_length, baseBE_length])]
      rw [memcmpPrefix_cons_same]
      rw [memcmpPrefix_append_eqlen _ _ _ _ (by simp [intKeyBytes_length])]
      rw [memcmp_intKeyBytes 2 (by norm_num)
        (-(((numDigits m1.natAbs - 1 : Nat) : Int) + e1))
        (-(((numDigits m2.natAbs - 1 : Nat) : Int) + e2))
        (by omega) (by omega) (by omega) (by omega)]
      have hvcast1 := cast_natAbs_of_neg m1 hm1
      have hvcast2 := cast_natAbs_of_neg m2 hm2
      have hval1 : (m1:ℚ) * (10:ℚ) ^ e1 = -(((m1.natAbs : ℕ) : ℚ) * (10:ℚ) ^ e1) := by
        rw [hvcast1]
        ring
      have hval2 : (m2:ℚ) * (10:ℚ) ^ e2 = -(((m2.natAbs : ℕ) : ℚ) * (10:ℚ) ^ e2) := by
        rw [hvcast2]
        ring
      rw [hval1, hval2, compare_numbers_neg_neg]
      rcases lt_trichotomy (((numDigits m1.natAbs - 1 : Nat) : Int) + e1)
        (((numDigits m2.natAbs - 1 : Nat) : Int) + e2) with hlt | heq | hgt
      · -- ex1 < ex2: |v1| < |v2|; key: -ex2 < -ex1 gives 1 = -(-1)
        have hv := val_lt_of_ex_lt m1.natAbs m2.natAbs e1 e2 hM1 hM2 hlt
        have hcn : compare_numbers
            (-(((numDigits m1.natAbs - 1 : Nat) : Int) + e1))
            (-(((numDigits m2.natAbs - 1 : Nat) : Int) + e2)) = 1 := by
          unfold compare_numbers
          rw [if_neg (by omega), if_neg (by omega)]
        rw [hcn]
        rw [if_pos (by norm_num)]
        unfold compare_numbers
        rw [if_pos hv]
        try norm_num
      · -- equal exponents: digits decide, inverted
        have hcn : compare_numbers
            (-(((numDigits m1.natAbs - 1 : Nat) : Int) + e1))
            (-(((numDigits m2.natAbs - 1 : Nat) : Int) + e2)) = 0 := by
          unfold compare_numbers
          rw [if_neg (by omega), if_pos (by omega)]
        rw [hcn]
        rw [if_neg (by norm_num)]
        rw [memcmpPrefix_map_inv _ _
          (fun x hx => by have := baseBE_digit_le 10 _ _ (by norm_num) x hx; omega)
          (fun x hx => by have := baseBE_digit_le 10 _ _ (by norm_num) x hx; omega)]
        rw [memcmp_baseBE 10 (by norm_num) _ _ _
          (shifted_mantissa_lt _ _ hM1 (by omega))
          (shifted_mantissa_lt _ _ hM2 (by omega))]
        rw [← val_cmp_of_ex_eq m1.natAbs m2.natAbs e1 e2 (MAX_NUMBER_SORT_PAD - 3)
          (by omega) (by omega) heq]
      · have hv := val_lt_of_ex_lt m2.natAbs m1.natAbs e2 e1 hM2 hM1 hgt
        have hcn : compare_numbers
            (-(((numDigits m1.natAbs - 1 : Nat) : Int) + e1))
            (-(((numDigits m2.natAbs - 1 : Nat) : Int) + e2)) = -1 := by
          unfold compare_numbers
          rw [if_pos (by omega)]
        rw [hcn]
        rw [if_pos (by norm_num)]
        unfold compare_numbers
        rw [if_neg (by linarith), if_neg (by intro hh; rw [hh] at hv; linarith)]
        try norm_num
  case inr.inr.inr.inl =>
      -- m1 > 0, m2 = 0
      subst hm2
      rw [mjnsk_zero, mjnsk_pos m1 e1 hm1 hnd1]
      have hv := vpos m1 e1 hm1
      simp only [memcmpZ]
      rw [if_neg (by norm_num : ¬ (3:ℕ) < 2), if_pos (by norm_num : (2:ℕ) < 3)]
      unfold compare_numbers
      rw [if_neg (by intro hh; simp at hh; linarith),
        if_neg (by
          intro hh
          rw [Int.cast_zero, zero_mul] at hh
          exact vne m1 e1 (by omega) hh)]
  case inr.inr.inr.inr =>
      -- both positive
      rw [mjnsk_pos m1 e1 hm1 hnd1, mjnsk_pos m2 e2 hm2 hnd2]
      have hM1 : m1.natAbs ≠ 0 := by omega
      have hM2 : m2.natAbs ≠ 0 := by omega
      rw [memcmpZ_of_length_eq _ _ (by
        simp [intKeyBytes_length, baseBE_length])]
      rw [memcmpPrefix_cons_same]
      rw [memcmpPrefix_append_eqlen _ _ _ _ (by simp [intKeyBytes_length])]
      rw [memcmp_intKeyBytes 2 (by norm_num)
        (((numDigits m1.natAbs - 1 : Nat) : Int) + e1)
        (((numDigits m2.natAbs - 1 : Nat) : Int) + e2)
        (by omega) (by omega) (by omega) (by omega)]
      have hvcast1 := cast_natAbs_of_pos m1 hm1
      have hvcast2 := cast_natAbs_of_pos m2 hm2
      rw [hvcast1, hvcast2]
      rcases lt_trichotomy (((numDigits m1.natAbs - 1 : Nat) : Int) + e1)
        (((numDigits m2.natAbs - 1 : Nat) : Int) + e2) with hlt | heq | hgt
      · have hv := val_lt_of_ex_lt m1.natAbs m2.natAbs e1 e2 hM1 hM2 hlt
        have hcn : compare_numbers
            (((numDigits m1.natAbs - 1 : Nat) : Int) + e1)
            (((numDigits m2.natAbs - 1 : Nat) : Int) + e2) = -1 := by
          unfold compare_numbers
          rw [if_pos hlt]
        rw [hcn]
        rw [if_pos (by norm_num)]
        unfold compare_numbers
        rw [if_pos hv]
      · have hcn : compare_numbers
            (((numDigits m1.natAbs - 1 : Nat) : Int) + e1)
            (((numDigits m2.natAbs - 1 : Nat) : Int) + e2) = 0 := by
          unfold compare_numbers
          rw [if_neg (by omega), if_pos heq]
        rw [hcn]
        rw [if_neg (by norm_num)]
        rw [memcmpPrefix_map_add]
        rw [memcmp_baseBE 10 (by norm_num) _ _ _
          (shifted_mantissa_lt _ _ hM1 (by omega))
          (shifted_mantissa_lt _ _ hM2 (by omega))]
        rw [← val_cmp_of_ex_eq m1.natAbs m2.natAbs e1 e2 (MAX_NUMBER_SORT_PAD - 3)
          (by omega) (by omega) heq]
      · have hv := val_lt_of_ex_lt m2.natAbs m1.natAbs e2 e1 hM2 hM1 hgt
        have hcn : compare_numbers
            (((numDigits m1.natAbs - 1 : Nat) : Int) + e1)
            (((numDigits m2.natAbs - 1 : Nat) : Int) + e2) = 1 := by
          unfold compare_numbers
          rw [if_neg (by omega), if_neg (by omega)]
        rw [hcn]
        rw [if_pos (by norm_num)]
        unfold compare_numbers
        rw [if_neg (by linarith), if_neg (by intro hh; rw [hh] at hv; linarith)]


/-- One string is the other extended by (one or more) zero bytes. This is
exactly the case where the length suffix omitted by append_str_and_len would
have been needed. -/
def ZExt (s t : List Nat) : Prop :=
  s.length < t.length ∧ t = s ++ List.replicate (t.length - s.length) 0

theorem memcmpZ_nil_right (t : List Nat) :
    memcmpZ [] t = if t.all (fun x => x = 0) then 0 else -1 := by
  induction t with
  | nil => simp [memcmpZ]
  | cons y ys ih =>
      simp only [memcmpZ, List.all_cons]
      by_cases hy : 0 < y
      · rw [if_pos hy]
        simp [show ¬ (y = 0) by omega]
      · have hy0 : y = 0 := by omega
        subst hy0
        rw [if_neg (lt_irrefl 0), ih]
        simp

theorem memcmpZ_nil_left (t : List Nat) :
    memcmpZ t [] = if t.all (fun x => x = 0) then 0 else 1 := by
  induction t with
  | nil => simp [memcmpZ]
  | cons y ys ih =>
      simp only [memcmpZ, List.all_cons]
      by_cases hy : 0 < y
      · rw [if_pos hy]
        simp [show ¬ (y = 0) by omega]
      · have hy0 : y = 0 := by omega
        subst hy0
        rw [if_neg (lt_irrefl 0), ih]
        simp

theorem all_zero_eq_replicate (t : List Nat) (h : t.all (fun x => x = 0) = true) :
    t = List.replicate t.length 0 := by
  apply List.eq_replicate_of_mem
  intro b hb
  simpa using List.all_eq_true.mp h b hb

theorem memcmpZ_self_append_zeros (s : List Nat) (k : Nat) :
    memcmpZ s (s ++ List.replicate k 0) = 0 := by
  induction s with
  | nil =>
      rw [List.nil_append, memcmpZ_nil_right, if_pos]
      simp
  | cons x xs ih =>
      simp only [List.cons_append, memcmpZ]
      rw [if_neg (lt_irrefl x), if_neg (lt_irrefl x)]
      exact ih

theorem memcmpPrefix_self_ext (s r : List Nat) :
    memcmpPrefix s (s ++ r) = 0 := by
  induction s with
  | nil => rfl
  | cons x xs ih =>
      simp only [List.cons_append, memcmpPrefix]
      rw [if_neg (lt_irrefl x), if_neg (lt_irrefl x)]
      exact ih

theorem memcmpZ_antisym (s t : List Nat) : memcmpZ s t = -memcmpZ t s := by
  induction s generalizing t with
  | nil =>
      induction t with
      | nil => simp [memcmpZ]
      | cons y ys ih =>
          simp only [memcmpZ]
          by_cases hy : 0 < y
          · rw [if_pos hy, if_pos hy]
          · rw [if_neg hy, if_neg hy, ih]
  | cons x xs ih =>
      cases t with
      | nil =>
          simp only [memcmpZ]
          by_cases hx : 0 < x
          · rw [if_pos hx, if_pos hx]
            norm_num
          · rw [if_neg hx, if_neg hx, ih []]
      | cons y ys =>
          simp only [memcmpZ]
          by_cases hxy : x < y
          · rw [if_pos hxy, if_neg (by omega), if_pos hxy]
          · by_cases hyx : y < x
            · rw [if_neg hxy, if_pos hyx, if_pos hyx]
              norm_num
            · rw [if_neg hxy, if_neg hyx, if_neg hyx, if_neg hxy, ih ys]

/-- The degenerate string pair: the sort keys compare equal although the
strings do not. -/
theorem string_key_degenerate (s1 s2 : List Nat) (h : ZExt s1 s2) :
    memcmpZ s1 s2 = 0 ∧ compare_json_strings s1 s2 = -1 := by
  obtain ⟨hl, he⟩ := h
  constructor
  · rw [he]
    exact memcmpZ_self_append_zeros _ _
  · rw [he]
    unfold compare_json_strings
    rw [memcmpPrefix_self_ext]
    rw [if_neg (by norm_num)]
    unfold compare_numbers
    rw [if_pos (by
      simp only [List.length_append, List.length_replicate]
      omega)]

/-- Away from the degenerate pairs, memcmp of raw bytes in zero-filled
buffers agrees with compare_json_strings. -/
theorem string_key_cmp (s1 s2 : List Nat) (hz1 : ¬ ZExt s1 s2)
    (hz2 : ¬ ZExt s2 s1) :
    memcmpZ s1 s2 = compare_json_strings s1 s2 := by
  induction s1 generalizing s2 with
  | nil =>
      cases s2 with
      | nil => simp [memcmpZ, compare_json_strings, memcmpPrefix, compare_numbers]
      | cons y ys =>
          have hnz : ¬ ((y :: ys).all (fun x => x = 0) = true) := by
            intro hall
            apply hz1
            refine ⟨by simp, ?_⟩
            simp only [List.nil_append, List.length_nil, Nat.sub_zero]
            exact all_zero_eq_replicate _ hall
          rw [memcmpZ_nil_right, if_neg hnz]
          unfold compare_json_strings
          rw [show memcmpPrefix [] (y :: ys) = 0 from rfl]
          rw [if_neg (by norm_num)]
          unfold compare_numbers
          rw [if_pos (by simp)]
  | cons x xs ih =>
      cases s2 with
      | nil =>
          have hnz : ¬ ((x :: xs).all (fun z => z = 0) = true) := by
            intro hall
            apply hz2
            refine ⟨by simp, ?_⟩
            simp only [List.nil_append, List.length_nil, Nat.sub_zero]
            exact all_zero_eq_replicate _ hall
          rw [memcmpZ_nil_left, if_neg hnz]
          unfold compare_json_strings
          rw [show memcmpPrefix (x :: xs) [] = 0 from rfl]
          rw [if_neg (by norm_num)]
          unfold compare_numbers
          rw [if_neg (by simp), if_neg (by simp)]
      | cons y ys =>
          by_cases hxy : x < y
          · simp only [memcmpZ]
            rw [if_pos hxy]
            unfold compare_json_strings
            simp only [memcmpPrefix]
            rw [if_pos hxy, if_pos (by norm_num : (-1:ℤ) ≠ 0)]
          · by_cases hyx : y < x
            · simp only [memcmpZ]
              rw [if_neg hxy, if_pos hyx]
              unfold compare_json_strings
              simp only [memcmpPrefix]
              rw [if_neg hxy, if_pos hyx, if_pos (by norm_num : (1:ℤ) ≠ 0)]
            · have hxy2 : x = y := by omega
              subst hxy2
              have hZ1 : ¬ ZExt xs ys := by
                rintro ⟨hls, hes⟩
                apply hz1
                refine ⟨by simpa using hls, ?_⟩
                simp only [List.length_cons, List.cons_append]
                have hcnt : xs.length + 1 + 1 - (xs.length + 1) = 1 := by omega
                rw [show ys.length + 1 - (xs.length + 1) = ys.length - xs.length by omega]
                rw [← hes]
              have hZ2 : ¬ ZExt ys xs := by
                rintro ⟨hls, hes⟩
                apply hz2
                refine ⟨by simpa using hls, ?_⟩
                simp only [List.length_cons, List.cons_append]
                rw [show xs.length + 1 - (ys.length + 1) = xs.length - ys.length by omega]
                rw [← hes]
              simp only [memcmpZ]
              rw [if_neg (lt_irrefl x), if_neg (lt_irrefl x), ih ys hZ1 hZ2]
              unfold compare_json_strings
              rw [memcmpPrefix_cons_same]
              by_cases hmp : memcmpPrefix xs ys = 0
              · rw [if_neg (not_not_intro hmp), if_neg (not_not_intro hmp)]
                simp only [List.length_cons]
                unfold compare_numbers
                by_cases h1 : xs.length < ys.length
                · rw [if_pos h1, if_pos (by omega)]
                · by_cases h2 : xs.length = ys.length
                  · rw [if_neg h1, if_pos h2, if_neg (by omega), if_pos (by omega)]
                  · rw [if_neg h1, if_neg h2, if_neg (by omega), if_neg (by omega)]
              · rw [if_pos hmp, if_pos hmp]


theorem compare_numbers_int_cast (a b : Int) :
    compare_numbers ((a : ℚ)) ((b : ℚ)) = compare_numbers a b := by
  unfold compare_numbers
  rcases lt_trichotomy a b with h | h | h
  · rw [if_pos (by exact_mod_cast h), if_pos h]
  · subst h
    rw [if_neg (lt_irrefl _), if_pos rfl, if_neg (lt_irrefl _), if_pos rfl]
  · have h1 : ¬ ((a:ℚ) < (b:ℚ)) := by exact_mod_cast (by omega : ¬ a < b)
    have h2 : ¬ ((a:ℚ) = (b:ℚ)) := by exact_mod_cast (by omega : ¬ a = b)
    rw [if_neg h1, if_neg h2, if_neg (by omega), if_neg (by omega)]

theorem compare_json_int_uint_eq_cn (i u : Int) (hu : 0 ≤ u) :
    compare_json_int_uint i u = compare_numbers ((i : ℚ)) ((u : ℚ)) := by
  unfold compare_json_int_uint
  by_cases hi : i < 0
  · rw [if_pos hi]
    unfold compare_numbers
    rw [if_pos (by exact_mod_cast (by omega : i < u))]
  · rw [if_neg hi, ← compare_numbers_int_cast]


theorem compare_json_decimal_int_eq_cn (x : DecV) (b : Int) :
    compare_json_decimal_int x b = compare_numbers (decVal x) ((b : ℚ)) := by
  unfold compare_json_decimal_int
  by_cases hz : decIsZero x = true
  · have hm : x.m = 0 := by simpa [decIsZero] using hz
    have hx0 : decVal x = 0 := by simp [decVal, hm]
    rw [if_pos hz]
    by_cases hb0 : b = 0
    · rw [if_pos hb0, hx0, hb0]
      unfold compare_numbers
      norm_num
    · rw [if_neg hb0]
      by_cases hbp : b > 0
      · rw [if_pos hbp]
        unfold compare_numbers
        rw [if_pos (by rw [hx0]; exact_mod_cast hbp)]
      · rw [if_neg hbp]
        unfold compare_numbers
        rw [if_neg (by
            rw [hx0]
            intro hh
            have hc : (0:Int) < b := by exact_mod_cast hh
            omega),
          if_neg (by
            rw [hx0]
            intro hh
            have hc : (0:Int) = b := by exact_mod_cast hh
            omega)]
  · have hm : x.m ≠ 0 := by simpa [decIsZero] using hz
    rw [if_neg hz]
    by_cases hb0 : b = 0
    · subst hb0
      rw [if_pos rfl]
      by_cases hs : decSign x = true
      · have hneg : decVal x < 0 :=
          (decVal_neg_iff x).mpr (by simpa [decSign] using hs)
        rw [if_pos hs]
        unfold compare_numbers
        rw [if_pos (by simpa using hneg)]
      · have hpos : 0 < decVal x := (decVal_pos_iff x).mpr (by
          have hnn : ¬ (x.m < 0) := by simpa [decSign] using hs
          omega)
        rw [if_neg hs]
        unfold compare_numbers
        rw [if_neg (by simpa using not_lt.mpr hpos.le),
          if_neg (by
            intro hh
            simp at hh
            exact absurd hh (ne_of_gt hpos))]
    · rw [if_neg hb0]
      by_cases hsd : decSign x ≠ decide (b < 0)
      · rw [if_pos hsd]
        by_cases hbneg : b < 0
        · rw [if_pos hbneg]
          have hds : decSign x = false := by
            rcases Bool.eq_false_or_eq_true (decSign x) with h | h
            · exact absurd (by rw [h]; simp [hbneg]) hsd
            · exact h
          have hxpos : 0 < decVal x := (decVal_pos_iff x).mpr (by
            have hnn : ¬ (x.m < 0) := by simpa [decSign] using hds
            omega)
          have hc : ((b:ℚ)) < 0 := by exact_mod_cast hbneg
          unfold compare_numbers
          rw [if_neg (by intro hh; linarith), if_neg (by intro hh; linarith)]
        · rw [if_neg hbneg]
          have hds : decSign x = true := by
            rcases Bool.eq_false_or_eq_true (decSign x) with h | h
            · exact h
            · exact absurd (by rw [h]; simp [hbneg]) hsd
          have hxneg : decVal x < 0 :=
            (decVal_neg_iff x).mpr (by simpa [decSign] using hds)
          have hc : (0:ℚ) ≤ ((b:ℚ)) := by exact_mod_cast not_lt.mp hbneg
          unfold compare_numbers
          rw [if_pos (by linarith)]
      · rw [if_neg hsd]

theorem compare_json_decimal_uint_eq_cn (x : DecV) (b : Int) (hb : 0 ≤ b) :
    compare_json_decimal_uint x b = compare_numbers (decVal x) ((b : ℚ)) := by
  unfold compare_json_decimal_uint
  by_cases hz : decIsZero x = true
  · have hm : x.m = 0 := by simpa [decIsZero] using hz
    have hx0 : decVal x = 0 := by simp [decVal, hm]
    rw [if_pos hz]
    by_cases hb0 : b = 0
    · rw [if_pos hb0, hx0, hb0]
      unfold compare_numbers
      norm_num
    · rw [if_neg hb0]
      unfold compare_numbers
      rw [if_pos (by rw [hx0]; exact_mod_cast (by omega : (0:Int) < b))]
  · have hm : x.m ≠ 0 := by simpa [decIsZero] using hz
    rw [if_neg hz]
    by_cases hs : decSign x = true
    · rw [if_pos hs]
      have hneg : decVal x < 0 :=
        (decVal_neg_iff x).mpr (by simpa [decSign] using hs)
      have hc : (0:ℚ) ≤ ((b:ℚ)) := by exact_mod_cast hb
      unfold compare_numbers
      rw [if_pos (by linarith)]
    · rw [if_neg hs]
      have hpos : 0 < decVal x := (decVal_pos_iff x).mpr (by
        have hnn : ¬ (x.m < 0) := by simpa [decSign] using hs
        omega)
      by_cases hb0 : b = 0
      · rw [if_pos hb0, hb0]
        unfold compare_numbers
        rw [if_neg (by intro hh; simp at hh; linarith),
          if_neg (by intro hh; simp at hh; linarith)]
      · rw [if_neg hb0]

theorem compare_json_double_uint_eq_double_int (a : DblV) (b : Int) :
    compare_json_double_uint a b = compare_json_double_int a b := rfl

/-- Numeric value of a numeric JSON scalar, and the mantissa/exponent pair
its sort key is built from. -/
def jsonNumVal : Json → ℚ
  | .intV i => (i : ℚ)
  | .uintV u => (u : ℚ)
  | .doubleV d => dblVal d
  | .decimalV x => decVal x
  | _ => 0

def numM : Json → Int
  | .intV i => i
  | .uintV u => u
  | .doubleV d => d.m
  | .decimalV x => x.m
  | _ => 0

def numE : Json → Int
  | .doubleV d => d.e
  | .decimalV x => x.e
  | _ => 0

def isNumeric (a : Json) : Prop :=
  kindOf a = .J_INT ∨ kindOf a = .J_UINT ∨ kindOf a = .J_DOUBLE ∨
    kindOf a = .J_DECIMAL

/-- Scalar: anything but an array or object. -/
def scalarJ (a : Json) : Prop :=
  kindOf a ≠ .J_ARRAY ∧ kindOf a ≠ .J_OBJECT

/-- Well-formedness for sort keys, per kind: mantissa/exponent in the
numeric-key range (always true for the real value domains), unsigned values
nonnegative, doubles in the 17-digit my_gcvt range, temporals packed in a
signed 64-bit word. -/
def sortWF : Json → Prop
  | .intV i => numWF i 0
  | .uintV u => 0 ≤ u ∧ numWF u 0
  | .doubleV d => numWF d.m d.e ∧ d.m.natAbs < 10 ^ 17
  | .decimalV x => numWF x.m x.e
  | .dateV p => -(2 ^ 63) ≤ p ∧ p < 2 ^ 63
  | .timeV p => -(2 ^ 63) ≤ p ∧ p < 2 ^ 63
  | .datetimeV p => -(2 ^ 63) ≤ p ∧ p < 2 ^ 63
  | .timestampV p => -(2 ^ 63) ≤ p ∧ p < 2 ^ 63
  | _ => True

/-- The degenerate pairs of C4: one byte payload is the other extended by
NUL bytes (same field type for opaques). -/
def nulExt : Json → Json → Prop
  | .stringV s1, .stringV s2 => ZExt s1 s2 ∨ ZExt s2 s1
  | .opaqueV f1 d1, .opaqueV f2 d2 => f1 = f2 ∧ (ZExt d1 d2 ∨ ZExt d2 d1)
  | _, _ => False

theorem key_numeric (a : Json) (ha : isNumeric a) :
    (make_sort_key a).1 = make_json_numeric_sort_key (numM a) (numE a) := by
  cases a <;> simp [isNumeric, kindOf] at ha <;> rfl

theorem numVal_eq (a : Json) (ha : isNumeric a) :
    (numM a : ℚ) * (10:ℚ) ^ (numE a) = jsonNumVal a := by
  cases a <;> simp [isNumeric, kindOf] at ha <;>
    simp [numM, numE, jsonNumVal, dblVal, decVal]

theorem numWF_of_sortWF (a : Json) (ha : isNumeric a) (hw : sortWF a) :
    numWF (numM a) (numE a) := by
  cases a <;> simp [isNumeric, kindOf] at ha
  case intV i => exact hw
  case uintV u => exact hw.2
  case doubleV d => exact hw.1
  case decimalV x => exact hw

theorem jcomparePayload_numeric (a b : Json) (ha : isNumeric a)
    (hb : isNumeric b) (hwa : sortWF a) (hwb : sortWF b) :
    jcomparePayload a b = compare_numbers (jsonNumVal a) (jsonNumVal b) := by
  cases a <;> simp [isNumeric, kindOf] at ha <;>
    cases b <;> simp [isNumeric, kindOf] at hb
  case intV.intV i j =>
      simp only [jcomparePayload, jsonNumVal]
      exact (compare_numbers_int_cast i j).symm
  case intV.uintV i u =>
      simp only [jcomparePayload, jsonNumVal]
      exact compare_json_int_uint_eq_cn i u hwb.1
  case intV.doubleV i d =>
      simp only [jcomparePayload, jsonNumVal]
      rw [compare_json_double_int_eq_cn d i hwb.2]
      exact (compare_numbers_antisym _ _).symm
  case intV.decimalV i x =>
      simp only [jcomparePayload, jsonNumVal]
      rw [compare_json_decimal_int_eq_cn x i]
      exact (compare_numbers_antisym _ _).symm
  case uintV.intV u i =>
      simp only [jcomparePayload, jsonNumVal]
      rw [compare_json_int_uint_eq_cn i u hwa.1]
      exact (compare_numbers_antisym _ _).symm
  case uintV.uintV u v =>
      simp only [jcomparePayload, jsonNumVal]
      exact (compare_numbers_int_cast u v).symm
  case uintV.doubleV u d =>
      simp only [jcomparePayload, jsonNumVal]
      rw [compare_json_double_uint_eq_double_int,
        compare_json_double_int_eq_cn d u hwb.2]
      exact (compare_numbers_antisym _ _).symm
  case uintV.decimalV u x =>
      simp only [jcomparePayload, jsonNumVal]
      rw [compare_json_decimal_uint_eq_cn x u hwa.1]
      exact (compare_numbers_antisym _ _).symm
  case doubleV.intV d i =>
      simp only [jcomparePayload, jsonNumVal]
      exact compare_json_double_int_eq_cn d i hwa.2
  case doubleV.uintV d u =>
      simp only [jcomparePayload, jsonNumVal]
      rw [compare_json_double_uint_eq_double_int]
      exact compare_json_double_int_eq_cn d u hwa.2
  case doubleV.doubleV d e =>
      simp only [jcomparePayload, jsonNumVal]
  case doubleV.decimalV d x =>
      simp only [jcomparePayload, jsonNumVal]
      rw [compare_json_decimal_double_eq_cn]
      exact (compare_numbers_antisym _ _).symm
  case decimalV.intV x i =>
      simp only [jcomparePayload, jsonNumVal]
      exact compare_json_decimal_int_eq_cn x i
  case decimalV.uintV x u =>
      simp only [jcomparePayload, jsonNumVal]
      exact compare_json_decimal_uint_eq_cn x u hwb.1
  case decimalV.doubleV x d =>
      simp only [jcomparePayload, jsonNumVal]
      exact compare_json_decimal_double_eq_cn x d
  case decimalV.decimalV x y =>
      simp only [jcomparePayload, jsonNumVal]
      by_cases h : (decIsZero x && decIsZero y) = true
      · rw [if_pos h]
        simp only [Bool.and_eq_true, decIsZero, decide_eq_true_eq] at h
        have hx : decVal x = 0 := by simp [decVal, h.1]
        have hy : decVal y = 0 := by simp [decVal, h.2]
        rw [hx, hy]
        unfold compare_numbers
        norm_num
      · rw [if_neg h]

/-- Same-class numeric scalars: sort keys memcmp exactly like compare. -/
theorem scalar_numeric_case (a b : Json) (ha : isNumeric a) (hb : isNumeric b)
    (hwa : sortWF a) (hwb : sortWF b)
    (htab : typeComparison (kindOf a) (kindOf b) = 0) :
    memcmpZ (make_sort_key a).1 (make_sort_key b).1 = jcompare a b := by
  rw [jcompare_eq_payload a b htab, jcomparePayload_numeric a b ha hb hwa hwb,
    key_numeric a ha, key_numeric b hb,
    numeric_key_eq_cn _ _ _ _ (numWF_of_sortWF a ha hwa) (numWF_of_sortWF b hb hwb),
    numVal_eq a ha, numVal_eq b hb]

/-- Temporal keys: one tag byte, then the sign-flipped big-endian packed
value. -/
theorem temporal_key_cmp (t : Nat) (p q : Int)
    (hp1 : -(2 ^ 63) ≤ p) (hp2 : p < 2 ^ 63)
    (hq1 : -(2 ^ 63) ≤ q) (hq2 : q < 2 ^ 63) :
    memcmpZ (t :: intKeyBytes 8 p) (t :: intKeyBytes 8 q) =
      compare_numbers p q := by
  rw [memcmpZ_of_length_eq _ _ (by simp [intKeyBytes_length])]
  rw [memcmpPrefix_cons_same]
  exact memcmp_intKeyBytes 8 (by norm_num) p q (by omega) (by omega) (by omega)
    (by omega)


/-- The sort key tag each value starts with (numeric tags depend on the
sign of the mantissa). -/
def tagOf : Json → Nat
  | .null => 0
  | .intV i => if i < 0 then 1 else if i = 0 then 2 else 3
  | .uintV u => if u < 0 then 1 else if u = 0 then 2 else 3
  | .doubleV d => if d.m < 0 then 1 else if d.m = 0 then 2 else 3
  | .decimalV x => if x.m < 0 then 1 else if x.m = 0 then 2 else 3
  | .stringV _ => 4
  | .objectV _ => 5
  | .arrayV _ => 6
  | .boolean b => if b then 8 else 7
  | .dateV _ => 9
  | .timeV _ => 10
  | .datetimeV _ => 11
  | .timestampV _ => 11
  | .opaqueV _ _ => 12

theorem mjnsk_head (m e : Int) :
    ∃ r, make_json_numeric_sort_key m e =
      (if m < 0 then 1 else if m = 0 then 2 else 3) :: r := by
  by_cases hm : m = 0
  · subst hm
    rw [mjnsk_zero]
    exact ⟨[], by norm_num⟩
  · unfold make_json_numeric_sort_key
    rw [if_neg hm]
    by_cases hneg : m < 0
    · simp only [if_pos hneg, if_neg hm]
      exact ⟨_, List.cons_append _ _ _⟩
    · simp only [if_neg hneg, if_neg hm]
      exact ⟨_, List.cons_append _ _ _⟩

theorem key_head (a : Json) : ∃ r, (make_sort_key a).1 = tagOf a :: r := by
  cases a
  case null => exact ⟨[], rfl⟩
  case intV i => exact mjnsk_head i 0
  case uintV u => exact mjnsk_head u 0
  case doubleV d => exact mjnsk_head d.m d.e
  case decimalV x => exact mjnsk_head x.m x.e
  case stringV s => exact ⟨s, rfl⟩
  case objectV fs => exact ⟨_, rfl⟩
  case arrayV xs => exact ⟨_, rfl⟩
  case boolean b =>
      cases b
      · exact ⟨[], rfl⟩
      · exact ⟨[], rfl⟩
  case dateV p => exact ⟨_, rfl⟩
  case timeV p => exact ⟨_, rfl⟩
  case datetimeV p => exact ⟨_, rfl⟩
  case timestampV p => exact ⟨_, rfl⟩
  case opaqueV ft data => exact ⟨_, rfl⟩

/-- Lowest and highest sort key tag used by each precedence class. -/
def clo : Nat → Nat
  | 0 => 0 | 1 => 1 | 2 => 4 | 3 => 5 | 4 => 6 | 5 => 7 | 6 => 9 | 7 => 10
  | 8 => 11 | _ => 12

def chi : Nat → Nat
  | 0 => 0 | 1 => 3 | 2 => 4 | 3 => 5 | 4 => 6 | 5 => 8 | 6 => 9 | 7 => 10
  | 8 => 11 | _ => 12

theorem tagOf_bounds (a : Json) :
    clo (classIdx (kindOf a)) ≤ tagOf a ∧ tagOf a ≤ chi (classIdx (kindOf a)) := by
  cases a <;> simp only [tagOf, kindOf, classIdx, clo, chi] <;>
    first
    | omega
    | (split_ifs <;> omega)
    | (rename_i b; cases b <;> norm_num)

/-- The tag ranges of distinct precedence classes are separated, in class
order. -/
theorem class_tag_sep : ∀ t1 t2 : JType, t1 ≠ .J_ERROR → t2 ≠ .J_ERROR →
    classIdx t1 < classIdx t2 → chi (classIdx t1) < clo (classIdx t2) := by
  decide

theorem memcmpZ_head_lt (x y : Nat) (xs ys : List Nat) (h : x < y) :
    memcmpZ (x :: xs) (y :: ys) = -1 := by
  simp [memcmpZ, h]

theorem scalar_cross_case (a b : Json)
    (h : classIdx (kindOf a) < classIdx (kindOf b)) :
    memcmpZ (make_sort_key a).1 (make_sort_key b).1 = -1 ∧ jcompare a b = -1 := by
  have hm := typeComparison_classes (kindOf a) (kindOf b) (kindOf_ne_error a)
    (kindOf_ne_error b)
  have htab : typeComparison (kindOf a) (kindOf b) = -1 := by
    rw [hm, if_neg (by omega), if_pos h]
  constructor
  · obtain ⟨r1, h1⟩ := key_head a
    obtain ⟨r2, h2⟩ := key_head b
    rw [h1, h2]
    apply memcmpZ_head_lt
    have b1 := tagOf_bounds a
    have b2 := tagOf_bounds b
    have hsep := class_tag_sep _ _ (kindOf_ne_error a) (kindOf_ne_error b) h
    omega
  · rw [jcompare_eq_table a b (by rw [htab]; norm_num), htab]

/-- Sort keys of values in different precedence classes memcmp exactly like
compare: the tags are ordered by class. -/
theorem scalar_cross (a b : Json)
    (h : classIdx (kindOf a) ≠ classIdx (kindOf b)) :
    memcmpZ (make_sort_key a).1 (make_sort_key b).1 = jcompare a b := by
  rcases Nat.lt_or_ge (classIdx (kindOf a)) (classIdx (kindOf b)) with hlt | hge
  · obtain ⟨hk, hj⟩ := scalar_cross_case a b hlt
    rw [hk, hj]
  · have hgt : classIdx (kindOf b) < classIdx (kindOf a) := by omega
    obtain ⟨hk, hj⟩ := scalar_cross_case b a hgt
    rw [memcmpZ_antisym, hk]
    have hm := typeComparison_classes (kindOf a) (kindOf b) (kindOf_ne_error a)
      (kindOf_ne_error b)
    have htab : typeComparison (kindOf a) (kindOf b) = 1 := by
      rw [hm, if_neg (by omega), if_neg (by omega)]
    rw [jcompare_eq_table a b (by rw [htab]; norm_num), htab]
    norm_num



theorem memcmpZ_self (l : List Nat) : memcmpZ l l = 0 := by
  induction l with
  | nil => simp [memcmpZ]
  | cons x xs ih =>
      simp only [memcmpZ]
      rw [if_neg (lt_irrefl x), if_neg (lt_irrefl x)]
      exact ih

/-- Counterexample to C4 as stated: the scalar strings "a" and "a\x00" have
memcmp-equal sort keys (append_str_and_len never wrote the length, since the
strings fit), yet compare orders them strictly. -/
theorem claim_C4_counterexample :
    memcmpZ (make_sort_key (.stringV [97])).1
        (make_sort_key (.stringV [97, 0])).1 = 0 ∧
      jcompare (.stringV [97]) (.stringV [97, 0]) = -1 := by
  constructor
  · norm_num [make_sort_key, memcmpZ]
  · rw [jcompare_eq_payload _ _ (by decide)]
    simp [jcomparePayload, compare_json_strings, memcmpPrefix, compare_numbers]

/-- C4, amended: for well-formed scalars the memcmp of the sort keys (in
large zero-filled buffers) EQUALS compare, except for the degenerate pairs
where one string/opaque payload is the other extended by NUL bytes (there
memcmp is 0 while compare is not). Containers keep only the kind tag and a
4-byte big-endian length and raise the not-supported warning; scalars never
raise it; and equal-length containers can memcmp equal while comparing
unequal. -/
theorem claim_C4 :
    (∀ a b : Json, scalarJ a → scalarJ b → sortWF a → sortWF b →
        ¬ nulExt a b →
        memcmpZ (make_sort_key a).1 (make_sort_key b).1 = jcompare a b) ∧
    (∀ a b : Json, nulExt a b →
        memcmpZ (make_sort_key a).1 (make_sort_key b).1 = 0 ∧
          jcompare a b ≠ 0) ∧
    (∀ xs, make_sort_key (.arrayV xs) = (6 :: beBytes 4 xs.length, true)) ∧
    (∀ fs, make_sort_key (.objectV fs) = (5 :: beBytes 4 fs.length, true)) ∧
    (∀ a : Json, scalarJ a → (make_sort_key a).2 = false) ∧
    (memcmpZ (make_sort_key (.arrayV [.intV 0])).1
        (make_sort_key (.arrayV [.intV 1])).1 = 0 ∧
      jcompare (.arrayV [.intV 0]) (.arrayV [.intV 1]) = -1) := by
  refine ⟨?_, ?_, ?_, ?_, ?_, ?_, ?_⟩
  · intro a b hsa hsb hwa hwb hne
    by_cases hcl : classIdx (kindOf a) = classIdx (kindOf b)
    · cases a <;> cases b
      all_goals try (exact absurd hcl (by simp only [kindOf, classIdx]; decide))
      all_goals try (exact absurd rfl hsa.1)
      all_goals try (exact absurd rfl hsa.2)
      all_goals try (exact absurd rfl hsb.1)
      all_goals try (exact absurd rfl hsb.2)
      all_goals try (exact scalar_numeric_case _ _ (by simp only [isNumeric, kindOf]; decide) (by simp only [isNumeric, kindOf]; decide) hwa hwb (by simp only [kindOf]; decide))
      case pos.null.null =>
        rw [jcompare_eq_payload _ _ (by decide)]
        simp only [make_sort_key, jcomparePayload]
        norm_num [memcmpZ]
      case pos.boolean.boolean p q =>
        rw [jcompare_eq_payload _ _ (by simp only [kindOf]; decide)]
        simp only [make_sort_key, jcomparePayload]
        cases p <;> cases q <;> norm_num [memcmpZ, compare_numbers] <;> try decide
      case pos.stringV.stringV s1 s2 =>
        rw [jcompare_eq_payload _ _ (by simp only [kindOf]; decide)]
        simp only [make_sort_key, jcomparePayload]
        rw [show memcmpZ (4 :: s1) (4 :: s2) = memcmpZ s1 s2 from by
          simp [memcmpZ]]
        simp only [nulExt] at hne
        push_neg at hne
        exact string_key_cmp s1 s2 hne.1 hne.2
      case pos.dateV.dateV p q =>
        rw [jcompare_eq_payload _ _ (by simp only [kindOf]; decide)]
        simp only [make_sort_key, jcomparePayload]
        exact temporal_key_cmp 9 p q hwa.1 hwa.2 hwb.1 hwb.2
      case pos.timeV.timeV p q =>
        rw [jcompare_eq_payload _ _ (by simp only [kindOf]; decide)]
        simp only [make_sort_key, jcomparePayload]
        exact temporal_key_cmp 10 p q hwa.1 hwa.2 hwb.1 hwb.2
      case pos.datetimeV.datetimeV p q =>
        rw [jcompare_eq_payload _ _ (by simp only [kindOf]; decide)]
        simp only [make_sort_key, jcomparePayload]
        exact temporal_key_cmp 11 p q hwa.1 hwa.2 hwb.1 hwb.2
      case pos.datetimeV.timestampV p q =>
        rw [jcompare_eq_payload _ _ (by simp only [kindOf]; decide)]
        simp only [make_sort_key, jcomparePayload]
        exact temporal_key_cmp 11 p q hwa.1 hwa.2 hwb.1 hwb.2
      case pos.timestampV.datetimeV p q =>
        rw [jcompare_eq_payload _ _ (by simp only [kindOf]; decide)]
        simp only [make_sort_key, jcomparePayload]
        exact temporal_key_cmp 11 p q hwa.1 hwa.2 hwb.1 hwb.2
      case pos.timestampV.timestampV p q =>
        rw [jcompare_eq_payload _ _ (by simp only [kindOf]; decide)]
        simp only [make_sort_key, jcomparePayload]
        exact temporal_key_cmp 11 p q hwa.1 hwa.2 hwb.1 hwb.2
      case pos.opaqueV.opaqueV f1 d1 f2 d2 =>
        rw [jcompare_eq_payload _ _ (by simp only [kindOf]; decide)]
        simp only [make_sort_key, jcomparePayload]
        rw [show memcmpZ (12 :: f1 :: d1) (12 :: f2 :: d2) =
            memcmpZ (f1 :: d1) (f2 :: d2) from by simp [memcmpZ]]
        by_cases hf : f1 < f2
        · rw [memcmpZ_head_lt _ _ _ _ hf]
          have hcf : compare_numbers f1 f2 = -1 := by
            unfold compare_numbers
            rw [if_pos hf]
          rw [hcf, if_pos (by norm_num)]
        · by_cases hg : f2 < f1
          · rw [show memcmpZ (f1 :: d1) (f2 :: d2) = 1 from by
              simp [memcmpZ, hf, hg]]
            have hcf : compare_numbers f1 f2 = 1 := by
              unfold compare_numbers
              rw [if_neg hf, if_neg (by omega)]
            rw [hcf, if_pos (by norm_num)]
          · have hfe : f1 = f2 := by omega
            subst hfe
            rw [show memcmpZ (f1 :: d1) (f1 :: d2) = memcmpZ d1 d2 from by
              simp [memcmpZ]]
            have hcf : compare_numbers f1 f1 = 0 := by
              unfold compare_numbers
              rw [if_neg (lt_irrefl _), if_pos rfl]
            rw [hcf, if_neg (by norm_num)]
            simp only [nulExt] at hne
            have h12 : ¬ (ZExt d1 d2 ∨ ZExt d2 d1) := fun hor => hne ⟨trivial, hor⟩
            exact string_key_cmp d1 d2 (fun h => h12 (Or.inl h))
              (fun h => h12 (Or.inr h))
    · exact scalar_cross a b hcl
  · intro a b hne
    cases a <;> cases b
    all_goals try (exact False.elim hne)
    case stringV.stringV s1 s2 =>
      simp only [nulExt] at hne
      constructor
      · simp only [make_sort_key]
        rw [show memcmpZ (4 :: s1) (4 :: s2) = memcmpZ s1 s2 from by
          simp [memcmpZ]]
        rcases hne with h | h
        · exact (string_key_degenerate s1 s2 h).1
        · rw [memcmpZ_antisym, (string_key_degenerate s2 s1 h).1]
          norm_num
      · rw [jcompare_eq_payload _ _ (by simp only [kindOf]; decide)]
        simp only [jcomparePayload]
        rcases hne with h | h
        · rw [(string_key_degenerate s1 s2 h).2]
          norm_num
        · rw [compare_json_strings_antisym, (string_key_degenerate s2 s1 h).2]
          norm_num
    case opaqueV.opaqueV f1 d1 f2 d2 =>
      simp only [nulExt] at hne
      obtain ⟨hfe, hor⟩ := hne
      subst hfe
      constructor
      · simp only [make_sort_key]
        rw [show memcmpZ (12 :: f1 :: d1) (12 :: f1 :: d2) = memcmpZ d1 d2 from by
          simp [memcmpZ]]
        rcases hor with h | h
        · exact (string_key_degenerate d1 d2 h).1
        · rw [memcmpZ_antisym, (string_key_degenerate d2 d1 h).1]
          norm_num
      · rw [jcompare_eq_payload _ _ (by simp only [kindOf]; decide)]
        simp only [jcomparePayload]
        have hcf : compare_numbers f1 f1 = 0 := by
          unfold compare_numbers
          rw [if_neg (lt_irrefl _), if_pos rfl]
        rw [hcf, if_neg (by norm_num)]
        rcases hor with h | h
        · rw [(string_key_degenerate d1 d2 h).2]
          norm_num
        · rw [compare_json_strings_antisym, (string_key_degenerate d2 d1 h).2]
          norm_num
  · intro xs
    rfl
  · intro fs
    rfl
  · intro a ha
    cases a <;>
      first
      | rfl
      | exact absurd rfl ha.1
      | exact absurd rfl ha.2
  · exact memcmpZ_self _
  · rw [jcompare_eq_payload _ _ (by decide)]
    simp [jcomparePayload, compareArrays, jcompare, typeComparison, kindOf,
      jtypeIdx, type_comparison, compare_numbers]

/-- Witness: conjunct one of C4 at the concrete strings "a" and "b". -/
theorem claim_C4_witness :
    memcmpZ (make_sort_key (.stringV [97])).1 (make_sort_key (.stringV [98])).1 =
      jcompare (.stringV [97]) (.stringV [98]) :=
  claim_C4.1 (.stringV [97]) (.stringV [98]) ⟨by decide, by decide⟩
    ⟨by decide, by decide⟩ trivial trivial (by simp [nulExt, ZExt])

end JsonCore
